import Mathlib

/-!
Verification of the AnveshanaVidya retrieval core: a shallow embedding of
the Trie (src/utils/Trie.ts), the LRU cache (LRUCache, src), the case-study
ingestion/search service (CaseStudyIngestion) and the RAG query pipeline
(CaseStudyRAG.ts, PromptTemplates.ts), with theorems settling the frozen
claims about them.

Modelling conventions:
* JavaScript strings are Lean `String`s; character-level work uses `.data`
  (a `List Char`).  `toLowerCase`/`toUpperCase` are modelled by
  `Char.toLower`/`Char.toUpper`, which agree with JS on the ASCII range.
* JavaScript `Map`s are association lists in insertion order: `set` on an
  existing key replaces in place, on a new key appends; `delete` removes the
  entry.  JS `Set`s of strings are lists without duplicates, `add` appends
  if absent.
* JS numbers used for relevance scores/confidences are finite decimal
  constants (1.0, 0.95, …, 0.3, 0.25, 0.8); they are modelled exactly in
  `Int`, scaled by 100 (one unit = 0.01), so that all score arithmetic —
  which only ever adds these constants and compares — is exact and
  kernel-computable.  E.g. the source constant `0.5` becomes `50`, the
  interval `[0, 1]` becomes `[0, 100]`.
* Code that would throw a `TypeError` (property access on `undefined`)
  is modelled with `Option`, `none` marking the throw.
* Stateful classes become explicit state records with pure operations.
-/

namespace AV

/-! ## Shared string helpers (ASCII-faithful models of the JS operations) -/

/-- `String.prototype.toLowerCase`, on the ASCII range. -/
def strLower (s : String) : String := ⟨s.data.map Char.toLower⟩

/-- `String.prototype.toUpperCase`, on the ASCII range. -/
def strUpper (s : String) : String := ⟨s.data.map Char.toUpper⟩

/-- `a.includes(b)`: `b` occurs contiguously inside `a`. -/
def strIncludes (a b : String) : Bool := go a.data
where
  go : List Char → Bool
    | [] => b.data.isPrefixOf []
    | c :: rest => b.data.isPrefixOf (c :: rest) || go rest

/-- JS string truthiness for `x || d` where `x : string | undefined`. -/
def jsOrStr (x : Option String) (d : String) : String :=
  match x with
  | some s => if s = "" then d else s
  | none => d

/-- `list.join(sep)`. -/
def joinSep (sep : String) : List String → String
  | [] => ""
  | [s] => s
  | s :: rest => s ++ sep ++ joinSep sep rest

/-- Split a character list at every character satisfying `p`
(each separator character starts a new chunk, so runs of separators
produce empty chunks, exactly like `split` with a one-character regex). -/
def splitOnPred (p : Char → Bool) (cs : List Char) : List (List Char) :=
  cs.foldr
    (fun c acc =>
      if p c then [] :: acc
      else match acc with
        | a :: rest => (c :: a) :: rest
        | [] => [[c]])
    [[]]

/-- `s.split(':')`. -/
def splitColon (s : String) : List String :=
  (splitOnPred (· = ':') s.data).map (fun cs => ⟨cs⟩)

/-- JS `\w` word characters: `[A-Za-z0-9_]`. -/
def isWordChar (c : Char) : Bool :=
  ('a' ≤ c && c ≤ 'z') || ('A' ≤ c && c ≤ 'Z') || ('0' ≤ c && c ≤ '9') || c = '_'

/-- JS `\s`, restricted to the common ASCII whitespace characters. -/
def isSpaceChar (c : Char) : Bool :=
  c = ' ' || c = '\t' || c = '\n' || c = '\r'

/-! ## Trie — embedding of `src/src/utils/Trie.ts`

`TrieNode` has a `Map<string, TrieNode>` of children (one-character keys),
an `isEndOfWord` flag and an optional `value` holding the original-cased
word at terminal nodes.  The child map is an insertion-ordered association
list, written as the mutual inductive `ChildList` so that tree recursion is
structural (hence kernel-computable). -/

mutual
inductive TrieNode : Type where
  | mk : ChildList → Bool → Option String → TrieNode
inductive ChildList : Type where
  | nil : ChildList
  | cons : Char → TrieNode → ChildList → ChildList
end

def TrieNode.children : TrieNode → ChildList
  | .mk cs _ _ => cs

def TrieNode.isEndOfWord : TrieNode → Bool
  | .mk _ e _ => e

def TrieNode.value : TrieNode → Option String
  | .mk _ _ v => v

/-- `new TrieNode()`. -/
def TrieNode.empty : TrieNode := .mk .nil false none

/-- `Map.prototype.get`. -/
def ChildList.get? : ChildList → Char → Option TrieNode
  | .nil, _ => none
  | .cons c n rest, d => if c = d then some n else rest.get? d

/-- `Map.prototype.set`: replace in place if present, else append. -/
def ChildList.set : ChildList → Char → TrieNode → ChildList
  | .nil, d, m => .cons d m .nil
  | .cons c n rest, d, m => if c = d then .cons c m rest else .cons c n (rest.set d m)

/-- `Map.prototype.delete`. -/
def ChildList.del : ChildList → Char → ChildList
  | .nil, _ => .nil
  | .cons c n rest, d => if c = d then rest else .cons c n (rest.del d)

/-- `Map.prototype.size`. -/
def ChildList.size : ChildList → Nat
  | .nil => 0
  | .cons _ _ rest => rest.size + 1

/-- The keys of a child map, in order. -/
def ChildList.keysList : ChildList → List Char
  | .nil => []
  | .cons c _ rest => c :: rest.keysList

structure Trie where
  root : TrieNode
  size : Nat

/-- `new Trie()`. -/
def Trie.empty : Trie := ⟨TrieNode.empty, 0⟩

/-- The recursive walk of `insert`: follow (creating missing children) the
normalized characters, then mark the end node and store the original word;
the `Bool` reports whether the word count grew (`!current.isEndOfWord`). -/
def insertChars : TrieNode → List Char → String → TrieNode × Bool
  | n, [], w =>
    if n.isEndOfWord then (n, false)
    else (.mk n.children true (some w), true)
  | n, c :: rest, w =>
    let child := match n.children.get? c with
      | some ch => ch
      | none => TrieNode.empty
    let r := insertChars child rest w
    (.mk (n.children.set c r.1) n.isEndOfWord n.value, r.2)

/-- `Trie.insert(word)`: no-op on the empty string; normalizes to lowercase
for traversal but stores the original casing at the terminal node. -/
def Trie.insert (t : Trie) (word : String) : Trie :=
  if word.data = [] then t
  else
    let r := insertChars t.root (strLower word).data word
    ⟨r.1, if r.2 then t.size + 1 else t.size⟩

/-- `Trie.findNode(prefix)` (the prefix is already normalized). -/
def findNode : TrieNode → List Char → Option TrieNode
  | n, [] => some n
  | n, c :: rest =>
    match n.children.get? c with
    | some ch => findNode ch rest
    | none => none

/-- `Trie.search(word)`: case-insensitive exact membership. -/
def Trie.search (t : Trie) (word : String) : Bool :=
  if word.data = [] then false
  else
    match findNode t.root (strLower word).data with
    | some n => n.isEndOfWord
    | none => false

/-- `Trie.startsWith(prefix)`: empty prefix matches everything. -/
def Trie.startsWith (t : Trie) (p : String) : Bool :=
  if p.data = [] then true
  else (findNode t.root (strLower p).data).isSome

/-- The `if (node.isEndOfWord && node.value) { results.push(node.value) }`
step (JS truthiness: an empty-string value is falsy and not pushed). -/
def pushChild (node : TrieNode) (results : List String) : List String :=
  match node.isEndOfWord, node.value with
  | true, some v => if v = "" then results else results ++ [v]
  | _, _ => results

/-! `Trie.dfsCollect(node, results, limit)`: visit children in map order,
pushing each terminal child's stored value (when truthy) and recursing,
stopping as soon as `results` reaches `limit`. -/
mutual
def dfsCollect : TrieNode → List String → Nat → List String
  | .mk cs _ _, results, limit =>
    if limit ≤ results.length then results
    else dfsChildren cs results limit

def dfsChildren : ChildList → List String → Nat → List String
  | .nil, results, _ => results
  | .cons _ child rest, results, limit =>
    let r1 := pushChild child results
    if limit ≤ r1.length then r1
    else
      let r2 := dfsCollect child r1 limit
      if limit ≤ r2.length then r2
      else dfsChildren rest r2 limit
end

/-- `Trie.autocomplete(prefix, limit)`: empty results on empty or unmatched
prefix; if the prefix node is itself a stored word its value goes first;
then DFS-collect descendants up to `limit`. -/
def Trie.autocomplete (t : Trie) (p : String) (limit : Nat) : List String :=
  if p.data = [] then []
  else
    match findNode t.root (strLower p).data with
    | none => []
    | some startNode =>
      let results := pushChild startNode []
      dfsCollect startNode results limit

/-- The in-place mutation in `delete`: at the node for the normalized word,
clear `isEndOfWord` and `value`. -/
def clearEnd : TrieNode → List Char → TrieNode
  | .mk cs _e _v, [] => .mk cs false none
  | .mk cs e v, c :: rest =>
    match cs.get? c with
    | some ch => .mk (cs.set c (clearEnd ch rest)) e v
    | none => .mk cs e v

/-- `Trie.deleteHelper(node, word, index)`: post-order cleanup removing
now-dead-end nodes; the `Bool` tells the parent to unlink this child. -/
def deleteHelper : TrieNode → List Char → TrieNode × Bool
  | n, [] => (n, decide (n.children.size = 0))
  | n, c :: rest =>
    match n.children.get? c with
    | none => (n, false)
    | some child =>
      let r := deleteHelper child rest
      if r.2 then
        let cs' := n.children.del c
        (.mk cs' n.isEndOfWord n.value, decide (cs'.size = 0) && !n.isEndOfWord)
      else (.mk (n.children.set c r.1) n.isEndOfWord n.value, false)

/-- `Trie.delete(word)`: false on the empty string or a missing word;
otherwise unmark the terminal node, decrement the count and prune. -/
def Trie.delete (t : Trie) (word : String) : Trie × Bool :=
  if word.data = [] then (t, false)
  else
    let norm := (strLower word).data
    match findNode t.root norm with
    | none => (t, false)
    | some n =>
      if n.isEndOfWord then
        let root1 := clearEnd t.root norm
        let root2 := (deleteHelper root1 norm).1
        (⟨root2, t.size - 1⟩, true)
      else (t, false)

/-- Fold-insert a list of words into an empty trie. -/
def mkTrie (ws : List String) : Trie := ws.foldl Trie.insert Trie.empty

/-- Specification-level membership: the node reached by the (already
normalized) character list is terminal. -/
def memb : TrieNode → List Char → Bool
  | n, [] => n.isEndOfWord
  | n, c :: rest =>
    match n.children.get? c with
    | some ch => memb ch rest
    | none => false

/-! Well-formedness of child maps: no duplicate keys, recursively (JS `Map`
keys are unique; the association-list model must carry this invariant). -/
mutual
inductive UNode : TrieNode → Prop where
  | mk : ∀ cs e v, UChildren cs → UNode (.mk cs e v)
inductive UChildren : ChildList → Prop where
  | nil : UChildren .nil
  | cons : ∀ c n rest, UNode n → UChildren rest → rest.get? c = none →
      UChildren (.cons c n rest)
end

/-! Value/path coherence of a trie node sitting at `path` (the characters
from the root): a stored value is a nonempty word whose lowercase spelling
is exactly `path`, and terminal nodes do store a value.  This is the
invariant `insert` establishes. -/
mutual
inductive WNode : TrieNode → List Char → Prop where
  | mk : ∀ cs e v path,
      (∀ w, v = some w → (strLower w).data = path ∧ w ≠ "") →
      (e = true → v.isSome) →
      WChildren cs path → WNode (.mk cs e v) path
inductive WChildren : ChildList → List Char → Prop where
  | nil : ∀ path, WChildren .nil path
  | cons : ∀ c n rest path, WNode n (path ++ [c]) → WChildren rest path →
      WChildren (.cons c n rest) path
end

/-! ### All values stored anywhere in (the subtree of) a node. -/
mutual
def valuesOf : TrieNode → List String
  | .mk cs _ v => (match v with | some w => [w] | none => []) ++ valuesOfChildren cs
def valuesOfChildren : ChildList → List String
  | .nil => []
  | .cons _ n rest => valuesOf n ++ valuesOfChildren rest
end

/-! ## LRU cache — embedding of the `LRUCache` class

The class keeps a `Map<K, LRUNode>` (`cache`) and an intrusive doubly linked
list of nodes (`head` = most recently used, `tail` = least recently used).
Node objects live on the JS heap and are mutated through references; the
embedding gives every allocated node a numeric id: `nodes : Nat → Option _`
is the heap, `nextId` the allocation counter, and the `prev`/`next` object
references become `Option Nat` ids.  The `cache` map is an association list
from keys to node ids.  `capacity` is an `Int` so that the constructor's
non-positivity check is meaningful. -/

structure LRUNodeData (K V : Type) where
  key : K
  value : V
  prev : Option Nat
  next : Option Nat

structure LRUState (K V : Type) where
  capacity : Int
  nodes : Nat → Option (LRUNodeData K V)
  nextId : Nat
  cache : List (K × Nat)
  head : Option Nat
  tail : Option Nat
  hits : Nat
  misses : Nat

variable {K V α : Type} [DecidableEq K]

/-- `Map.prototype.get` on an association list. -/
def mapGet? (l : List (K × α)) (k : K) : Option α :=
  match l with
  | [] => none
  | (k', i) :: rest => if k' = k then some i else mapGet? rest k

/-- `Map.prototype.set`: replace in place if present, else append. -/
def mapSet (l : List (K × α)) (k : K) (i : α) : List (K × α) :=
  match l with
  | [] => [(k, i)]
  | (k', j) :: rest => if k' = k then (k, i) :: rest else (k', j) :: mapSet rest k i

/-- `Map.prototype.delete`. -/
def mapDel (l : List (K × α)) (k : K) : List (K × α) :=
  match l with
  | [] => []
  | (k', j) :: rest => if k' = k then rest else (k', j) :: mapDel rest k

/-- `Set.prototype.add` on a duplicate-free list (append if absent). -/
def setAdd (l : List String) (s : String) : List String :=
  if l.contains s then l else l ++ [s]

/-- Mutate the node object with id `i` (a no-op if no such node exists —
in the source the reference always exists). -/
def updNode (st : LRUState K V) (i : Nat)
    (f : LRUNodeData K V → LRUNodeData K V) : LRUState K V :=
  { st with nodes := Function.update st.nodes i ((st.nodes i).map f) }

namespace LRUCache

/-- The freshly constructed cache state (after the capacity check). -/
def initState (cap : Int) : LRUState K V :=
  { capacity := cap, nodes := fun _ => none, nextId := 0, cache := [],
    head := none, tail := none, hits := 0, misses := 0 }

/-- `new LRUCache(capacity)`: throws on `capacity <= 0`. -/
def new (cap : Int) : Except String (LRUState K V) :=
  if cap ≤ 0 then .error "Capacity must be greater than 0"
  else .ok (initState cap)

/-- `addToHead(node)`. -/
def addToHead (st : LRUState K V) (i : Nat) : LRUState K V :=
  -- node.prev = null; node.next = this.head
  let st1 := updNode st i (fun n => { n with prev := none, next := st.head })
  -- if (this.head) { this.head.prev = node }
  let st2 := match st1.head with
    | some h => updNode st1 h (fun n => { n with prev := some i })
    | none => st1
  -- this.head = node
  let st3 := { st2 with head := some i }
  -- if (!this.tail) { this.tail = node }
  if st3.tail = none then { st3 with tail := some i } else st3

/-- `removeNode(node)`: unlink from the doubly linked list (the node's own
`prev`/`next` fields are left stale, as in the source). -/
def removeNode (st : LRUState K V) (i : Nat) : LRUState K V :=
  match st.nodes i with
  | none => st
  | some n =>
    let st1 := match n.prev with
      | some p => updNode st p (fun m => { m with next := n.next })
      | none => { st with head := n.next }
    match n.next with
    | some q => updNode st1 q (fun m => { m with prev := n.prev })
    | none => { st1 with tail := n.prev }

/-- `moveToHead(node)`: no-op when the node already is the head. -/
def moveToHead (st : LRUState K V) (i : Nat) : LRUState K V :=
  if st.head = some i then st
  else addToHead (removeNode st i) i

/-- `get(key)`: miss counts, hit counts and promotes. -/
def get (st : LRUState K V) (k : K) : LRUState K V × Option V :=
  match mapGet? st.cache k with
  | none => ({ st with misses := st.misses + 1 }, none)
  | some i =>
    let st1 := { st with hits := st.hits + 1 }
    (moveToHead st1 i, (st.nodes i).map (·.value))

/-- `removeTail()`: unlink the tail node and delete its key from the map. -/
def removeTail (st : LRUState K V) : LRUState K V :=
  match st.tail with
  | none => st
  | some t =>
    let key? := (st.nodes t).map (·.key)
    let st1 := removeNode st t
    match key? with
    | some k => { st1 with cache := mapDel st1.cache k }
    | none => st1

/-- `put(key, value)`: update-and-promote on an existing key; otherwise
allocate a node, insert it at the head, and evict the tail if the capacity
is now exceeded. -/
def put (st : LRUState K V) (k : K) (v : V) : LRUState K V :=
  match mapGet? st.cache k with
  | some i =>
    let st1 := updNode st i (fun n => { n with value := v })
    moveToHead st1 i
  | none =>
    let i := st.nextId
    let st1 := { st with
      nodes := Function.update st.nodes i (some ⟨k, v, none, none⟩),
      nextId := st.nextId + 1 }
    let st2 := { st1 with cache := mapSet st1.cache k i }
    let st3 := addToHead st2 i
    if (st3.cache.length : Int) > st3.capacity then removeTail st3 else st3

/-- `has(key)`. -/
def has (st : LRUState K V) (k : K) : Bool := (mapGet? st.cache k).isSome

/-- A sequence of `put` calls, one per `(key, value)` pair. -/
def foldPuts (st : LRUState K V) (ps : List (K × V)) : LRUState K V :=
  ps.foldl (fun s p => put s p.1 p.2) st

/-- `delete(key)`. -/
def del (st : LRUState K V) (k : K) : LRUState K V × Bool :=
  match mapGet? st.cache k with
  | none => (st, false)
  | some i =>
    let st1 := removeNode st i
    ({ st1 with cache := mapDel st1.cache k }, true)

/-- `clear()` (the JS node objects become garbage; the model's heap keeps
them, unreachable). -/
def clear (st : LRUState K V) : LRUState K V :=
  { st with cache := [], head := none, tail := none, hits := 0, misses := 0 }

/-- `size()`. -/
def size (st : LRUState K V) : Nat := st.cache.length

/-- The `while (current) { keys.push(current.key); current = current.next }`
walk of `keys()`.  The source loop has no fuel; `nextId` bounds the number
of allocated nodes, so it bounds the chain length in every well-formed
state. -/
def keysAux (nodes : Nat → Option (LRUNodeData K V)) : Nat → Option Nat → List K
  | 0, _ => []
  | _ + 1, none => []
  | fuel + 1, some i =>
    match nodes i with
    | none => []
    | some n => n.key :: keysAux nodes fuel n.next

/-- `keys()`: snapshot of keys from most to least recently used, i.e. the
doubly linked list as reachable from `head`. -/
def keys (st : LRUState K V) : List K := keysAux st.nodes st.nextId st.head

/-- The states reachable from a (successfully constructed) cache through
the mutating operations `get`/`put`/`delete`/`clear` (`has`, `size`,
`keys`, `values`, `entries`, `getCapacity` do not mutate). -/
inductive Reachable : LRUState K V → Prop where
  | init : ∀ cap : Int, 0 < cap → Reachable (initState cap)
  | step_get : ∀ st k, Reachable st → Reachable (get st k).1
  | step_put : ∀ st k v, Reachable st → Reachable (put st k v)
  | step_del : ∀ st k, Reachable st → Reachable (del st k).1
  | step_clear : ∀ st, Reachable st → Reachable (clear st)

/-- Abstract contents of the linked list, most recently used first:
`(node id, key, value)` triples. -/
abbrev AbsList (K V : Type) := List (Nat × K × V)

/-- The first node id of an abstract segment, defaulting to `dflt`. -/
def firstId (xs : AbsList K V) (dflt : Option Nat) : Option Nat :=
  match xs with
  | [] => dflt
  | e :: _ => some e.1

/-- The last node id of an abstract segment, defaulting to `dflt`. -/
def lastId (xs : AbsList K V) (dflt : Option Nat) : Option Nat :=
  match xs.getLast? with
  | some e => some e.1
  | none => dflt

/-- The heap `nodes` links the triples of `xs` consecutively: the first
element's `prev` is `p`, each `next` points to the following element, and
the last element's `next` is `nx`. -/
def Links (nodes : Nat → Option (LRUNodeData K V)) :
    Option Nat → AbsList K V → Option Nat → Prop
  | _, [], _ => True
  | p, e :: rest, nx =>
    nodes e.1 = some ⟨e.2.1, e.2.2, p, firstId rest nx⟩ ∧
      Links nodes (some e.1) rest nx

/-- Pointer-structure part of the representation invariant: the doubly
linked list of the state is exactly `ord` (most recent first). -/
structure RepList (st : LRUState K V) (ord : AbsList K V) : Prop where
  hlinks : Links st.nodes none ord none
  hhead : st.head = firstId ord none
  htail : st.tail = lastId ord none
  hids : (ord.map (·.1)).Nodup

/-- Full representation invariant: the pointer structure is `ord`, ids are
below the allocation counter, keys are distinct, and the key map holds
exactly the chain's entries (in some insertion order). -/
structure Rep (st : LRUState K V) (ord : AbsList K V) : Prop where
  core : RepList st ord
  hlt : ∀ e ∈ ord, e.1 < st.nextId
  hkeys : (ord.map (·.2.1)).Nodup
  hcache : st.cache.Perm (ord.map (fun e => (e.2.1, e.1)))

end LRUCache

/-! ## Case-study schema — `src/src/types/caseStudySchema.ts`

Record fields that none of the embedded operations ever read (optional
hashes, sizes, dates, references, …) are omitted; enum-typed fields
(`severity`, `evidence_value`, `significance`, `category`, …) are plain
strings, as TypeScript string-union types are. -/

structure TimelineEvent where
  timestamp : String
  event : String
  artifact_id : Option String
  tool : Option String
  significance : String

structure ForensicArtifact where
  artifact_id : String
  type : String
  description : String
  location : String
  evidence_value : String

structure ToolUsage where
  tool_name : String
  purpose : String
  output_summary : String

structure Finding where
  finding_id : String
  category : String
  description : String

structure InvestigationLesson where
  lesson_id : String
  category : String
  description : String
  best_practice : String

structure CaseStudyEnhanced where
  case_id : String
  title : String
  summary : String
  scenario : String
  industry : String
  incident_type : String
  severity : String
  timeline : List TimelineEvent
  artifacts : List ForensicArtifact
  tools_used : List ToolUsage
  findings : List Finding
  conclusions : List String
  lessons_learned : List InvestigationLesson
  keywords : List String

/-- `Citation` (confidence scaled by 100: the schema's `[0, 1]` interval
is `[0, 100]` here). -/
structure Citation where
  case_id : String
  artifact_id : Option String
  finding_id : Option String
  confidence : Int
deriving DecidableEq

inductive PromptMode where
  | direct_qa | guided_walkthrough | teaching
deriving DecidableEq

/-! ## Ingestion service — `CaseStudyIngestion` (src/unnamed/part_010) -/

/-- One row of `INGESTION_RULES` (weights scaled by 100). -/
structure IngestionRule where
  field : String
  weight : Int
  indexed : Bool
  trie_indexed : Bool

def INGESTION_RULES : List IngestionRule := [
  ⟨"case_id", 100, true, true⟩,
  ⟨"title", 95, true, true⟩,
  ⟨"summary", 85, true, false⟩,
  ⟨"incident_type", 90, true, true⟩,
  ⟨"industry", 50, true, false⟩,
  ⟨"keywords", 80, true, true⟩,
  ⟨"artifacts.type", 75, true, true⟩,
  ⟨"findings.category", 70, true, false⟩,
  ⟨"tools_used.tool_name", 65, true, true⟩,
  ⟨"lessons_learned.category", 50, true, false⟩]

structure IndexedCase where
  caseStudy : CaseStudyEnhanced   -- field `case` in the source
  keywords : List String
  artifact_map : List (String × ForensicArtifact)
  finding_map : List (String × Finding)
  tool_names : List String

structure SearchResult where
  case_id : String
  relevance_score : Int
  matched_keywords : List String
  matched_artifacts : List String
  matched_findings : List String
deriving DecidableEq

structure IngestState where
  indexedCases : List (String × IndexedCase)
  keywordIndex : List (String × List String)
  artifactTrie : Trie
  toolTrie : Trie
  caseTrie : Trie

def emptyIngest : IngestState := ⟨[], [], Trie.empty, Trie.empty, Trie.empty⟩

/-- `extractKeywords(caseStudy, keywords)`: for each `INGESTION_RULES` row
(all have `indexed: true`), `getNestedValue` fetches the named field —
specialised here at the ten static paths — and its string values are added
lowercased.  On two-step paths over arrays `getNestedValue` maps and drops
falsy (empty-string) entries via `.filter(Boolean)`. -/
def extractKeywords (c : CaseStudyEnhanced) (kws : List String) : List String :=
  let kws := setAdd kws (strLower c.case_id)
  let kws := setAdd kws (strLower c.title)
  let kws := setAdd kws (strLower c.summary)
  let kws := setAdd kws (strLower c.incident_type)
  let kws := setAdd kws (strLower c.industry)
  let kws := c.keywords.foldl (fun a v => setAdd a (strLower v)) kws
  let kws := ((c.artifacts.map (·.type)).filter (· ≠ "")).foldl
    (fun a v => setAdd a (strLower v)) kws
  let kws := ((c.findings.map (·.category)).filter (· ≠ "")).foldl
    (fun a v => setAdd a (strLower v)) kws
  let kws := ((c.tools_used.map (·.tool_name)).filter (· ≠ "")).foldl
    (fun a v => setAdd a (strLower v)) kws
  let kws := ((c.lessons_learned.map (·.category)).filter (· ≠ "")).foldl
    (fun a v => setAdd a (strLower v)) kws
  kws

/-- The `keywordIndex` update inside the `caseStudy.keywords` loop:
create the posting set if missing, then add the case id. -/
def kiUpsert (ki : List (String × List String)) (norm cid : String) :
    List (String × List String) :=
  match mapGet? ki norm with
  | none => mapSet ki norm (setAdd [] cid)
  | some s => mapSet ki norm (setAdd s cid)

/-- `ingestCase(caseStudy)`. -/
def ingestCase (st : IngestState) (c : CaseStudyEnhanced) : IngestState :=
  let kws := extractKeywords c []
  -- artifacts loop: artifact_map, artifactTrie, keywords
  let amap := c.artifacts.foldl (fun m a => mapSet m a.artifact_id a) []
  let atrie := c.artifacts.foldl (fun t a => t.insert (strLower a.type)) st.artifactTrie
  let kws := c.artifacts.foldl (fun a x => setAdd a (strLower x.type)) kws
  -- findings loop: finding_map, keywords (category added un-lowercased)
  let fmap := c.findings.foldl (fun m f => mapSet m f.finding_id f) []
  let kws := c.findings.foldl (fun a f => setAdd a f.category) kws
  -- tools loop: tool_names, toolTrie, keywords
  let tnames := c.tools_used.foldl (fun a t => setAdd a t.tool_name) []
  let ttrie := c.tools_used.foldl (fun t x => t.insert (strLower x.tool_name)) st.toolTrie
  let kws := c.tools_used.foldl (fun a x => setAdd a (strLower x.tool_name)) kws
  -- case identifiers
  let ctrie := (st.caseTrie.insert (strLower c.case_id)).insert (strLower c.title)
  let kws := setAdd kws (strLower c.case_id)
  let kws := setAdd kws (strLower c.incident_type)
  -- keywords loop: keywords set and the global keyword index
  let step := fun (p : List String × List (String × List String)) (kw : String) =>
    let normalized := strLower kw
    (setAdd p.1 normalized, kiUpsert p.2 normalized c.case_id)
  let kk := c.keywords.foldl step (kws, st.keywordIndex)
  { indexedCases := mapSet st.indexedCases c.case_id ⟨c, kk.1, amap, fmap, tnames⟩,
    keywordIndex := kk.2,
    artifactTrie := atrie, toolTrie := ttrie, caseTrie := ctrie }

/-- `ingestCases(cases)`. -/
def ingestCases (st : IngestState) (cs : List CaseStudyEnhanced) : IngestState :=
  cs.foldl ingestCase st

/-- `tokenize(query)`: lowercase, strip everything but word characters,
whitespace and hyphens, split on whitespace, keep tokens of length > 2
(the empty boundary tokens JS `split(/\s+/)` can produce are removed by
that length filter). -/
def tokenize (query : String) : List String :=
  let cleaned := ((strLower query).data).filter
    (fun c => isWordChar c || isSpaceChar c || c = '-')
  ((splitOnPred isSpaceChar cleaned).filter (fun t => 2 < t.length)).map
    (fun cs => ⟨cs⟩)

/-- `calculateTermWeight(term)`: weight of the first rule whose *field
name* contains the term, else the flat default 0.5 (= 50); the `|| 0.5`
also guards a falsy (zero) stored weight. -/
def calculateTermWeight (term : String) : Int :=
  match INGESTION_RULES.find? (fun r => strIncludes r.field term) with
  | some r => if r.weight = 0 then 50 else r.weight
  | none => 50

def emptyCase : CaseStudyEnhanced :=
  ⟨"", "", "", "", "", "", "", [], [], [], [], [], [], []⟩

def emptyIndexedCase : IndexedCase := ⟨emptyCase, [], [], [], []⟩

def emptySearchResult (cid : String) : SearchResult := ⟨cid, 0, [], [], []⟩

/-- The body of `search`'s inner `matchingCaseIds.forEach`: create the
result entry if needed, add the term weight, record the keyword, and scan
the case's artifacts/findings for substring bonuses (+0.3/+0.25, i.e.
+30/+25 scaled).  `this.indexedCases.get(caseId)!` always succeeds on
ids coming from the keyword index; the default is never used. -/
def applyCaseHit (st : IngestState) (term : String)
    (results : List (String × SearchResult)) (cid : String) :
    List (String × SearchResult) :=
  let results :=
    if (mapGet? results cid).isNone then mapSet results cid (emptySearchResult cid)
    else results
  let r := (mapGet? results cid).getD (emptySearchResult cid)
  let r := { r with relevance_score := r.relevance_score + calculateTermWeight term,
                    matched_keywords := r.matched_keywords ++ [term] }
  let ic := (mapGet? st.indexedCases cid).getD emptyIndexedCase
  let r := ic.artifact_map.foldl
    (fun r p =>
      if strIncludes (strLower p.2.type) term || strIncludes (strLower p.2.description) term
      then { r with matched_artifacts := r.matched_artifacts ++ [p.1],
                    relevance_score := r.relevance_score + 30 }
      else r) r
  let r := ic.finding_map.foldl
    (fun r p =>
      if strIncludes (strLower p.2.description) term
      then { r with matched_findings := r.matched_findings ++ [p.1],
                    relevance_score := r.relevance_score + 25 }
      else r) r
  mapSet results cid r

/-- One iteration of `queryTerms.forEach`: look the term up in the keyword
index (missing terms give the empty set) and fold over the posting set. -/
def applyTerm (st : IngestState) (results : List (String × SearchResult))
    (term : String) : List (String × SearchResult) :=
  ((mapGet? st.keywordIndex term).getD []).foldl (applyCaseHit st term) results

/-- The `results` map of `search` after all query terms are processed. -/
def searchResultsMap (st : IngestState) (query : String) :
    List (String × SearchResult) :=
  (tokenize query).foldl (applyTerm st) []

/-- Stable insertion of a result into a descending-by-score list; later
results go after earlier ones with equal score. -/
def insertDesc (x : SearchResult) : List SearchResult → List SearchResult
  | [] => [x]
  | y :: ys =>
    if y.relevance_score < x.relevance_score then x :: y :: ys
    else y :: insertDesc x ys

/-- The `.sort((a, b) => b.relevance_score - a.relevance_score)` of
`search`: JS `Array.prototype.sort` is stable, and a stable sort by a
total preorder is unique, so this stable insertion sort computes it. -/
def sortByScoreDesc (l : List SearchResult) : List SearchResult :=
  l.foldl (fun acc x => insertDesc x acc) []

/-- `search(query, limit = 5)`. -/
def search (st : IngestState) (query : String) (limit : Nat) :
    List SearchResult :=
  (sortByScoreDesc ((searchResultsMap st query).map (·.2))).take limit

/-- `getAllCaseIds()`. -/
def getAllCaseIds (st : IngestState) : List String := st.indexedCases.map (·.1)

/-- Invariant of the `results` map built by `search`: keys are distinct,
every stored result is keyed by its own `case_id`, and every stored score
is strictly positive (each entry was credited at least one term weight,
and weights are at least 0.5 = 50). -/
def ResultsInv (results : List (String × SearchResult)) : Prop :=
  ((results.map (·.1)).Nodup) ∧
    ∀ e ∈ results, 0 < e.2.relevance_score ∧ e.2.case_id = e.1

/-- `validateCitation(citation)`: one part — the case id must exist; two
parts — the case must exist and the item id must be one of its artifact or
finding ids; anything else (including three-part citations) is rejected. -/
def validateCitation (st : IngestState) (citation : String) : Bool :=
  let parts := splitColon citation
  match parts with
  | [cid] => (mapGet? st.indexedCases cid).isSome
  | [cid, itemId] =>
    match mapGet? st.indexedCases cid with
    | none => false
    | some indexed =>
      (mapGet? indexed.artifact_map itemId).isSome ||
        (mapGet? indexed.finding_map itemId).isSome
  | _ => false

/-! ### Spec-side citation-retention predicates (for claim C1)

These two definitions follow the words of the specification/claim, not the
code; they exist to be compared with `validateCitation`. -/

/-- "the named case_id exists in the ledger". -/
def caseExistsInLedger (st : IngestState) (cid : String) : Bool :=
  (mapGet? st.indexedCases cid).isSome

/-- "it names a real artifact_id or finding_id of that case". -/
def itemExistsInCase (st : IngestState) (cid itemId : String) : Bool :=
  match mapGet? st.indexedCases cid with
  | none => false
  | some indexed =>
    (mapGet? indexed.artifact_map itemId).isSome ||
      (mapGet? indexed.finding_map itemId).isSome

/-- The retention condition exactly as claim C1 states it: the citation's
shape is one of `case_id`, `case_id:item_id`, `case_id:item_id:sub_id`,
the case exists, and — when an item_id is present — the item is a real
artifact or finding id of that case. -/
def claimRetainedC1 (st : IngestState) (cit : String) : Bool :=
  let parts := splitColon cit
  (parts.length = 1 || parts.length = 2 || parts.length = 3) &&
    caseExistsInLedger st ((parts.head?).getD "") &&
    (if 2 ≤ parts.length then itemExistsInCase st ((parts.head?).getD "") ((parts.get? 1).getD "")
     else true)

/-- The amended retention condition: as in the claim but *without* the
three-part shape — a citation is retained exactly when it is a bare
existing `case_id`, or `case_id:item_id` with an existing case and a real
artifact/finding id of that case. -/
def amendedRetainedC1 (st : IngestState) (cit : String) : Bool :=
  let parts := splitColon cit
  (parts.length = 1 && caseExistsInLedger st ((parts.head?).getD "")) ||
    (parts.length = 2 && caseExistsInLedger st ((parts.head?).getD "") &&
      itemExistsInCase st ((parts.head?).getD "") ((parts.get? 1).getD ""))

/-! ## Prompt templates — `src/src/services/PromptTemplates.ts`

Only the pieces the query pipeline reads are embedded: the two refusal
templates, `buildCaseStudyContext` and `extractCitations`.  (The three LLM
prompt-template constants feed `buildPromptForLLM`, which no claim
touches.)  Apostrophes and braces inside string literals are written with
`\x` escapes. -/

def REFUSAL_NON_FORENSIC : String :=
  "I apologize, but I specialize exclusively in digital forensics case study analysis and investigation techniques. I can only assist with:\n\n• Forensic case study questions\n• Investigation methodologies\n• Evidence analysis techniques\n• Tool usage in forensic contexts\n• Forensic concepts and terminology\n\nPlease ask a question related to digital forensics case studies or investigation procedures."

def REFUSAL_INSUFFICIENT_CONTEXT : String :=
  "I don\x27t have enough information in the current case study knowledge base to answer that question accurately. \n\nThe available case studies cover:\n\x7b\x7bavailable_cases\x7d\x7d\n\nWould you like to:\n• Rephrase your question to match available cases?\n• Ask about general forensic methodology?\n• Explore a related topic from the case studies?"

/-- `String.prototype.replace(pattern, repl)` with a plain-string pattern:
replace the first occurrence only. -/
def replaceFirst (s pat repl : String) : String := ⟨go s.data⟩
where
  go : List Char → List Char
    | [] => if pat.data.isPrefixOf [] then repl.data else []
    | c :: rest =>
      if pat.data.isPrefixOf (c :: rest) then
        repl.data ++ (c :: rest).drop pat.data.length
      else c :: go rest

/-- One case block of `buildCaseStudyContext`.  `CaseStudyEnhanced` has no
`id` field, so the JS `${caseStudy.id}` interpolations evaluate to the
string `"undefined"`, and the optional-chained `workflow`/`outcomes`
accesses fall through to their `||` defaults. -/
def caseBlockOf (c : CaseStudyEnhanced) : String :=
  let titleStr := if c.title = "" then "undefined" else c.title
  let summaryStr := if c.summary = "" then (⟨c.scenario.data.take 200⟩ : String) else c.summary
  let artifactsStr := joinSep "\n"
    ((c.artifacts.enum).map (fun p =>
      "[undefined:artifact_" ++ toString (p.1 + 1) ++ "] " ++ p.2.type ++ ": " ++
        p.2.description ++ " (" ++ p.2.location ++ ")"))
  let findingsStr :=
    let fs := joinSep "\n• " (c.findings.map (·.description))
    if fs = "" then "N/A" else fs
  "\n=== CASE STUDY: " ++ c.case_id ++ " ===\nTitle: " ++ titleStr ++
    "\nSummary: " ++ summaryStr ++ "\n\nARTIFACTS:\n" ++ artifactsStr ++
    "\n\nWORKFLOW:\nN/A\n\nFINDINGS:\n" ++ findingsStr ++ "\n\n---\n"

/-- `buildCaseStudyContext(cases, maxLength)`: append case blocks until one
would push the context past `maxLength` (then stop). -/
def buildCaseStudyContext (cases : List CaseStudyEnhanced) (maxLength : Nat) :
    String := go cases ""
where
  go : List CaseStudyEnhanced → String → String
    | [], ctx => ctx
    | c :: rest, ctx =>
      let caseBlock := caseBlockOf c
      if maxLength < ctx.data.length + caseBlock.data.length then ctx
      else go rest (ctx ++ caseBlock)

/-- The scanner behind `extractCitations`'s regex `/\[([^\]]+)\]/g`: on
`[`, collect up to the next `]` (at least one character) and emit the
match with all brackets stripped; a bracket that never closes, or closes
immediately, matches nothing and scanning resumes right after the `[`. -/
def extractCitGo : List Char → Option (List Char) → List (List Char)
  | [], _ => []
  | c :: rest, none =>
    if c = '[' then extractCitGo rest (some []) else extractCitGo rest none
  | c :: rest, some acc =>
    if c = ']' then
      if acc = [] then extractCitGo rest none
      else (acc.reverse.filter (fun d => d ≠ '[' && d ≠ ']')) :: extractCitGo rest none
    else extractCitGo rest (some (c :: acc))

/-- `extractCitations(response)`. -/
def extractCitations (response : String) : List String :=
  (extractCitGo response.data none).map (fun cs => ⟨cs⟩)

/-- The validated citation list `processQuery` builds from an answer text
(before `parseCitation` turns the strings into `Citation` records). -/
def validatedCitationStrs (st : IngestState) (answer : String) : List String :=
  (extractCitations answer).filter (validateCitation st)

/-! ## RAG service — `src/src/services/CaseStudyRAG.ts` -/

def walkthroughKeywords : List String :=
  ["how do i", "step by step", "guide me", "walkthrough",
   "investigate", "what steps", "procedure", "process"]

def teachingKeywords : List String :=
  ["explain", "what is", "how does", "teach me",
   "learn about", "understand", "concept", "why"]

/-- `detectPromptMode(query)`. -/
def detectPromptMode (query : String) : PromptMode :=
  let normalized := strLower query
  if walkthroughKeywords.any (fun kw => strIncludes normalized kw) then .guided_walkthrough
  else if teachingKeywords.any (fun kw => strIncludes normalized kw) then .teaching
  else .direct_qa

def allowedGeneral : List String := ["hello", "hi", "help", "what can you", "who are you"]

def forensicKeywords : List String :=
  ["forensic", "investigation", "case", "artifact", "evidence",
   "malware", "ransomware", "breach", "incident", "analysis",
   "tool", "autopsy", "volatility", "wireshark", "memory",
   "disk", "registry", "log", "timeline", "hash", "mft",
   "ntfs", "file system", "network", "packet", "pcap"]

/-- `isForensicQuery(query)`. -/
def isForensicQuery (query : String) : Bool :=
  let normalized := strLower query
  if allowedGeneral.any (fun kw => strIncludes normalized kw) then true
  else forensicKeywords.any (fun kw => strIncludes normalized kw)

structure RAGState where
  ingest : IngestState
  enhancedCases : List (String × CaseStudyEnhanced)

/-- The service state after `initializeFromLegacy` has migrated legacy
records into the given `CaseStudyEnhanced` list: the list is ingested and
mirrored into `enhancedCases`. -/
def ragStateOfCases (cs : List CaseStudyEnhanced) : RAGState :=
  { ingest := ingestCases emptyIngest cs,
    enhancedCases := cs.foldl (fun m c => mapSet m c.case_id c) [] }

/-- `RAGResponse` (confidence scaled by 100).  `related_topics` is an
optional field, absent from the refusal and zero-match responses. -/
structure RAGResponse where
  query : String
  mode : PromptMode
  answer : String
  citations : List Citation
  confidence : Int
  follow_up_suggestions : List String
  related_topics : Option (List String)
deriving DecidableEq

/-- `generateDirectQA(query, _context, cases)`; `none` models the
`TypeError` thrown when `cases` is empty (`firstCase` undefined) or when
the tool/artifact sub-intents index into an empty array. -/
def generateDirectQA (query : String) (cases : List CaseStudyEnhanced) :
    Option String :=
  match cases with
  | [] => none
  | firstCase :: _ =>
    let q := strLower query
    if strIncludes q "what tool" || strIncludes q "which tool" then
      match firstCase.tools_used with
      | [] => none   -- firstCase.tools_used[0].purpose throws
      | t0 :: _ =>
        let tools := (firstCase.tools_used.map (·.tool_name)).take 3
        some ("The investigation used: " ++ joinSep ", " tools ++ " [" ++
          firstCase.case_id ++ "].\n\n" ++ "For example, " ++ t0.tool_name ++
          " was used to " ++ t0.purpose ++ " " ++ "[" ++ firstCase.case_id ++ ":" ++
          jsOrStr ((firstCase.artifacts.head?).map (·.artifact_id)) "artifact_1" ++ "].")
    else if strIncludes q "artifact" then
      match firstCase.artifacts with
      | [] => none   -- artifacts[0].evidence_value throws
      | a0 :: _ =>
        let artifacts := firstCase.artifacts.take 3
        some ("Key artifacts analyzed:\n" ++ joinSep "\n"
          (artifacts.map (fun art =>
            "• **" ++ art.type ++ "** [" ++ firstCase.case_id ++ ":" ++
              art.artifact_id ++ "]: " ++ art.description)) ++
          "\n\nThese artifacts provided " ++ a0.evidence_value ++
          " evidence value for the investigation.")
    else if strIncludes q "timeline" || strIncludes q "when" then
      let events := firstCase.timeline.take 3
      some ("**Timeline of Events** [" ++ firstCase.case_id ++ "]:\n" ++
        joinSep "\n" (events.map (fun evt =>
          "• " ++ evt.timestamp ++ ": " ++ evt.event ++ " [Tool: " ++
            jsOrStr evt.tool "N/A" ++ "]")))
    else
      let keyFinding :=
        match firstCase.findings.head? with
        | some f =>
          if f.description = "" then (firstCase.conclusions.head?).getD "undefined"
          else f.description
        | none => (firstCase.conclusions.head?).getD "undefined"
      some ("**" ++ firstCase.title ++ "** [" ++ firstCase.case_id ++ "]\n\n" ++
        firstCase.summary ++ "\n\n**Incident Type**: " ++ firstCase.incident_type ++
        " (" ++ firstCase.severity ++ " severity)\n**Key Finding**: " ++ keyFinding ++
        " " ++ "[" ++ firstCase.case_id ++ ":" ++
        jsOrStr ((firstCase.findings.head?).map (·.finding_id)) "finding_1" ++ "]")

/-- `generateWalkthrough(_query, _context, cases)`. -/
def generateWalkthrough (cases : List CaseStudyEnhanced) : Option String :=
  match cases with
  | [] => none
  | firstCase :: _ =>
    let steps := ((firstCase.timeline.take 3).enum).foldl
      (fun acc p =>
        let idx := p.1
        let event := p.2
        let acc := acc ++ "**Step " ++ toString (idx + 1) ++ ": " ++ event.event ++ "**\n"
        let acc := acc ++ "- **Tool**: " ++ jsOrStr event.tool "Manual analysis" ++ "\n"
        let acc :=
          match event.artifact_id with
          | some aid =>
            match firstCase.artifacts.find? (fun a => a.artifact_id = aid) with
            | some artifact =>
              acc ++ "- **Artifact**: " ++ artifact.type ++ " [" ++
                firstCase.case_id ++ ":" ++ artifact.artifact_id ++ "]\n" ++
                "- **Location**: " ++ artifact.location ++ "\n"
            | none => acc
          | none => acc
        acc ++ "- **Significance**: " ++ event.significance ++ "\n\n")
      ("**Investigation Walkthrough: " ++ firstCase.title ++ "**\n\n")
    some (steps ++ "\n*Cite: [" ++ firstCase.case_id ++ ":workflow]*\n\n" ++
      "**Next Steps**: Continue analyzing remaining artifacts or ask about specific tools used.")

/-- `generateTeaching(query, _context, cases)`. -/
def generateTeaching (query : String) (cases : List CaseStudyEnhanced) :
    Option String :=
  match cases with
  | [] => none
  | firstCase :: _ =>
    let headline := "**Forensic Concept: Illustrated by " ++ firstCase.title ++ "**\n\n"
    let normalized := strLower query
    if strIncludes normalized "artifact" || strIncludes normalized "evidence" then
      match firstCase.artifacts with
      | [] => none   -- artifacts[0].type throws
      | artifact :: _ =>
        some (headline ++ "**Understanding Forensic Artifacts**\n\n" ++
          "Artifacts are digital traces left by system activity. For example:\n\n" ++
          "**" ++ artifact.type ++ "** [" ++ firstCase.case_id ++ ":" ++
          artifact.artifact_id ++ "]\n" ++
          "- **What it is**: " ++ artifact.description ++ "\n" ++
          "- **Where found**: " ++ artifact.location ++ "\n" ++
          "- **Evidence value**: " ++ artifact.evidence_value ++ "\n\n" ++
          "In this case, this artifact was " ++
          (if artifact.evidence_value = "high" then "critical" else "important") ++
          " " ++ "for establishing the investigation timeline.")
    else if strIncludes normalized "timeline" || strIncludes normalized "sequence" then
      some ((firstCase.timeline.take 3).foldl
        (fun acc evt => acc ++ "• " ++ evt.timestamp ++ ": " ++ evt.event ++ "\n")
        (headline ++ "**Timeline Analysis in Forensics**\n\n" ++
          "Timeline reconstruction helps investigators understand the sequence of events. " ++
          "In [" ++ firstCase.case_id ++ "], the timeline revealed:\n\n") ++
        "\nThis sequential analysis identified the attack progression and attribution.")
    else
      some ((firstCase.lessons_learned.take 3).foldl
        (fun acc lesson => acc ++ "\n**" ++ strUpper lesson.category ++ "**: " ++
          lesson.description ++ "\n" ++ "*Best Practice*: " ++ lesson.best_practice ++ "\n")
        (headline ++ "**Case Overview**: " ++ firstCase.summary ++
          "\n\n**Key Learning Points**:\n"))

/-- `generateResponse(query, mode, context, cases)` (every generator
ignores the `context` argument). -/
def generateResponse (query : String) (mode : PromptMode)
    (cases : List CaseStudyEnhanced) : Option String :=
  match mode with
  | .direct_qa => generateDirectQA query cases
  | .guided_walkthrough => generateWalkthrough cases
  | .teaching => generateTeaching query cases

/-- `parseCitation(citationStr)`: split on `:`; missing parts are
`undefined` (`none`); confidence is 0.8 (= 80). -/
def parseCitation (citationStr : String) : Citation :=
  let parts := splitColon citationStr
  { case_id := (parts.head?).getD "",
    artifact_id := parts.get? 1,
    finding_id := parts.get? 2,
    confidence := 80 }

/-- `generateFollowUps(mode, cases)`; in `direct_qa` mode
`firstCase.case_id` throws when `cases` is empty. -/
def generateFollowUps (mode : PromptMode) (cases : List CaseStudyEnhanced) :
    Option (List String) :=
  match mode with
  | .direct_qa =>
    match cases with
    | [] => none
    | firstCase :: _ =>
      some ["What tools were used in " ++ firstCase.case_id ++ "?",
            "Show me the timeline for " ++ firstCase.case_id,
            "What were the key findings?"]
  | .guided_walkthrough =>
    some ["Show me the next investigation steps",
          "How do I analyze similar artifacts?",
          "What tools should I use?"]
  | .teaching =>
    some ["Explain another forensic concept",
          "Show me a practical example",
          "What are the best practices?"]

/-- `extractRelatedTopics(cases)`. -/
def extractRelatedTopics (cases : List CaseStudyEnhanced) : List String :=
  (cases.foldl
    (fun topics c => (c.keywords.take 3).foldl setAdd (setAdd topics c.incident_type))
    []).take 5

/-- The three fixed follow-up suggestions of the zero-match branch. -/
def zeroMatchFollowUps : List String :=
  ["Tell me about ransomware-investigation",
   "What artifacts are in insider-data-theft case?",
   "List all case studies"]

/-- The three fixed follow-up suggestions of the scope-refusal branch. -/
def refusalFollowUps : List String :=
  ["Show me a case study",
   "Explain memory forensics",
   "How to investigate ransomware?"]

/-- `processQuery(query)`: scope guard, mode detection, search (limit 3),
zero-match fallback, response generation, citation validation, follow-ups.
`none` models an uncaught `TypeError` escaping `processQuery`. -/
def processQuery (st : RAGState) (query : String) : Option RAGResponse :=
  if !isForensicQuery query then
    some { query := query, mode := .direct_qa, answer := REFUSAL_NON_FORENSIC,
           citations := [], confidence := 0,
           follow_up_suggestions := refusalFollowUps, related_topics := none }
  else
    let mode := detectPromptMode query
    let searchResults := search st.ingest query 3
    if searchResults.length = 0 then
      let availableCases := joinSep "\n" ((getAllCaseIds st.ingest).map ("• " ++ ·))
      some { query := query, mode := mode,
             answer := replaceFirst REFUSAL_INSUFFICIENT_CONTEXT
               "\x7b\x7bavailable_cases\x7d\x7d" availableCases,
             citations := [], confidence := 0,
             follow_up_suggestions := zeroMatchFollowUps, related_topics := none }
    else
      let relevantCases := searchResults.filterMap
        (fun r => mapGet? st.enhancedCases r.case_id)
      let _context := buildCaseStudyContext relevantCases 6000
      let citations := searchResults.map (fun r =>
        Citation.mk r.case_id r.matched_artifacts.head? r.matched_findings.head?
          r.relevance_score)
      match generateResponse query mode relevantCases with
      | none => none
      | some answer =>
        let answerCitations := extractCitations answer
        let validatedCitations :=
          (answerCitations.filter (validateCitation st.ingest)).map parseCitation
        match generateFollowUps mode relevantCases with
        | none => none
        | some followUpSuggestions =>
          some { query := query, mode := mode, answer := answer,
                 citations :=
                   if 0 < validatedCitations.length then validatedCitations
                   else citations,
                 confidence :=
                   match searchResults.head? with
                   | some r => if r.relevance_score = 0 then 50 else r.relevance_score
                   | none => 50,
                 follow_up_suggestions := followUpSuggestions,
                 related_topics := some (extractRelatedTopics relevantCases) }

/-- A small concrete case study used to instantiate the pipeline claims:
one artifact, one finding, one tool, three searchable keywords. -/
def alphaCase : CaseStudyEnhanced :=
  { case_id := "alpha-case",
    title := "Alpha Ransomware Intrusion",
    summary := "A workstation was encrypted overnight.",
    scenario := "scenario text",
    industry := "tech",
    incident_type := "intrusion",
    severity := "high",
    timeline := [⟨"2024-01-01", "event one", none, some "ToolX", "high"⟩],
    artifacts := [⟨"artifact_1", "Disk Image", "a disk image", "drive0", "high"⟩],
    tools_used := [⟨"ToolX", "imaging", "ok"⟩],
    findings := [⟨"finding_1", "persistence", "ransom note found"⟩],
    conclusions := ["conclusion one"],
    lessons_learned := [⟨"lesson_1", "process", "lesson text", "practice text"⟩],
    keywords := ["ransomware", "malware", "registry"] }

/-!
# Theorems

Everything from here on is proof: helper lemmas about the association-list
model, the Trie, the LRU cache and the search pipeline, followed by one
theorem (plus counterexamples/witnesses) per claim.
-/

/-! ## Association-list map lemmas -/

variable {β : Type}

theorem mapGet?_eq_none_iff (l : List (K × β)) (k : K) :
    mapGet? l k = none ↔ k ∉ l.map (·.1) := by
  induction l with
  | nil => simp [mapGet?]
  | cons e rest ih =>
    obtain ⟨k', a⟩ := e
    by_cases h : k' = k
    · subst h; simp [mapGet?]
    · have h2 : ¬ k = k' := fun hh => h hh.symm
      simp [mapGet?, h, h2, ih]

theorem mapGet?_isSome_iff (l : List (K × β)) (k : K) :
    (mapGet? l k).isSome ↔ k ∈ l.map (·.1) := by
  rw [Option.isSome_iff_ne_none, ne_eq, mapGet?_eq_none_iff]
  simp

theorem mem_of_mapGet?_eq_some {l : List (K × β)} {k : K} {a : β}
    (h : mapGet? l k = some a) : (k, a) ∈ l := by
  induction l with
  | nil => simp [mapGet?] at h
  | cons e rest ih =>
    obtain ⟨k', b⟩ := e
    by_cases hk : k' = k
    · subst hk
      simp [mapGet?] at h
      simp [h]
    · simp [mapGet?, hk] at h
      exact List.mem_cons_of_mem _ (ih h)

theorem mapGet?_eq_some_of_mem {l : List (K × β)} {k : K} {a : β}
    (hnd : (l.map (·.1)).Nodup) (h : (k, a) ∈ l) : mapGet? l k = some a := by
  induction l with
  | nil => simp at h
  | cons e rest ih =>
    obtain ⟨k', b⟩ := e
    simp only [List.map_cons, List.nodup_cons] at hnd
    rcases List.mem_cons.mp h with h1 | h1
    · obtain ⟨hk, hb⟩ := Prod.mk.injEq .. ▸ h1
      simp [mapGet?, hk.symm, hb]
    · have hk : k' ≠ k := by
        rintro rfl
        exact hnd.1 (List.mem_map.mpr ⟨(k', a), h1, rfl⟩)
      simp [mapGet?, hk, ih hnd.2 h1]

theorem mapGet?_eq_of_perm {l m : List (K × β)} (hp : l.Perm m)
    (hnd : (l.map (·.1)).Nodup) (k : K) : mapGet? l k = mapGet? m k := by
  have hndm : (m.map (·.1)).Nodup := (hp.map (·.1)).nodup_iff.mp hnd
  cases hl : mapGet? l k with
  | none =>
    symm
    rw [mapGet?_eq_none_iff] at hl ⊢
    intro hm
    exact hl (((hp.map (·.1)).mem_iff).mpr hm)
  | some a =>
    exact (mapGet?_eq_some_of_mem hndm (hp.mem_iff.mp (mem_of_mapGet?_eq_some hl))).symm

theorem mapSet_of_not_mem {l : List (K × β)} {k : K} (a : β)
    (h : k ∉ l.map (·.1)) : mapSet l k a = l ++ [(k, a)] := by
  induction l with
  | nil => simp [mapSet]
  | cons e rest ih =>
    obtain ⟨k', b⟩ := e
    simp only [List.map_cons, List.mem_cons] at h
    push_neg at h
    have h1 : ¬ k' = k := fun hh => h.1 hh.symm
    simp [mapSet, h1, ih h.2]

theorem mem_mapSet {l : List (K × β)} {k : K} {a : β} {e : K × β}
    (h : e ∈ mapSet l k a) : e ∈ l ∨ e = (k, a) := by
  induction l with
  | nil => simp [mapSet] at h; simp [h]
  | cons f rest ih =>
    obtain ⟨k', b⟩ := f
    by_cases hk : k' = k
    · simp [mapSet, hk] at h
      rcases h with h | h
      · right; simp [h]
      · left; simp [h]
    · simp [mapSet, hk] at h
      rcases h with h | h
      · left; simp [h]
      · rcases ih h with h1 | h1
        · left; exact List.mem_cons_of_mem _ h1
        · right; exact h1

theorem mapGet?_mapSet_self (l : List (K × β)) (k : K) (a : β) :
    mapGet? (mapSet l k a) k = some a := by
  induction l with
  | nil => simp [mapSet, mapGet?]
  | cons e rest ih =>
    obtain ⟨k', b⟩ := e
    by_cases hk : k' = k <;> simp [mapSet, mapGet?, hk, ih]

theorem mapGet?_mapSet_ne (l : List (K × β)) {k d : K} (a : β) (h : d ≠ k) :
    mapGet? (mapSet l k a) d = mapGet? l d := by
  have h2 : ¬ k = d := fun hh => h hh.symm
  induction l with
  | nil => simp [mapSet, mapGet?, h2]
  | cons e rest ih =>
    obtain ⟨k', b⟩ := e
    by_cases hk : k' = k
    · subst hk
      simp [mapSet, mapGet?, h2]
    · by_cases hd : k' = d <;> simp [mapSet, mapGet?, hk, hd, ih, h, h2]

theorem mapDel_eq_filter {l : List (K × β)} (hnd : (l.map (·.1)).Nodup) (k : K) :
    mapDel l k = l.filter (fun e => !decide (e.1 = k)) := by
  induction l with
  | nil => simp [mapDel]
  | cons e rest ih =>
    obtain ⟨k', b⟩ := e
    simp only [List.map_cons, List.nodup_cons] at hnd
    by_cases hk : k' = k
    · subst hk
      have hrest : rest.filter (fun e => !decide (e.1 = k')) = rest := by
        apply List.filter_eq_self.mpr
        intro e he
        simp only [Bool.not_eq_eq_eq_not, Bool.not_true, decide_eq_false_iff_not]
        intro hek
        exact hnd.1 (List.mem_map.mpr ⟨e, he, hek⟩)
      simp [mapDel, hrest]
    · simp [mapDel, hk, ih hnd.2]

/-! ## ChildList lemmas -/

theorem ChildList.get?_set_self : ∀ (cs : ChildList) (c : Char) (m : TrieNode),
    (cs.set c m).get? c = some m
  | .nil, c, m => by simp [ChildList.set, ChildList.get?]
  | .cons d n rest, c, m => by
    by_cases h : d = c <;>
      simp [ChildList.set, ChildList.get?, h, ChildList.get?_set_self rest]

theorem ChildList.get?_set_ne : ∀ (cs : ChildList) {c d : Char} (m : TrieNode),
    d ≠ c → (cs.set c m).get? d = cs.get? d
  | .nil, c, d, m, h => by
    have h2 : ¬ c = d := fun hh => h hh.symm
    simp [ChildList.set, ChildList.get?, h2]
  | .cons e n rest, c, d, m, h => by
    have h2 : ¬ c = d := fun hh => h hh.symm
    by_cases he : e = c
    · subst he
      simp [ChildList.set, ChildList.get?, h2]
    · by_cases hd : e = d <;>
        simp [ChildList.set, ChildList.get?, he, hd, h, ChildList.get?_set_ne rest m h]

theorem ChildList.get?_del_ne : ∀ (cs : ChildList) {c d : Char}, d ≠ c →
    (cs.del c).get? d = cs.get? d
  | .nil, c, d, h => by simp [ChildList.del]
  | .cons e n rest, c, d, h => by
    have h2 : ¬ c = d := fun hh => h hh.symm
    by_cases he : e = c
    · subst he
      simp [ChildList.del, ChildList.get?, h2]
    · by_cases hd : e = d <;>
        simp [ChildList.del, ChildList.get?, he, hd, h, ChildList.get?_del_ne rest h]

theorem ChildList.size_eq_zero_iff (cs : ChildList) : cs.size = 0 ↔ cs = .nil := by
  cases cs <;> simp [ChildList.size]

/-- Inversion for `UNode`. -/
theorem UNode.children_u {cs : ChildList} {e : Bool} {v : Option String}
    (h : UNode (.mk cs e v)) : UChildren cs := by
  cases h with
  | mk _ _ _ hu => exact hu

/-- Inversion for `UChildren` on a cons cell. -/
theorem UChildren.invc {c : Char} {n : TrieNode} {rest : ChildList}
    (h : UChildren (.cons c n rest)) :
    UNode n ∧ UChildren rest ∧ rest.get? c = none := by
  cases h with
  | cons _ _ _ hn hr hk => exact ⟨hn, hr, hk⟩

theorem UChildren.get?_u : ∀ {cs : ChildList} {c : Char} {n : TrieNode},
    UChildren cs → cs.get? c = some n → UNode n
  | .nil, c, n, _, h => by simp [ChildList.get?] at h
  | .cons d m rest, c, n, hu, h => by
    obtain ⟨hm, hrest, _⟩ := hu.invc
    by_cases hd : d = c
    · subst hd
      simp [ChildList.get?] at h
      exact h ▸ hm
    · simp [ChildList.get?, hd] at h
      exact UChildren.get?_u hrest h

theorem UChildren.get?_del_self : ∀ {cs : ChildList} {c : Char}, UChildren cs →
    (cs.del c).get? c = none
  | .nil, c, _ => by simp [ChildList.del, ChildList.get?]
  | .cons d m rest, c, hu => by
    obtain ⟨_, hrest, hkey⟩ := hu.invc
    by_cases hd : d = c
    · subst hd
      simpa [ChildList.del] using hkey
    · simp [ChildList.del, ChildList.get?, hd, UChildren.get?_del_self hrest]

theorem UChildren.set : ∀ {cs : ChildList} {c : Char} {m : TrieNode},
    UChildren cs → UNode m → UChildren (cs.set c m)
  | .nil, c, m, _, hm => .cons _ _ _ hm .nil (by simp [ChildList.get?])
  | .cons d n rest, c, m, hu, hm => by
    obtain ⟨hn, hrest, hkey⟩ := hu.invc
    by_cases hd : d = c
    · subst hd
      simp only [ChildList.set, if_pos rfl]
      exact .cons _ _ _ hm hrest hkey
    · simp only [ChildList.set, if_neg hd]
      refine .cons _ _ _ hn (UChildren.set hrest hm) ?_
      rw [ChildList.get?_set_ne _ _ hd]
      exact hkey

theorem UChildren.del : ∀ {cs : ChildList} (c : Char), UChildren cs →
    UChildren (cs.del c)
  | .nil, c, _ => .nil
  | .cons d n rest, c, hu => by
    obtain ⟨hn, hrest, hkey⟩ := hu.invc
    by_cases hd : d = c
    · subst hd
      simpa [ChildList.del] using hrest
    · simp only [ChildList.del, if_neg hd]
      refine .cons _ _ _ hn (UChildren.del c hrest) ?_
      rw [ChildList.get?_del_ne _ hd]
      exact hkey

/-! ## Trie membership lemmas -/

theorem memb_empty (v : List Char) : memb TrieNode.empty v = false := by
  cases v <;> simp [memb, TrieNode.empty, TrieNode.isEndOfWord, TrieNode.children,
    ChildList.get?]

theorem memb_insertChars : ∀ (cs : List Char) (n : TrieNode) (w : String)
    (v : List Char),
    memb (insertChars n cs w).1 v = (decide (v = cs) || memb n v)
  | [], n, w, v => by
    by_cases he : n.isEndOfWord
    · cases v with
      | nil => simp [insertChars, he, memb]
      | cons d u => simp [insertChars, he, memb]
    · cases n with
    | mk ncs e nv =>
      cases v with
      | nil =>
        simp [insertChars, TrieNode.isEndOfWord] at he ⊢
        simp [he, memb, TrieNode.isEndOfWord]
      | cons d u =>
        simp [insertChars, TrieNode.isEndOfWord] at he ⊢
        simp [he, memb, TrieNode.children]
  | c :: rest, n, w, v => by
    cases n with
    | mk ncs e nv =>
      cases v with
      | nil => simp [insertChars, memb, TrieNode.isEndOfWord]
      | cons d u =>
        by_cases hd : d = c
        · subst hd
          cases hch : ncs.get? d with
          | some ch =>
            simp [insertChars, memb, TrieNode.children, hch,
              ChildList.get?_set_self, memb_insertChars rest]
          | none =>
            simp [insertChars, memb, TrieNode.children, hch,
              ChildList.get?_set_self, memb_insertChars rest, memb_empty]
        · have hd2 : ¬ (d :: u) = (c :: rest) := by simp [hd]
          simp [insertChars, memb, TrieNode.children,
            ChildList.get?_set_ne _ _ hd, hd2]

theorem memb_findNode : ∀ (cs : List Char) (n : TrieNode),
    memb n cs = ((findNode n cs).map TrieNode.isEndOfWord).getD false
  | [], n => by simp [memb, findNode]
  | c :: rest, n => by
    cases hch : n.children.get? c with
    | some ch => simp [memb, findNode, hch, memb_findNode rest]
    | none => simp [memb, findNode, hch]

theorem clearEnd_memb : ∀ (w : List Char) (n : TrieNode) (v : List Char),
    memb (clearEnd n w) v = if v = w then false else memb n v
  | [], n, v => by
    cases n with
    | mk ncs e nv =>
      cases v with
      | nil => simp [clearEnd, memb, TrieNode.isEndOfWord]
      | cons d u => simp [clearEnd, memb, TrieNode.children]
  | c :: rest, n, v => by
    cases n with
    | mk ncs e nv =>
      cases hch : ncs.get? c with
      | some ch =>
        cases v with
        | nil => simp [clearEnd, memb, TrieNode.isEndOfWord, hch]
        | cons d u =>
          by_cases hd : d = c
          · subst hd
            simp only [clearEnd, hch, memb, TrieNode.children,
              ChildList.get?_set_self, clearEnd_memb rest ch u]
            by_cases hu : u = rest <;> simp [hu]
          · have hd2 : ¬ (d :: u) = (c :: rest) := by simp [hd]
            simp [clearEnd, memb, TrieNode.children, hch,
              ChildList.get?_set_ne _ _ hd, hd2]
      | none =>
        cases v with
        | nil => simp [clearEnd, memb, TrieNode.isEndOfWord, hch]
        | cons d u =>
          by_cases hd : d = c
          · subst hd
            simp [clearEnd, memb, TrieNode.children, hch]
          · have hd2 : ¬ (d :: u) = (c :: rest) := by simp [hd]
            simp [clearEnd, memb, TrieNode.children, hch, hd2]

theorem U_clearEnd : ∀ (w : List Char) (n : TrieNode), UNode n →
    UNode (clearEnd n w)
  | [], .mk ncs e nv, hu => .mk _ _ _ hu.children_u
  | c :: rest, .mk ncs e nv, hu => by
    cases hch : ncs.get? c with
    | some ch =>
      simp only [clearEnd, hch]
      exact .mk _ _ _ (hu.children_u.set (U_clearEnd rest ch (hu.children_u.get?_u hch)))
    | none =>
      simp only [clearEnd, hch]
      exact hu

theorem U_insertChars : ∀ (cs : List Char) (n : TrieNode) (w : String), UNode n →
    UNode (insertChars n cs w).1
  | [], .mk ncs e nv, w, hu => by
    by_cases he : e
    · simpa [insertChars, TrieNode.isEndOfWord, he] using hu
    · simp [insertChars, TrieNode.isEndOfWord, he]
      exact .mk _ _ _ hu.children_u
  | c :: rest, .mk ncs e nv, w, hu => by
    cases hch : ncs.get? c with
    | some ch =>
      simp only [insertChars, TrieNode.children, hch]
      exact .mk _ _ _ (hu.children_u.set
        (U_insertChars rest ch w (hu.children_u.get?_u hch)))
    | none =>
      simp only [insertChars, TrieNode.children, hch]
      refine .mk _ _ _ (hu.children_u.set (U_insertChars rest TrieNode.empty w ?_))
      exact .mk _ _ _ .nil

/-- `deleteHelper` never changes the flag or value of the node it is
called on (only its children). -/
theorem deleteHelper_flags : ∀ (w : List Char) (n : TrieNode),
    (deleteHelper n w).1.isEndOfWord = n.isEndOfWord ∧
      (deleteHelper n w).1.value = n.value
  | [], n => by simp [deleteHelper]
  | c :: rest, n => by
    cases hch : n.children.get? c with
    | some ch =>
      by_cases hsd : (deleteHelper ch rest).2 <;>
        simp [deleteHelper, hch, hsd, TrieNode.isEndOfWord, TrieNode.value]
    | none => simp [deleteHelper, hch]

/-- A childless non-terminal node has no members. -/
theorem memb_of_childless {n : TrieNode} (hc : n.children = .nil)
    (he : n.isEndOfWord = false) (v : List Char) : memb n v = false := by
  cases v with
  | nil => simpa [memb]
  | cons d u => simp [memb, hc, ChildList.get?]

/-- When `deleteHelper` asks its parent to unlink it (and the word is no
longer a member), the returned node is childless and non-terminal. -/
theorem deleteHelper_sd : ∀ (w : List Char) (n : TrieNode),
    memb n w = false → (deleteHelper n w).2 = true →
    (deleteHelper n w).1.children = .nil ∧ (deleteHelper n w).1.isEndOfWord = false
  | [], n, hm, hsd => by
    simp [deleteHelper] at hsd ⊢
    exact ⟨(ChildList.size_eq_zero_iff _).mp hsd, by simpa [memb] using hm⟩
  | c :: rest, n, hm, hsd => by
    cases n with
    | mk ncs e nv =>
      cases hch : ChildList.get? ncs c with
      | some ch =>
        by_cases hs : (deleteHelper ch rest).2
        · simp only [deleteHelper, TrieNode.children, hch, if_pos hs,
            Bool.and_eq_true, decide_eq_true_eq, Bool.not_eq_true',
            TrieNode.isEndOfWord] at hsd
          simp only [deleteHelper, TrieNode.children, hch, if_pos hs]
          exact ⟨(ChildList.size_eq_zero_iff _).mp hsd.1,
            by simp [TrieNode.isEndOfWord, hsd.2]⟩
        · simp [deleteHelper, TrieNode.children, hch, hs] at hsd
      | none => simp [deleteHelper, TrieNode.children, hch] at hsd

/-- Frame property of the cleanup pass: if the word is not a member, the
cleanup changes no membership at all. -/
theorem deleteHelper_memb : ∀ (w : List Char) (n : TrieNode), UNode n →
    memb n w = false → ∀ v, memb (deleteHelper n w).1 v = memb n v
  | [], n, _, _, v => by simp [deleteHelper]
  | c :: rest, n, hu, hm, v => by
    cases n with
    | mk ncs e nv =>
      cases hch : ChildList.get? ncs c with
      | none => simp [deleteHelper, TrieNode.children, hch]
      | some ch =>
        have hmch : memb ch rest = false := by
          simpa [memb, TrieNode.children, hch] using hm
        have huch : UNode ch := hu.children_u.get?_u hch
        have ih := deleteHelper_memb rest ch huch hmch
        by_cases hs : (deleteHelper ch rest).2
        · -- the child collapses and is unlinked
          have hcl := deleteHelper_sd rest ch hmch hs
          have hchnone : ∀ u, memb (deleteHelper ch rest).1 u = false :=
            memb_of_childless hcl.1 hcl.2
          have hchzero : ∀ u, memb ch u = false := fun u => by
            rw [← ih u]; exact hchnone u
          simp only [deleteHelper, TrieNode.children, hch, if_pos hs]
          cases v with
          | nil => simp [memb, TrieNode.isEndOfWord]
          | cons d u =>
            by_cases hd : d = c
            · subst hd
              simp [memb, TrieNode.children, hu.children_u.get?_del_self, hch,
                hchzero u]
            · simp [memb, TrieNode.children, ChildList.get?_del_ne _ hd]
        · -- the child stays, rewritten in place
          simp only [deleteHelper, TrieNode.children, hch, if_neg hs]
          cases v with
          | nil => simp [memb, TrieNode.isEndOfWord]
          | cons d u =>
            by_cases hd : d = c
            · subst hd
              simp [memb, TrieNode.children, ChildList.get?_set_self, hch, ih u]
            · simp [memb, TrieNode.children, ChildList.get?_set_ne _ _ hd]

theorem U_deleteHelper : ∀ (w : List Char) (n : TrieNode), UNode n →
    UNode (deleteHelper n w).1
  | [], n, hu => by simpa [deleteHelper]
  | c :: rest, n, hu => by
    cases n with
    | mk ncs e nv =>
      cases hch : ChildList.get? ncs c with
      | none => simpa [deleteHelper, TrieNode.children, hch]
      | some ch =>
        by_cases hs : (deleteHelper ch rest).2
        · simp only [deleteHelper, TrieNode.children, hch, if_pos hs]
          exact .mk _ _ _ (hu.children_u.del c)
        · simp only [deleteHelper, TrieNode.children, hch, if_neg hs]
          exact .mk _ _ _ (hu.children_u.set
            (U_deleteHelper rest ch (hu.children_u.get?_u hch)))

/-! ## String basics -/

theorem strData_eq_nil_iff (w : String) : w.data = [] ↔ w = "" := by
  constructor
  · intro h
    exact String.ext h
  · intro h
    rw [h]

theorem strLower_data (w : String) : (strLower w).data = w.data.map Char.toLower := rfl

theorem strLower_eq_iff_data (v w : String) :
    strLower v = strLower w ↔ (strLower v).data = (strLower w).data := by
  constructor
  · intro h; rw [h]
  · intro h
    cases hv : strLower v with
    | mk lv =>
      cases hw : strLower w with
      | mk lw =>
        rw [hv, hw] at h
        simp only at h
        simp [h]

theorem ne_empty_of_strLower_eq {v w : String} (h : strLower v = strLower w)
    (hw : w ≠ "") : v ≠ "" := by
  intro hv
  apply hw
  rw [← strData_eq_nil_iff] at hv ⊢
  have := congrArg String.data h
  rw [strLower_data, strLower_data, hv] at this
  simpa using (List.map_eq_nil_iff.mp this.symm)

/-! ## Trie-level lemmas -/

theorem search_eq_memb (t : Trie) (w : String) :
    t.search w = if w.data = [] then false else memb t.root (strLower w).data := by
  by_cases h : w.data = []
  · simp [Trie.search, h]
  · rw [memb_findNode]
    cases hf : findNode t.root (strLower w).data <;> simp [Trie.search, h, hf]

theorem U_insert (t : Trie) (w : String) (hu : UNode t.root) :
    UNode (t.insert w).root := by
  by_cases h : w.data = []
  · simpa [Trie.insert, h]
  · simpa [Trie.insert, h] using U_insertChars _ _ _ hu

theorem U_mkTrie (ws : List String) : UNode (mkTrie ws).root := by
  suffices h : ∀ t : Trie, UNode t.root → UNode (ws.foldl Trie.insert t).root by
    exact h Trie.empty (.mk _ _ _ .nil)
  induction ws with
  | nil => intro t ht; exact ht
  | cons w rest ih =>
    intro t ht
    exact ih _ (U_insert t w ht)

theorem memb_foldl_insert (ws : List String) : ∀ (t : Trie) (cs : List Char),
    (memb (ws.foldl Trie.insert t).root cs = true ↔
      (∃ v ∈ ws, v ≠ "" ∧ (strLower v).data = cs) ∨ memb t.root cs = true) := by
  induction ws with
  | nil => simp
  | cons w rest ih =>
    intro t cs
    rw [List.foldl_cons, ih]
    constructor
    · rintro (h | h)
      · obtain ⟨v, hv, hv2⟩ := h
        exact Or.inl ⟨v, List.mem_cons_of_mem _ hv, hv2⟩
      · by_cases hw : w.data = []
        · simp [Trie.insert, hw] at h
          exact Or.inr h
        · simp only [Trie.insert, hw, if_neg, ite_false] at h
          rw [memb_insertChars] at h
          rcases Bool.or_eq_true .. ▸ h with h1 | h1
          · exact Or.inl ⟨w, List.mem_cons_self w rest,
              (strData_eq_nil_iff w).not.mp hw, (decide_eq_true_eq.mp h1).symm⟩
          · exact Or.inr h1
    · rintro (⟨v, hv, hne, hdata⟩ | h)
      · rcases List.mem_cons.mp hv with rfl | hv2
        · by_cases hw : v.data = []
          · exact absurd ((strData_eq_nil_iff v).mp hw) hne
          · refine Or.inr ?_
            simp only [Trie.insert, hw, ite_false]
            rw [memb_insertChars]
            simp [hdata]
        · exact Or.inl ⟨v, hv2, hne, hdata⟩
      · refine Or.inr ?_
        by_cases hw : w.data = []
        · simpa [Trie.insert, hw]
        · simp only [Trie.insert, hw, ite_false]
          rw [memb_insertChars]
          simp [h]

theorem memb_mkTrie (ws : List String) (cs : List Char) :
    memb (mkTrie ws).root cs = true ↔ ∃ v ∈ ws, v ≠ "" ∧ (strLower v).data = cs := by
  rw [mkTrie, memb_foldl_insert]
  simp [Trie.empty, memb_empty]

theorem delete_snd (t : Trie) (w : String) :
    (t.delete w).2 = true ↔ (w.data ≠ [] ∧ memb t.root (strLower w).data = true) := by
  by_cases h : w.data = []
  · simp [Trie.delete, h]
  · rw [memb_findNode]
    cases hf : findNode t.root (strLower w).data with
    | none => simp [Trie.delete, h, hf]
    | some n =>
      by_cases he : n.isEndOfWord <;> simp [Trie.delete, h, hf, he]

theorem search_delete_self (t : Trie) (w : String) (hu : UNode t.root) :
    ((t.delete w).1).search w = false := by
  by_cases h : w.data = []
  · simp [Trie.delete, h, search_eq_memb]
  · cases hf : findNode t.root (strLower w).data with
    | none =>
      rw [Trie.delete]
      simp only [h, ite_false, hf]
      rw [search_eq_memb, memb_findNode]
      simp [h, hf]
    | some n =>
      by_cases he : n.isEndOfWord
      · rw [Trie.delete]
        simp only [h, ite_false, hf, he, ite_true]
        rw [search_eq_memb]
        simp only [h, ite_false]
        rw [deleteHelper_memb _ _ (U_clearEnd _ _ hu) (by rw [clearEnd_memb]; simp)]
        rw [clearEnd_memb]
        simp
      · rw [Trie.delete]
        simp only [h, ite_false, hf, he, ite_false]
        rw [search_eq_memb, memb_findNode]
        simp [h, hf, he]

theorem search_delete_frame (t : Trie) (w v : String) (hu : UNode t.root)
    (hne : strLower v ≠ strLower w) :
    ((t.delete w).1).search v = t.search v := by
  have hdata : (strLower v).data ≠ (strLower w).data := by
    intro hd
    exact hne ((strLower_eq_iff_data v w).mpr hd)
  by_cases h : w.data = []
  · simp [Trie.delete, h]
  · cases hf : findNode t.root (strLower w).data with
    | none => simp [Trie.delete, h, hf]
    | some n =>
      by_cases he : n.isEndOfWord
      · rw [Trie.delete]
        simp only [h, ite_false, hf, he, ite_true]
        rw [search_eq_memb, search_eq_memb]
        by_cases hv : v.data = []
        · simp [hv]
        · simp only [hv, ite_false]
          rw [deleteHelper_memb _ _ (U_clearEnd _ _ hu) (by rw [clearEnd_memb]; simp)]
          rw [clearEnd_memb]
          simp [hdata]
      · simp [Trie.delete, h, hf, he]

/-! ## Claims C7 and C10 -/

/-- C7 counterexample: with the inserted word set `["", "Autopsy"]`, the
claim fails as stated — `exists("")` is false right after inserting `""`
(insert is a no-op on the empty string), and `delete("AUTOPSY")` returns
`true` even though the word "AUTOPSY" was never inserted (deletion
case-folds, so it hits the stored "Autopsy"). -/
theorem trie_c7_cex :
    (mkTrie ["", "Autopsy"]).search "" = false ∧
      ((mkTrie ["", "Autopsy"]).delete "AUTOPSY").2 = true ∧
      "AUTOPSY" ∉ ["", "Autopsy"] := by
  refine ⟨by decide, by decide, by decide⟩

/-- C7 (amended): over a trie built from a word set `ws`, (1) every
*nonempty* inserted word is found by `search` under any casing of the
query; (2) `delete(w)` returns true exactly when some nonempty inserted
word equals `w` up to case (so it returns false when no case-variant of
`w` was ever inserted); (3) after `delete(w)` the word `w` is no longer
found. -/
theorem trie_membership_c7 (ws : List String) (w : String) :
    (∀ v ∈ ws, v ≠ "" → ∀ u : String, strLower u = strLower v →
      (mkTrie ws).search u = true) ∧
    (((mkTrie ws).delete w).2 = true ↔ ∃ v ∈ ws, v ≠ "" ∧ strLower v = strLower w) ∧
    ((mkTrie ws).delete w).1.search w = false := by
  refine ⟨?_, ?_, search_delete_self _ _ (U_mkTrie ws)⟩
  · intro v hv hne u hu
    have hud : u ≠ "" := ne_empty_of_strLower_eq hu hne
    rw [search_eq_memb]
    rw [ne_eq, ← strData_eq_nil_iff] at hud
    simp only [hud, ite_false]
    rw [memb_mkTrie]
    exact ⟨v, hv, hne, congrArg String.data hu.symm⟩
  · rw [delete_snd, memb_mkTrie]
    constructor
    · rintro ⟨hwne, v, hv, hne, hdata⟩
      exact ⟨v, hv, hne, (strLower_eq_iff_data v w).mpr hdata⟩
    · rintro ⟨v, hv, hne, heq⟩
      refine ⟨?_, v, hv, hne, congrArg String.data heq⟩
      rw [ne_eq, strData_eq_nil_iff]
      exact ne_empty_of_strLower_eq heq.symm hne

/-- C7 witness: instantiating the amended claim at `ws = ["Autopsy"]`,
`w = "AUTOPSY"`. -/
theorem trie_c7_witness :
    (mkTrie ["Autopsy"]).search "AUTOPSY" = true ∧
      ((mkTrie ["Autopsy"]).delete "AUTOPSY").2 = true ∧
      ((mkTrie ["Autopsy"]).delete "AUTOPSY").1.search "AUTOPSY" = false := by
  obtain ⟨h1, h2, h3⟩ := trie_membership_c7 ["Autopsy"] "AUTOPSY"
  exact ⟨h1 "Autopsy" (by simp) (by decide) "AUTOPSY" (by decide),
    h2.mpr ⟨"Autopsy", by simp, by decide, by decide⟩, h3⟩

/-- C10: deleting a word `w` from a trie built from any inserted word set
leaves the membership of every word `v` whose lowercase form differs from
`w`'s unchanged — including words sharing a prefix path with `w`. -/
theorem trie_delete_frame_c10 (ws : List String) (w v : String)
    (hne : strLower v ≠ strLower w) :
    (((mkTrie ws).delete w).1).search v = (mkTrie ws).search v :=
  search_delete_frame _ _ _ (U_mkTrie ws) hne

/-- C10 witness: deleting "card" from `{car, card}` leaves "car" intact
(both sides evaluate to `true`). -/
theorem trie_c10_witness :
    (((mkTrie ["car", "card"]).delete "card").1).search "car" =
      (mkTrie ["car", "card"]).search "car" ∧
    (mkTrie ["car", "card"]).search "car" = true :=
  ⟨trie_delete_frame_c10 ["car", "card"] "card" "car" (by decide), by decide⟩

/-! ## Value/path coherence lemmas (for autocomplete, claim C5) -/

theorem WNode.invn {cs : ChildList} {e : Bool} {v : Option String} {path : List Char}
    (h : WNode (.mk cs e v) path) :
    (∀ w, v = some w → (strLower w).data = path ∧ w ≠ "") ∧
      (e = true → v.isSome) ∧ WChildren cs path := by
  cases h with
  | mk _ _ _ _ h1 h2 h3 => exact ⟨h1, h2, h3⟩

theorem WChildren.invw {c : Char} {n : TrieNode} {rest : ChildList} {path : List Char}
    (h : WChildren (.cons c n rest) path) :
    WNode n (path ++ [c]) ∧ WChildren rest path := by
  cases h with
  | cons _ _ _ _ h1 h2 => exact ⟨h1, h2⟩

theorem WChildren.get?_w : ∀ {cs : ChildList} {c : Char} {n : TrieNode}
    {path : List Char}, WChildren cs path → cs.get? c = some n →
    WNode n (path ++ [c])
  | .nil, c, n, path, _, h => by simp [ChildList.get?] at h
  | .cons d m rest, c, n, path, hw, h => by
    obtain ⟨hm, hrest⟩ := hw.invw
    by_cases hd : d = c
    · subst hd
      simp [ChildList.get?] at h
      exact h ▸ hm
    · simp [ChildList.get?, hd] at h
      exact WChildren.get?_w hrest h

theorem WChildren.set_w : ∀ {cs : ChildList} {c : Char} {m : TrieNode}
    {path : List Char}, WChildren cs path → WNode m (path ++ [c]) →
    WChildren (cs.set c m) path
  | .nil, c, m, path, _, hm => .cons _ _ _ _ hm (.nil _)
  | .cons d n rest, c, m, path, hw, hm => by
    obtain ⟨hn, hrest⟩ := hw.invw
    by_cases hd : d = c
    · subst hd
      simp only [ChildList.set, if_pos rfl]
      exact .cons _ _ _ _ hm hrest
    · simp only [ChildList.set, if_neg hd]
      exact .cons _ _ _ _ hn (WChildren.set_w hrest hm)

theorem W_empty (path : List Char) : WNode TrieNode.empty path :=
  .mk _ _ _ _ (by simp) (by simp) (.nil _)

theorem W_insertChars : ∀ (cs : List Char) (n : TrieNode) (w : String)
    (path : List Char), WNode n path → (strLower w).data = path ++ cs → w ≠ "" →
    WNode (insertChars n cs w).1 path
  | [], .mk ncs e nv, w, path, hw, hpath, hne => by
    obtain ⟨hval, hend, hch⟩ := hw.invn
    by_cases he : e
    · simpa [insertChars, TrieNode.isEndOfWord, he] using hw
    · simp only [insertChars, TrieNode.isEndOfWord, he, Bool.false_eq_true,
        ite_false, TrieNode.children]
      refine .mk _ _ _ _ ?_ (by simp) hch
      intro u hu
      cases hu
      exact ⟨by simpa using hpath, hne⟩
  | c :: rest, .mk ncs e nv, w, path, hw, hpath, hne => by
    obtain ⟨hval, hend, hch⟩ := hw.invn
    have hpath2 : (strLower w).data = (path ++ [c]) ++ rest := by
      rw [hpath]; simp
    cases hcg : ncs.get? c with
    | some ch =>
      simp only [insertChars, TrieNode.children, hcg, TrieNode.isEndOfWord,
        TrieNode.value]
      exact .mk _ _ _ _ hval hend
        (hch.set_w (W_insertChars rest ch w _ (hch.get?_w hcg) hpath2 hne))
    | none =>
      simp only [insertChars, TrieNode.children, hcg, TrieNode.isEndOfWord,
        TrieNode.value]
      exact .mk _ _ _ _ hval hend
        (hch.set_w (W_insertChars rest TrieNode.empty w _ (W_empty _) hpath2 hne))

theorem W_insert (t : Trie) (w : String) (hw : WNode t.root []) :
    WNode (t.insert w).root [] := by
  by_cases h : w.data = []
  · simpa [Trie.insert, h]
  · simp only [Trie.insert, h, ite_false]
    exact W_insertChars _ _ _ _ hw (by simp) ((strData_eq_nil_iff w).not.mp h)

theorem W_mkTrie (ws : List String) : WNode (mkTrie ws).root [] := by
  suffices h : ∀ t : Trie, WNode t.root [] → WNode (ws.foldl Trie.insert t).root [] by
    exact h Trie.empty (W_empty [])
  induction ws with
  | nil => intro t ht; exact ht
  | cons w rest ih => intro t ht; exact ih _ (W_insert t w ht)

theorem findNode_w : ∀ (cs : List Char) {n m : TrieNode} {path : List Char},
    WNode n path → findNode n cs = some m → WNode m (path ++ cs)
  | [], n, m, path, hw, h => by
    simp [findNode] at h
    simpa using h ▸ hw
  | c :: rest, n, m, path, hw, h => by
    cases n with
    | mk ncs e nv =>
      obtain ⟨_, _, hch⟩ := hw.invn
      cases hcg : ChildList.get? ncs c with
      | none => simp [findNode, TrieNode.children, hcg] at h
      | some ch =>
        simp only [findNode, TrieNode.children, hcg] at h
        have := findNode_w rest (hch.get?_w hcg) h
        simpa using this

/-! ## DFS collection lemmas -/

theorem pushChild_len (node : TrieNode) (rs : List String) :
    rs.length ≤ (pushChild node rs).length ∧
      (pushChild node rs).length ≤ rs.length + 1 := by
  cases he : node.isEndOfWord <;> cases hv : node.value <;>
    simp [pushChild, he, hv]
  split <;> simp

theorem pushChild_pref (node : TrieNode) (rs : List String) :
    rs <+: pushChild node rs := by
  cases he : node.isEndOfWord <;> cases hv : node.value <;>
    simp [pushChild, he, hv]
  split <;> simp

theorem pushChild_sub {node : TrieNode} {rs : List String} {w : String}
    (h : w ∈ pushChild node rs) : w ∈ rs ∨ node.value = some w := by
  cases he : node.isEndOfWord <;> cases hv : node.value <;>
    simp [pushChild, he, hv] at h
  · exact Or.inl h
  · exact Or.inl h
  · exact Or.inl h
  · rename_i v
    by_cases hz : v = ""
    · simp [hz] at h
      exact Or.inl h
    · simp [hz] at h
      rcases h with h | h
      · exact Or.inl h
      · exact Or.inr (by rw [h])

theorem value_mem_valuesOf {node : TrieNode} {w : String}
    (h : node.value = some w) : w ∈ valuesOf node := by
  cases node with
  | mk cs e v =>
    simp only [TrieNode.value] at h
    simp [valuesOf, h]

mutual
theorem dfs_len : ∀ (n : TrieNode) (rs : List String) (lim : Nat),
    (dfsCollect n rs lim).length ≤ max rs.length lim
  | .mk cs e v, rs, lim => by
    by_cases h : lim ≤ rs.length
    · simp [dfsCollect, h]
    · simp only [dfsCollect, if_neg h]
      exact le_trans (dfsChildren_len cs rs lim (by omega)) (le_max_right _ _)

theorem dfsChildren_len : ∀ (cs : ChildList) (rs : List String) (lim : Nat),
    rs.length < lim → (dfsChildren cs rs lim).length ≤ lim
  | .nil, rs, lim, h => by simp [dfsChildren]; omega
  | .cons c child rest, rs, lim, h => by
    simp only [dfsChildren]
    have hp := pushChild_len child rs
    by_cases h1 : lim ≤ (pushChild child rs).length
    · simp only [if_pos h1]
      omega
    · simp only [if_neg h1]
      have h2 := dfs_len child (pushChild child rs) lim
      by_cases h3 : lim ≤ (dfsCollect child (pushChild child rs) lim).length
      · simp only [if_pos h3]
        omega
      · simp only [if_neg h3]
        exact dfsChildren_len rest _ lim (by omega)
end

mutual
theorem dfs_pref : ∀ (n : TrieNode) (rs : List String) (lim : Nat),
    rs <+: dfsCollect n rs lim
  | .mk cs e v, rs, lim => by
    by_cases h : lim ≤ rs.length
    · simp [dfsCollect, h]
    · simp only [dfsCollect, if_neg h]
      exact dfsChildren_pref cs rs lim

theorem dfsChildren_pref : ∀ (cs : ChildList) (rs : List String) (lim : Nat),
    rs <+: dfsChildren cs rs lim
  | .nil, rs, lim => by simp [dfsChildren]
  | .cons c child rest, rs, lim => by
    simp only [dfsChildren]
    have hp := pushChild_pref child rs
    by_cases h1 : lim ≤ (pushChild child rs).length
    · simp only [if_pos h1]
      exact hp
    · simp only [if_neg h1]
      have h2 := dfs_pref child (pushChild child rs) lim
      by_cases h3 : lim ≤ (dfsCollect child (pushChild child rs) lim).length
      · simp only [if_pos h3]
        exact hp.trans h2
      · simp only [if_neg h3]
        exact (hp.trans h2).trans (dfsChildren_pref rest _ lim)
end

mutual
theorem dfs_sub : ∀ (n : TrieNode) (rs : List String) (lim : Nat) (w : String),
    w ∈ dfsCollect n rs lim → w ∈ rs ∨ w ∈ valuesOf n
  | .mk cs e v, rs, lim, w => by
    intro h
    by_cases hl : lim ≤ rs.length
    · simp [dfsCollect, hl] at h
      exact Or.inl h
    · simp only [dfsCollect, if_neg hl] at h
      rcases dfsChildren_sub cs rs lim w h with h1 | h1
      · exact Or.inl h1
      · right
        simp [valuesOf]
        right
        exact h1

theorem dfsChildren_sub : ∀ (cs : ChildList) (rs : List String) (lim : Nat)
    (w : String), w ∈ dfsChildren cs rs lim → w ∈ rs ∨ w ∈ valuesOfChildren cs
  | .nil, rs, lim, w => by
    intro h
    simp [dfsChildren] at h
    exact Or.inl h
  | .cons c child rest, rs, lim, w => by
    intro h
    simp only [dfsChildren] at h
    have hstep : ∀ u, u ∈ pushChild child rs → u ∈ rs ∨ u ∈ valuesOfChildren (.cons c child rest) := by
      intro u hu
      rcases pushChild_sub hu with h1 | h1
      · exact Or.inl h1
      · right
        simp [valuesOfChildren]
        exact Or.inl (value_mem_valuesOf h1)
    have hstep2 : ∀ u, u ∈ dfsCollect child (pushChild child rs) lim →
        u ∈ rs ∨ u ∈ valuesOfChildren (.cons c child rest) := by
      intro u hu
      rcases dfs_sub child _ lim u hu with h1 | h1
      · exact hstep u h1
      · right
        simp [valuesOfChildren]
        exact Or.inl h1
    by_cases h1 : lim ≤ (pushChild child rs).length
    · simp only [if_pos h1] at h
      exact hstep w h
    · simp only [if_neg h1] at h
      by_cases h3 : lim ≤ (dfsCollect child (pushChild child rs) lim).length
      · simp only [if_pos h3] at h
        exact hstep2 w h
      · simp only [if_neg h3] at h
        rcases dfsChildren_sub rest _ lim w h with h4 | h4
        · exact hstep2 w h4
        · right
          simp [valuesOfChildren]
          exact Or.inr h4
end

mutual
theorem valuesOf_w : ∀ (n : TrieNode) (path : List Char) (w : String),
    WNode n path → w ∈ valuesOf n → path <+: (strLower w).data
  | .mk cs e v, path, w => by
    intro hw hmem
    obtain ⟨hval, _, hch⟩ := hw.invn
    simp only [valuesOf] at hmem
    rcases List.mem_append.mp hmem with h1 | h1
    · cases hv : v with
      | none => simp [hv] at h1
      | some u =>
        simp [hv] at h1
        subst h1
        rw [(hval w hv).1]
    · exact valuesOfChildren_w cs path w hch h1

theorem valuesOfChildren_w : ∀ (cs : ChildList) (path : List Char) (w : String),
    WChildren cs path → w ∈ valuesOfChildren cs → path <+: (strLower w).data
  | .nil, path, w => by
    intro _ h
    simp [valuesOfChildren] at h
  | .cons c n rest, path, w => by
    intro hw hmem
    obtain ⟨hn, hrest⟩ := hw.invw
    simp only [valuesOfChildren] at hmem
    rcases List.mem_append.mp hmem with h1 | h1
    · exact (List.prefix_append path [c]).trans (valuesOf_w n (path ++ [c]) w hn h1)
    · exact valuesOfChildren_w rest path w hrest h1
end

theorem WNode.value_eq {n : TrieNode} {path : List Char} {w : String}
    (h : WNode n path) (hv : n.value = some w) :
    (strLower w).data = path ∧ w ≠ "" := by
  cases n with
  | mk cs e v =>
    simp only [TrieNode.value] at hv
    exact h.invn.1 w hv

theorem WNode.end_value {n : TrieNode} {path : List Char} (h : WNode n path)
    (he : n.isEndOfWord = true) :
    ∃ w, n.value = some w ∧ (strLower w).data = path ∧ w ≠ "" := by
  cases n with
  | mk cs e v =>
    simp only [TrieNode.isEndOfWord] at he
    obtain ⟨hval, hend, _⟩ := h.invn
    obtain ⟨w, hw⟩ := Option.isSome_iff_exists.mp (hend he)
    exact ⟨w, by simpa [TrieNode.value] using hw, hval w hw⟩

/-! ## Claim C5 -/

/-- C5 counterexample: insert only "Auto" and autocomplete the prefix
"auto" with `limit = 0`.  The prefix node is a stored word, so its value
is pushed *before* any limit check: one item is returned although the
limit is 0, and the returned item "Auto" does not literally start with the
prefix "auto" (autocomplete preserves the original casing). -/
theorem trie_c5_cex :
    (mkTrie ["Auto"]).autocomplete "auto" 0 = ["Auto"] ∧
      ¬ ((mkTrie ["Auto"]).autocomplete "auto" 0).length ≤ 0 ∧
      "auto".data.isPrefixOf "Auto".data = false := by
  exact ⟨by decide, by decide, by decide⟩

/-- C5 (amended): for a trie built from any inserted word set,
`autocomplete(prefix, limit)` returns (1) at most `limit` items whenever
`limit ≥ 1` (with `limit = 0` a stored prefix still yields one item);
(2) every returned item starts with the prefix *up to case*: the item's
lowercase spelling extends the lowercased prefix; and (3) if the prefix
itself is a stored word (case-insensitively), the first item returned is
its stored original-cased value. -/
theorem trie_autocomplete_c5 (ws : List String) (p : String) (lim : Nat) :
    (1 ≤ lim → ((mkTrie ws).autocomplete p lim).length ≤ lim) ∧
    (∀ w ∈ (mkTrie ws).autocomplete p lim,
      (strLower p).data <+: (strLower w).data) ∧
    ((mkTrie ws).search p = true →
      ∃ v, ((mkTrie ws).autocomplete p lim).head? = some v ∧
        strLower v = strLower p) := by
  by_cases hp : p.data = []
  · refine ⟨fun _ => by simp [Trie.autocomplete, hp], ?_, ?_⟩
    · intro w hw
      simp [Trie.autocomplete, hp] at hw
    · intro hs
      simp [Trie.search, hp] at hs
  · cases hf : findNode (mkTrie ws).root (strLower p).data with
    | none =>
      refine ⟨fun _ => by simp [Trie.autocomplete, hp, hf], ?_, ?_⟩
      · intro w hw
        simp [Trie.autocomplete, hp, hf] at hw
      · intro hs
        simp [Trie.search, hp, hf] at hs
    | some startNode =>
      have hW : WNode startNode ((strLower p).data) := by
        simpa using findNode_w _ (W_mkTrie ws) hf
      have hauto : (mkTrie ws).autocomplete p lim =
          dfsCollect startNode (pushChild startNode []) lim := by
        simp [Trie.autocomplete, hp, hf]
      refine ⟨?_, ?_, ?_⟩
      · intro hlim
        rw [hauto]
        have h1 := dfs_len startNode (pushChild startNode []) lim
        have h2 := pushChild_len startNode []
        have h3 : (pushChild startNode []).length ≤ lim := by
          simp at h2
          omega
        omega
      · intro w hw
        rw [hauto] at hw
        rcases dfs_sub _ _ _ _ hw with h1 | h1
        · rcases pushChild_sub h1 with h2 | h2
          · simp at h2
          · rw [(hW.value_eq h2).1]
        · exact valuesOf_w _ _ _ hW h1
      · intro hs
        have hend : startNode.isEndOfWord = true := by
          simpa [Trie.search, hp, hf] using hs
        obtain ⟨v, hvv, hvd, hvne⟩ := hW.end_value hend
        have hr0 : pushChild startNode [] = [v] := by
          simp [pushChild, hend, hvv, hvne]
        obtain ⟨t, ht⟩ := dfs_pref startNode (pushChild startNode []) lim
        rw [hauto, ← ht, hr0]
        exact ⟨v, rfl, (strLower_eq_iff_data v p).mpr hvd⟩

/-- C5 witness: with `{Auto, Autopsy}` inserted and prefix "auto",
limit 2: at most 2 items, "Autopsy" (a returned item) extends the prefix
up to case, and the stored word "Auto" is returned first. -/
theorem trie_c5_witness :
    ((mkTrie ["Auto", "Autopsy"]).autocomplete "auto" 2).length ≤ 2 ∧
      ((strLower "auto").data <+: (strLower "Autopsy").data) ∧
      (∃ v, ((mkTrie ["Auto", "Autopsy"]).autocomplete "auto" 2).head? = some v ∧
        strLower v = strLower "auto") := by
  obtain ⟨h1, h2, h3⟩ := trie_autocomplete_c5 ["Auto", "Autopsy"] "auto" 2
  exact ⟨h1 (by decide), h2 "Autopsy" (by decide), h3 (by decide)⟩

/-! ## LRU cache: linked-list representation lemmas -/

namespace LRUCache

variable {K V : Type}

theorem links_nil {nodes : Nat → Option (LRUNodeData K V)} {p nx : Option Nat} :
    Links nodes p [] nx ↔ True := Iff.rfl

theorem links_cons {nodes : Nat → Option (LRUNodeData K V)} {p nx : Option Nat}
    {e : Nat × K × V} {rest : AbsList K V} :
    Links nodes p (e :: rest) nx ↔
      (nodes e.1 = some ⟨e.2.1, e.2.2, p, firstId rest nx⟩ ∧
        Links nodes (some e.1) rest nx) := Iff.rfl

theorem firstId_default_irrel {x : AbsList K V} (h : x ≠ []) (d d' : Option Nat) :
    firstId x d = firstId x d' := by
  cases x with
  | nil => exact absurd rfl h
  | cons e t => simp [firstId]

theorem lastId_cons (e : Nat × K × V) (xs : AbsList K V) (d : Option Nat) :
    lastId (e :: xs) d = lastId xs (some e.1) := by
  cases hx : xs.getLast? with
  | none =>
    have hnil : xs = [] := List.getLast?_eq_none_iff.mp hx
    subst hnil
    simp [lastId]
  | some g =>
    have h2 : (e :: xs).getLast? = some g := by
      cases xs with
      | nil => simp at hx
      | cons f t => rw [List.getLast?_cons_cons]; exact hx
    simp [lastId, hx, h2]

theorem lastId_default_irrel {x : AbsList K V} (h : x ≠ []) (d d' : Option Nat) :
    lastId x d = lastId x d' := by
  cases hx : x.getLast? with

  | none => exact absurd (List.getLast?_eq_none_iff.mp hx) h
  | some e => simp [lastId, hx]

theorem lastId_append (xs ys : AbsList K V) (d : Option Nat) :
    lastId (xs ++ ys) d = lastId ys (lastId xs d) := by
  induction xs generalizing d with
  | nil => simp [lastId]
  | cons e t ih => rw [List.cons_append, lastId_cons, ih, lastId_cons]

theorem lastId_concat (xs : AbsList K V) (e : Nat × K × V) (d : Option Nat) :
    lastId (xs ++ [e]) d = some e.1 := by
  rw [lastId_append]
  simp [lastId]

theorem firstId_append (xs ys : AbsList K V) (d : Option Nat) :
    firstId (xs ++ ys) d = firstId xs (firstId ys d) := by
  cases xs <;> simp [firstId]

theorem links_irrel {nodes : Nat → Option (LRUNodeData K V)} {p nx : Option Nat}
    {xs : AbsList K V} (h : Links nodes p xs nx) {j : Nat}
    (o : Option (LRUNodeData K V)) (hj : ∀ e ∈ xs, e.1 ≠ j) :
    Links (Function.update nodes j o) p xs nx := by
  induction xs generalizing p with
  | nil => trivial
  | cons e t ih =>
    rw [links_cons] at h ⊢
    obtain ⟨h1, h2⟩ := h
    refine ⟨?_, ih h2 (fun f hf => hj f (List.mem_cons_of_mem _ hf))⟩
    rw [Function.update_noteq (hj e (List.mem_cons_self _ _)) o nodes]
    exact h1

theorem links_append {nodes : Nat → Option (LRUNodeData K V)} {p nx : Option Nat}
    (xs ys : AbsList K V) :
    Links nodes p (xs ++ ys) nx ↔
      Links nodes p xs (firstId ys nx) ∧ Links nodes (lastId xs p) ys nx := by
  induction xs generalizing p with
  | nil => simp [Links, lastId]
  | cons e t ih =>
    rw [List.cons_append, links_cons, links_cons, ih, firstId_append, lastId_cons]
    tauto

theorem links_node_mid {nodes : Nat → Option (LRUNodeData K V)} {p nx : Option Nat}
    {xs ys : AbsList K V} {e : Nat × K × V}
    (h : Links nodes p (xs ++ e :: ys) nx) :
    nodes e.1 = some ⟨e.2.1, e.2.2, lastId xs p, firstId ys nx⟩ := by
  rw [links_append] at h
  exact h.2.1

theorem updNode_nodes_self (st : LRUState K V) (j : Nat)
    (f : LRUNodeData K V → LRUNodeData K V) :
    (updNode st j f).nodes j = (st.nodes j).map f := by
  simp [updNode]

theorem updNode_nodes_ne (st : LRUState K V) {j l : Nat}
    (f : LRUNodeData K V → LRUNodeData K V) (h : l ≠ j) :
    (updNode st j f).nodes l = st.nodes l := by
  simp [updNode, Function.update_noteq h]

/-- `removeNode` on the node of the middle entry of the abstract list
unlinks exactly that entry, touching nothing else of the state (the node's
own record is left stale in the heap, exactly as in the source). -/
theorem repList_removeNode {st : LRUState K V} {pre post : AbsList K V}
    {i : Nat} {k : K} {v : V}
    (h : RepList st (pre ++ (i, k, v) :: post)) :
    RepList (removeNode st i) (pre ++ post) ∧
      (removeNode st i).nodes i = st.nodes i ∧
      (removeNode st i).cache = st.cache ∧
      (removeNode st i).nextId = st.nextId ∧
      (removeNode st i).capacity = st.capacity ∧
      (removeNode st i).hits = st.hits ∧
      (removeNode st i).misses = st.misses := by
  obtain ⟨hlinks, hhead, htail, hids⟩ := h
  have hnode : st.nodes i = some ⟨k, v, lastId pre none, firstId post none⟩ :=
    links_node_mid hlinks
  have hl12 := (links_append pre ((i, k, v) :: post)).mp hlinks
  have hl1 : Links st.nodes none pre (some i) := by
    simpa [firstId] using hl12.1
  have hl2 : Links st.nodes (some i) post none := by
    have := hl12.2
    rw [links_cons] at this
    exact this.2
  have hids2 : ((pre.map (·.1)) ++ i :: (post.map (·.1))).Nodup := by
    simpa using hids
  have hmid : i ∉ pre.map (·.1) ++ post.map (·.1) ∧
      (pre.map (·.1) ++ post.map (·.1)).Nodup := by
    have := List.nodup_middle.mp hids2
    rw [List.nodup_cons] at this
    exact this
  have hni : i ∉ pre.map (·.1) ++ post.map (·.1) := hmid.1
  have hni_pre : i ∉ pre.map (·.1) := fun hc => hni (List.mem_append_left _ hc)
  have hni_post : i ∉ post.map (·.1) := fun hc => hni (List.mem_append_right _ hc)
  have hnd := List.nodup_append.mp hmid.2
  have hids' : ((pre ++ post).map (·.1)).Nodup := by
    rw [List.map_append]
    exact hmid.2
  rcases List.eq_nil_or_concat pre with hpre | ⟨pre', pl, hpre⟩
  · subst hpre
    cases post with
    | nil =>
      have hst' : removeNode st i = { st with head := none, tail := none } := by
        simp [removeNode, hnode, lastId, firstId]
      rw [hst']
      exact ⟨⟨trivial, by simp [firstId], by simp [lastId], by simp⟩,
        rfl, rfl, rfl, rfl, rfl, rfl⟩
    | cons q post' =>
      have hq : st.nodes q.1 = some ⟨q.2.1, q.2.2, some i, firstId post' none⟩ := by
        rw [links_cons] at hl2
        exact hl2.1
      have hl2' : Links st.nodes (some q.1) post' none := by
        rw [links_cons] at hl2
        exact hl2.2
      have hqi : q.1 ≠ i := by
        intro hc
        exact hni_post (by simp [← hc])
      have hqpost' : ∀ e ∈ post', e.1 ≠ q.1 := by
        intro e he hc
        have : (q.1 :: post'.map (·.1)).Nodup := by simpa using hnd.2.1
        rw [List.nodup_cons] at this
        exact this.1 (List.mem_map.mpr ⟨e, he, hc⟩)
      have hst' : removeNode st i =
          updNode { st with head := some q.1 } q.1
            (fun m => { m with prev := none }) := by
        simp [removeNode, hnode, lastId, firstId]
      rw [hst']
      refine ⟨⟨?_, ?_, ?_, ?_⟩, ?_, rfl, rfl, rfl, rfl, rfl⟩
      · rw [List.nil_append, links_cons]
        constructor
        · show Function.update _ _ _ q.1 = _
          rw [Function.update_same, hq]
          rfl
        · show Links (Function.update _ _ _) _ _ _
          exact links_irrel hl2' _ hqpost'
      · simp [updNode, firstId]
      · have : st.tail = lastId (q :: post') (some i) := by
          simpa [lastId_cons] using htail
        simp only [updNode, List.nil_append]
        rw [this, lastId_default_irrel (by simp) (some i) none]
      · simpa using hnd.2.1
      · show Function.update _ _ _ i = _
        rw [Function.update_noteq (fun hc => hqi hc.symm)]
  · rw [List.concat_eq_append] at hpre
    subst hpre
    cases post with
    | nil =>
      have hpl : st.nodes pl.1 =
          some ⟨pl.2.1, pl.2.2, lastId pre' none, some i⟩ := by
        have := (links_append pre' [pl]).mp hl1
        rw [links_cons] at this
        simpa [firstId] using this.2.1
      have hpl1 : Links st.nodes none pre' (some pl.1) := by
        have := (links_append pre' [pl]).mp hl1
        simpa [firstId] using this.1
      have hpli : pl.1 ≠ i := by
        intro hc
        exact hni_pre (by simp [← hc])
      have hplpre' : ∀ e ∈ pre', e.1 ≠ pl.1 := by
        intro e he hc
        have : ((pre'.map (·.1)) ++ [pl.1]).Nodup := by simpa using hnd.1
        rcases List.nodup_append.mp this with ⟨_, _, hdisj⟩
        exact hdisj (List.mem_map.mpr ⟨e, he, hc⟩) (by simp)
      have hst' : removeNode st i =
          { updNode st pl.1 (fun m => { m with next := none }) with
            tail := some pl.1 } := by
        simp [removeNode, hnode, lastId_concat, firstId, lastId]
      rw [hst']
      refine ⟨⟨?_, ?_, ?_, ?_⟩, ?_, rfl, rfl, rfl, rfl, rfl⟩
      · rw [List.append_nil, links_append]
        constructor
        · show Links (Function.update _ _ _) _ _ _
          simpa [firstId] using links_irrel hpl1 _ hplpre'
        · rw [links_cons]
          refine ⟨?_, trivial⟩
          show Function.update _ _ _ pl.1 = _
          rw [Function.update_same, hpl]
          rfl
      · have e1 := firstId_append (pre' ++ [pl]) [(i, k, v)] none
        have : st.head = firstId (pre' ++ [pl]) none := by
          rw [hhead, e1]
          exact firstId_default_irrel (x := pre' ++ [pl]) (by simp) _ _
        simpa [updNode, List.append_nil] using this
      · simp [List.append_nil, lastId_concat]
      · simpa using hnd.1
      · show Function.update _ _ _ i = _
        rw [Function.update_noteq (fun hc => hpli hc.symm)]
    | cons q post' =>
      have hplq := (links_append pre' [pl]).mp hl1
      have hpl : st.nodes pl.1 =
          some ⟨pl.2.1, pl.2.2, lastId pre' none, some i⟩ := by
        have := hplq.2
        rw [links_cons] at this
        simpa [firstId] using this.1
      have hpl1 : Links st.nodes none pre' (some pl.1) := by
        simpa [firstId] using hplq.1
      have hq : st.nodes q.1 = some ⟨q.2.1, q.2.2, some i, firstId post' none⟩ := by
        rw [links_cons] at hl2
        exact hl2.1
      have hl2' : Links st.nodes (some q.1) post' none := by
        rw [links_cons] at hl2
        exact hl2.2
      have hpli : pl.1 ≠ i := fun hc => hni_pre (by simp [← hc])
      have hqi : q.1 ≠ i := fun hc => hni_post (by simp [← hc])
      have hdisj : (pre'.map (·.1) ++ [pl.1]).Disjoint (q.1 :: post'.map (·.1)) := by
        have := hnd.2.2
        simpa using this
      have hplq2 : pl.1 ≠ q.1 := by
        intro hc
        have h1 : pl.1 ∈ pre'.map (·.1) ++ [pl.1] := List.mem_append_right _ (by simp)
        have h2 : pl.1 ∈ q.1 :: post'.map (·.1) := by
          rw [hc]
          exact List.mem_cons_self _ _
        exact hdisj h1 h2
      have hplpre' : ∀ e ∈ pre', e.1 ≠ pl.1 := by
        intro e he hc
        have : ((pre'.map (·.1)) ++ [pl.1]).Nodup := by simpa using hnd.1
        rcases List.nodup_append.mp this with ⟨_, _, hd2⟩
        exact hd2 (List.mem_map.mpr ⟨e, he, hc⟩) (by simp)
      have hqpre' : ∀ e ∈ pre', e.1 ≠ q.1 := by
        intro e he hc
        exact hdisj (List.mem_append_left _ (List.mem_map.mpr ⟨e, he, hc⟩))
          (List.mem_cons_self _ _)
      have hplpost' : ∀ e ∈ post', e.1 ≠ pl.1 := by
        intro e he hc
        have h1 : pl.1 ∈ pre'.map (·.1) ++ [pl.1] := List.mem_append_right _ (by simp)
        have h2 : pl.1 ∈ q.1 :: post'.map (·.1) :=
          List.mem_cons_of_mem _ (List.mem_map.mpr ⟨e, he, hc⟩)
        exact hdisj h1 h2
      have hqpost' : ∀ e ∈ post', e.1 ≠ q.1 := by
        intro e he hc
        have : (q.1 :: post'.map (·.1)).Nodup := by simpa using hnd.2.1
        rw [List.nodup_cons] at this
        exact this.1 (List.mem_map.mpr ⟨e, he, hc⟩)
      have hst' : removeNode st i =
          updNode (updNode st pl.1 (fun m => { m with next := some q.1 }))
            q.1 (fun m => { m with prev := some pl.1 }) := by
        simp [removeNode, hnode, lastId_concat, firstId]
      rw [hst']
      have hn_pl : (updNode (updNode st pl.1 (fun m => { m with next := some q.1 }))
          q.1 (fun m => { m with prev := some pl.1 })).nodes pl.1 =
          some ⟨pl.2.1, pl.2.2, lastId pre' none, some q.1⟩ := by
        rw [updNode_nodes_ne _ _ hplq2, updNode_nodes_self, hpl]
        rfl
      have hn_q : (updNode (updNode st pl.1 (fun m => { m with next := some q.1 }))
          q.1 (fun m => { m with prev := some pl.1 })).nodes q.1 =
          some ⟨q.2.1, q.2.2, some pl.1, firstId post' none⟩ := by
        rw [updNode_nodes_self, updNode_nodes_ne _ _ (fun hc => hplq2 hc.symm), hq]
        rfl
      refine ⟨⟨?_, ?_, ?_, ?_⟩, ?_, rfl, rfl, rfl, rfl, rfl⟩
      · rw [links_append]
        constructor
        · rw [links_append]
          constructor
          · show Links (Function.update _ _ _) _ _ _
            simp only [updNode]
            exact links_irrel (links_irrel hpl1 _ hplpre') _ hqpre'
          · rw [links_cons]
            refine ⟨?_, trivial⟩
            simpa [firstId] using hn_pl
        · rw [lastId_concat, links_cons]
          refine ⟨by simpa [firstId] using hn_q, ?_⟩
          show Links (Function.update _ _ _) _ _ _
          simp only [updNode]
          exact links_irrel (links_irrel hl2' _ hplpost') _ hqpost'
      · have e1 := firstId_append (pre' ++ [pl]) ((i, k, v) :: q :: post') none
        have e2 := firstId_append (pre' ++ [pl]) (q :: post') none
        have : st.head = firstId ((pre' ++ [pl]) ++ q :: post') none := by
          rw [hhead, e1, e2]
          exact firstId_default_irrel (x := pre' ++ [pl]) (by simp) _ _
        simpa [updNode] using this
      · have : st.tail = lastId ((pre' ++ [pl]) ++ q :: post') none := by
          rw [htail]
          simp only [lastId_append, lastId_cons]
        simpa [updNode] using this
      · exact hids'
      · rw [updNode_nodes_ne _ _ (Ne.symm hqi), updNode_nodes_ne _ _ (Ne.symm hpli)]

/-- `addToHead` on a freshly stored (or just unlinked) node prepends it to
the abstract list. -/
theorem repList_addToHead {st : LRUState K V} {ord : AbsList K V} {i : Nat}
    {k : K} {v : V} {p0 n0 : Option Nat}
    (h : RepList st ord) (hfresh : ∀ e ∈ ord, e.1 ≠ i)
    (hnode : st.nodes i = some ⟨k, v, p0, n0⟩) :
    RepList (addToHead st i) ((i, k, v) :: ord) ∧
      (addToHead st i).cache = st.cache ∧
      (addToHead st i).nextId = st.nextId ∧
      (addToHead st i).capacity = st.capacity ∧
      (addToHead st i).hits = st.hits ∧
      (addToHead st i).misses = st.misses := by
  obtain ⟨hlinks, hhead, htail, hids⟩ := h
  cases ord with
  | nil =>
    have hh : st.head = none := by simpa [firstId] using hhead
    have ht : st.tail = none := by simpa [lastId] using htail
    have hst' : addToHead st i =
        { updNode st i (fun n => { n with prev := none, next := st.head }) with
          head := some i, tail := some i } := by
      simp [addToHead, updNode, hh, ht]
    rw [hst']
    refine ⟨⟨?_, by simp [firstId], by simp [lastId], by simp⟩, rfl, rfl, rfl, rfl, rfl⟩
    rw [links_cons]
    refine ⟨?_, trivial⟩
    show Function.update _ _ _ i = _
    rw [Function.update_same, hnode, hh]
    rfl
  | cons e0 rest =>
    have hh : st.head = some e0.1 := by simpa [firstId] using hhead
    have ht : st.tail ≠ none := by
      rw [htail, lastId_cons]
      cases hx : rest.getLast? with
      | none =>
        have : rest = [] := List.getLast?_eq_none_iff.mp hx
        subst this
        simp [lastId]
      | some g => simp [lastId, hx]
    have he0 : st.nodes e0.1 = some ⟨e0.2.1, e0.2.2, none, firstId rest none⟩ := by
      rw [links_cons] at hlinks
      exact hlinks.1
    have hrest : Links st.nodes (some e0.1) rest none := by
      rw [links_cons] at hlinks
      exact hlinks.2
    have hie0 : e0.1 ≠ i := hfresh e0 (List.mem_cons_self _ _)
    have hresti : ∀ e ∈ rest, e.1 ≠ i := fun e he => hfresh e (List.mem_cons_of_mem _ he)
    have hreste0 : ∀ e ∈ rest, e.1 ≠ e0.1 := by
      intro e he hc
      have : (e0.1 :: rest.map (·.1)).Nodup := by simpa using hids
      rw [List.nodup_cons] at this
      exact this.1 (List.mem_map.mpr ⟨e, he, hc⟩)
    have hst' : addToHead st i =
        { updNode (updNode st i (fun n => { n with prev := none, next := st.head }))
            e0.1 (fun n => { n with prev := some i }) with head := some i } := by
      simp only [addToHead, updNode]
      rw [hh]
      simp only []
      rw [if_neg (by simpa using ht)]
    rw [hst']
    have hn_i : (updNode (updNode st i
        (fun n => { n with prev := none, next := st.head })) e0.1
        (fun n => { n with prev := some i })).nodes i =
        some ⟨k, v, none, some e0.1⟩ := by
      rw [updNode_nodes_ne _ _ (Ne.symm hie0), updNode_nodes_self, hnode, hh]
      rfl
    have hn_e0 : (updNode (updNode st i
        (fun n => { n with prev := none, next := st.head })) e0.1
        (fun n => { n with prev := some i })).nodes e0.1 =
        some ⟨e0.2.1, e0.2.2, some i, firstId rest none⟩ := by
      rw [updNode_nodes_self, updNode_nodes_ne _ _ hie0, he0]
      rfl
    refine ⟨⟨?_, by simp [firstId], ?_, ?_⟩, by simp [updNode], by simp [updNode],
      by simp [updNode], by simp [updNode], by simp [updNode]⟩
    · rw [links_cons]
      constructor
      · simpa [firstId] using hn_i
      · rw [links_cons]
        refine ⟨hn_e0, ?_⟩
        show Links (Function.update (Function.update _ _ _) _ _) _ _ _
        exact links_irrel (links_irrel hrest _ hresti) _ hreste0
    · have t1 := lastId_cons (K := K) (V := V) (i, k, v) (e0 :: rest) none
      show st.tail = _
      rw [htail, t1]
      exact lastId_default_irrel (x := e0 :: rest) (by simp) none (some i)
    · have h1 : i ∉ (e0 :: rest).map (·.1) := by
        intro hc
        obtain ⟨e, he, heq⟩ := List.mem_map.mp hc
        exact hfresh e he heq
      rw [List.map_cons]
      exact List.nodup_cons.mpr ⟨h1, hids⟩

/-- `moveToHead` rotates the abstract list: the touched entry moves to the
front, everything else keeps its relative order. -/
theorem repList_moveToHead {st : LRUState K V} {pre post : AbsList K V}
    {i : Nat} {k : K} {v : V}
    (h : RepList st (pre ++ (i, k, v) :: post)) :
    RepList (moveToHead st i) ((i, k, v) :: (pre ++ post)) ∧
      (moveToHead st i).cache = st.cache ∧
      (moveToHead st i).nextId = st.nextId ∧
      (moveToHead st i).capacity = st.capacity ∧
      (moveToHead st i).misses = st.misses := by
  by_cases hh : st.head = some i
  · -- already at the head: `pre` must be empty and the state is unchanged
    cases pre with
    | nil =>
      simp only [moveToHead, if_pos hh, List.nil_append]
      refine ⟨by simpa using h, by trivial, by trivial, by trivial, by trivial⟩
    | cons e t =>
      exfalso
      have h1 : e.1 = i := by
        have := h.hhead
        rw [hh] at this
        simpa [firstId] using this.symm
      have h2 : ((e :: t ++ (i, k, v) :: post).map (·.1)).Nodup := h.hids
      rw [List.cons_append, List.map_cons, List.nodup_cons] at h2
      exact h2.1 (h1 ▸ (by simp : i ∈ ((t ++ (i, k, v) :: post).map (·.1))))
  · simp only [moveToHead, if_neg hh]
    have hnode : st.nodes i = some ⟨k, v, lastId pre none, firstId post none⟩ :=
      links_node_mid h.hlinks
    obtain ⟨hrl, hni, hc, hnid, hcap, hhit, hmis⟩ := repList_removeNode h
    have hfresh : ∀ e ∈ pre ++ post, e.1 ≠ i := by
      intro e he hc2
      have h2 := h.hids
      have : ((pre.map (·.1)) ++ i :: (post.map (·.1))).Nodup := by simpa using h2
      have h3 := List.nodup_middle.mp this
      rw [List.nodup_cons] at h3
      apply h3.1
      rw [← List.map_append]
      exact List.mem_map.mpr ⟨e, he, hc2⟩
    have hnode1 : (removeNode st i).nodes i =
        some ⟨k, v, lastId pre none, firstId post none⟩ := by rw [hni, hnode]
    obtain ⟨hrl2, hc2, hnid2, hcap2, hhit2, hmis2⟩ :=
      repList_addToHead hrl hfresh hnode1
    exact ⟨hrl2, hc2.trans hc, hnid2.trans hnid, hcap2.trans hcap, hmis2.trans hmis⟩

/-- Look a key up through the representation: a cache hit names exactly
one entry of the abstract list. -/
theorem rep_lookup [DecidableEq K] {st : LRUState K V} {ord : AbsList K V}
    (h : Rep st ord) {k : K} {i : Nat} (hm : mapGet? st.cache k = some i) :
    ∃ pre v post, ord = pre ++ (i, k, v) :: post := by
  have hmem : (k, i) ∈ ord.map (fun e => (e.2.1, e.1)) :=
    h.hcache.mem_iff.mp (mem_of_mapGet?_eq_some hm)
  obtain ⟨e, he, heq⟩ := List.mem_map.mp hmem
  obtain ⟨pre, post, rfl⟩ := List.append_of_mem he
  obtain ⟨h1, h2⟩ := Prod.mk.injEq .. ▸ heq
  exact ⟨pre, e.2.2, post, by rw [← h2, ← h1]⟩

/-- Cache keys are exactly the abstract keys (up to permutation), so `has`
reflects abstract membership. -/
theorem rep_has [DecidableEq K] {st : LRUState K V} {ord : AbsList K V}
    (h : Rep st ord) (k : K) :
    has st k = true ↔ k ∈ ord.map (·.2.1) := by
  rw [has, mapGet?_isSome_iff]
  constructor
  · intro hk
    have := (h.hcache.map (·.1)).mem_iff.mp hk
    simpa [Function.comp] using this
  · intro hk
    apply (h.hcache.map (·.1)).mem_iff.mpr
    simpa [Function.comp] using hk

theorem rep_cache_keys_nodup [DecidableEq K] {st : LRUState K V}
    {ord : AbsList K V} (h : Rep st ord) : (st.cache.map (·.1)).Nodup := by
  have := (h.hcache.map (·.1)).nodup_iff
  rw [this]
  simpa [Function.comp] using h.hkeys

theorem rep_lookup_of_mem [DecidableEq K] {st : LRUState K V} {pre post : AbsList K V}
    {i : Nat} {k : K} {v : V} (h : Rep st (pre ++ (i, k, v) :: post)) :
    mapGet? st.cache k = some i := by
  rw [mapGet?_eq_of_perm h.hcache (rep_cache_keys_nodup h) k]
  apply mapGet?_eq_some_of_mem
  · simpa [Function.comp] using h.hkeys
  · exact List.mem_map.mpr ⟨(i, k, v), by simp, rfl⟩

theorem rep_init (cap : Int) : Rep (initState cap : LRUState K V) [] := by
  refine ⟨⟨trivial, rfl, rfl, by simp⟩, by simp, by simp, by simp [initState]⟩

theorem rep_clear {st : LRUState K V} : Rep (clear st) [] := by
  refine ⟨⟨trivial, rfl, rfl, by simp⟩, by simp, by simp, by simp [clear]⟩

theorem rep_get_miss [DecidableEq K] {st : LRUState K V} {ord : AbsList K V}
    (h : Rep st ord) {k : K} (hm : mapGet? st.cache k = none) :
    Rep (get st k).1 ord ∧ (get st k).2 = none ∧
      (get st k).1.capacity = st.capacity := by
  simp only [get, hm]
  exact ⟨⟨⟨h.core.hlinks, h.core.hhead, h.core.htail, h.core.hids⟩,
    h.hlt, h.hkeys, h.hcache⟩, trivial, trivial⟩

theorem rep_get_hit [DecidableEq K] {st : LRUState K V} {pre post : AbsList K V}
    {i : Nat} {k : K} {v : V} (h : Rep st (pre ++ (i, k, v) :: post)) :
    Rep (get st k).1 ((i, k, v) :: (pre ++ post)) ∧ (get st k).2 = some v ∧
      (get st k).1.capacity = st.capacity := by
  have hm := rep_lookup_of_mem h
  have hnode : st.nodes i = some ⟨k, v, lastId pre none, firstId post none⟩ :=
    links_node_mid h.core.hlinks
  simp only [get, hm]
  have h1 : RepList { st with hits := st.hits + 1 } (pre ++ (i, k, v) :: post) :=
    ⟨h.core.hlinks, h.core.hhead, h.core.htail, h.core.hids⟩
  obtain ⟨hrl, hc, hnid, hcap, _⟩ := repList_moveToHead h1
  refine ⟨?_, ?_, ?_⟩
  · have hperm : (pre ++ (i, k, v) :: post).Perm ((i, k, v) :: (pre ++ post)) :=
      List.perm_middle
    refine ⟨hrl, ?_, ?_, ?_⟩
    · intro e he
      rw [hnid]
      exact h.hlt e (hperm.mem_iff.mpr he)
    · exact (hperm.map (·.2.1)).nodup_iff.mp h.hkeys
    · rw [hc]
      exact h.hcache.trans (hperm.map (fun e => (e.2.1, e.1)))
  · rw [hnode]
    rfl
  · exact hcap

/-- `Links` with only the value of the middle entry changed. -/
theorem links_update_value {nodes : Nat → Option (LRUNodeData K V)}
    {pre post : AbsList K V} {i : Nat} {k : K} {vold : V} (v : V)
    (h : Links nodes none (pre ++ (i, k, vold) :: post) none)
    (hpre : ∀ e ∈ pre, e.1 ≠ i) (hpost : ∀ e ∈ post, e.1 ≠ i) :
    Links (Function.update nodes i ((nodes i).map
        (fun n => { n with value := v }))) none (pre ++ (i, k, v) :: post) none := by
  have h12 := (links_append pre ((i, k, vold) :: post)).mp h
  have hl1 : Links nodes none pre (some i) := by simpa [firstId] using h12.1
  have h2 := h12.2
  rw [links_cons] at h2
  obtain ⟨hnode, hl2⟩ := h2
  rw [links_append]
  constructor
  · simpa [firstId] using links_irrel hl1 _ hpre
  · rw [links_cons]
    constructor
    · show Function.update _ _ _ i = _
      rw [Function.update_same, hnode]
      rfl
    · exact links_irrel hl2 _ hpost

theorem rep_put_update [DecidableEq K] {st : LRUState K V} {pre post : AbsList K V}
    {i : Nat} {k : K} {vold : V} (v : V)
    (h : Rep st (pre ++ (i, k, vold) :: post)) :
    Rep (put st k v) ((i, k, v) :: (pre ++ post)) ∧
      (put st k v).capacity = st.capacity := by
  have hm := rep_lookup_of_mem h
  simp only [put, hm]
  have hsep : ∀ e ∈ pre ++ post, e.1 ≠ i := by
    intro e he hc2
    have h2 := h.core.hids
    have h3 : ((pre.map (·.1)) ++ i :: (post.map (·.1))).Nodup := by simpa using h2
    have h4 := List.nodup_middle.mp h3
    rw [List.nodup_cons] at h4
    apply h4.1
    rw [← List.map_append]
    exact List.mem_map.mpr ⟨e, he, hc2⟩
  have hpre : ∀ e ∈ pre, e.1 ≠ i := fun e he => hsep e (List.mem_append_left _ he)
  have hpost : ∀ e ∈ post, e.1 ≠ i := fun e he => hsep e (List.mem_append_right _ he)
  have hrl1 : RepList (updNode st i (fun n => { n with value := v }))
      (pre ++ (i, k, v) :: post) := by
    refine ⟨?_, ?_, ?_, ?_⟩
    · show Links (Function.update _ _ _) _ _ _
      exact links_update_value v h.core.hlinks hpre hpost
    · show st.head = _
      rw [h.core.hhead, firstId_append, firstId_append]
      simp [firstId]
    · show st.tail = _
      rw [h.core.htail, lastId_append, lastId_append, lastId_cons, lastId_cons]
    · have := h.core.hids
      simpa using this
  obtain ⟨hrl, hc, hnid, hcap, _⟩ := repList_moveToHead hrl1
  have hcache1 : (updNode st i (fun n => { n with value := v })).cache = st.cache := rfl
  have hnid1 : (updNode st i (fun n => { n with value := v })).nextId = st.nextId := rfl
  have hpermold : (pre ++ (i, k, vold) :: post).Perm ((i, k, vold) :: (pre ++ post)) :=
    List.perm_middle
  refine ⟨⟨hrl, ?_, ?_, ?_⟩, hcap.trans rfl⟩
  · intro e he
    rw [hnid, hnid1]
    rcases List.mem_cons.mp he with rfl | h5
    · exact h.hlt (i, k, vold) (by simp)
    · rcases List.mem_append.mp h5 with h6 | h6
      · exact h.hlt e (List.mem_append_left _ h6)
      · exact h.hlt e (List.mem_append_right _ (List.mem_cons_of_mem _ h6))
  · have hmapeq : ((i, k, v) :: (pre ++ post)).map (·.2.1) =
        ((i, k, vold) :: (pre ++ post)).map (·.2.1) := by simp
    rw [hmapeq]
    exact (hpermold.map (·.2.1)).nodup_iff.mp h.hkeys
  · rw [hc, hcache1]
    refine h.hcache.trans ?_
    have e1 : (pre ++ (i, k, vold) :: post).map (fun e => (e.2.1, e.1)) =
        pre.map (fun e => (e.2.1, e.1)) ++ (k, i) :: post.map (fun e => (e.2.1, e.1)) := by
      simp
    have e2 : (((i, k, v) :: (pre ++ post)).map (fun e => (e.2.1, e.1))) =
        (k, i) :: (pre.map (fun e => (e.2.1, e.1)) ++ post.map (fun e => (e.2.1, e.1))) := by
      simp
    rw [e1, e2]
    exact List.perm_middle

/-- Filtering the key of the middle entry out of the cache image of the
abstract list removes exactly that entry (keys are distinct). -/
theorem filter_map_key_ne [DecidableEq K] {pre post : AbsList K V} {i : Nat}
    {k : K} {v : V}
    (hkeys : ((pre ++ (i, k, v) :: post).map (·.2.1)).Nodup) :
    ((pre ++ (i, k, v) :: post).map (fun e => (e.2.1, e.1))).filter
        (fun e => !decide (e.1 = k)) =
      (pre ++ post).map (fun e => (e.2.1, e.1)) := by
  have hkeys2 : (pre.map (·.2.1) ++ k :: post.map (·.2.1)).Nodup := by
    simpa using hkeys
  have hmid := List.nodup_middle.mp hkeys2
  rw [List.nodup_cons] at hmid
  have hpre : ∀ e ∈ pre, ¬ e.2.1 = k := by
    intro e he hc
    exact hmid.1 (List.mem_append_left _ (List.mem_map.mpr ⟨e, he, hc⟩))
  have hpost : ∀ e ∈ post, ¬ e.2.1 = k := by
    intro e he hc
    exact hmid.1 (List.mem_append_right _ (List.mem_map.mpr ⟨e, he, hc⟩))
  have e1 : (pre.map (fun e => (e.2.1, e.1))).filter (fun e => !decide (e.1 = k)) =
      pre.map (fun e => (e.2.1, e.1)) := by
    rw [List.filter_eq_self]
    intro a ha
    obtain ⟨f2, hf2, rfl⟩ := List.mem_map.mp ha
    simpa using hpre f2 hf2
  have e2 : (post.map (fun e => (e.2.1, e.1))).filter (fun e => !decide (e.1 = k)) =
      post.map (fun e => (e.2.1, e.1)) := by
    rw [List.filter_eq_self]
    intro a ha
    obtain ⟨f2, hf2, rfl⟩ := List.mem_map.mp ha
    simpa using hpost f2 hf2
  simp only [List.map_append, List.map_cons, List.filter_append, List.filter_cons]
  rw [e1, e2]
  simp

/-- `removeTail` pops the last entry of a nonempty abstract list. -/
theorem rep_removeTail [DecidableEq K] {st : LRUState K V} {init : AbsList K V}
    {e : Nat × K × V} (h : Rep st (init ++ [e])) :
    Rep (removeTail st) init ∧
      (removeTail st).nextId = st.nextId ∧
      (removeTail st).capacity = st.capacity := by
  obtain ⟨j, k, v⟩ := e
  have ht : st.tail = some j := by
    rw [h.core.htail, lastId_concat]
  have hnode : st.nodes j = some ⟨k, v, lastId init none, none⟩ :=
    links_node_mid h.core.hlinks
  have hstep : removeTail st =
      { removeNode st j with cache := mapDel (removeNode st j).cache k } := by
    simp only [removeTail, ht, hnode, Option.map_some']
  obtain ⟨hrl, hnj, hc, hnid, hcap, hhit, hmis⟩ := repList_removeNode h.core
  rw [List.append_nil] at hrl
  rw [hstep]
  refine ⟨⟨⟨hrl.hlinks, hrl.hhead, hrl.htail, hrl.hids⟩, ?_, ?_, ?_⟩, hnid, hcap⟩
  · intro e2 he2
    have h6 : e2.1 < st.nextId := h.hlt e2 (List.mem_append_left _ he2)
    exact lt_of_lt_of_eq h6 hnid.symm
  · have h7 := h.hkeys
    rw [List.map_append] at h7
    exact (List.nodup_append.mp h7).1
  · show (mapDel (removeNode st j).cache k).Perm
      (init.map (fun e => (e.2.1, e.1)))
    rw [hc, mapDel_eq_filter (rep_cache_keys_nodup h) k]
    have hp := h.hcache.filter (fun e => !decide (e.1 = k))
    refine hp.trans ?_
    rw [filter_map_key_ne h.hkeys]
    simp

/-- Shared core for `put` on a new key: the state just after `addToHead`,
before the capacity check. -/
theorem rep_put_new_aux [DecidableEq K] {st : LRUState K V} {ord : AbsList K V}
    {k : K} (v : V) (h : Rep st ord) (hm : mapGet? st.cache k = none) :
    Rep (addToHead { st with
        nodes := Function.update st.nodes st.nextId (some ⟨k, v, none, none⟩),
        nextId := st.nextId + 1,
        cache := mapSet st.cache k st.nextId } st.nextId)
      ((st.nextId, k, v) :: ord) ∧
    (addToHead { st with
        nodes := Function.update st.nodes st.nextId (some ⟨k, v, none, none⟩),
        nextId := st.nextId + 1,
        cache := mapSet st.cache k st.nextId } st.nextId).cache =
      st.cache ++ [(k, st.nextId)] ∧
    (addToHead { st with
        nodes := Function.update st.nodes st.nextId (some ⟨k, v, none, none⟩),
        nextId := st.nextId + 1,
        cache := mapSet st.cache k st.nextId } st.nextId).capacity = st.capacity := by
  set st2 : LRUState K V := { st with
      nodes := Function.update st.nodes st.nextId (some ⟨k, v, none, none⟩),
      nextId := st.nextId + 1,
      cache := mapSet st.cache k st.nextId } with hst2
  have hfresh : ∀ e ∈ ord, e.1 ≠ st.nextId := fun e he => Nat.ne_of_lt (h.hlt e he)
  have hknotin : k ∉ st.cache.map (·.1) := (mapGet?_eq_none_iff _ _).mp hm
  have hcacheq : st2.cache = st.cache ++ [(k, st.nextId)] :=
    mapSet_of_not_mem _ hknotin
  have hrl2 : RepList st2 ord := by
    refine ⟨?_, h.core.hhead, h.core.htail, h.core.hids⟩
    exact links_irrel h.core.hlinks _ hfresh
  have hnode2 : st2.nodes st.nextId = some ⟨k, v, none, none⟩ := by
    show Function.update st.nodes st.nextId (some ⟨k, v, none, none⟩) st.nextId = _
    rw [Function.update_same]
  obtain ⟨hrl3, hc3, hnid3, hcap3, hhit3, hmis3⟩ :=
    repList_addToHead hrl2 hfresh hnode2
  refine ⟨⟨hrl3, ?_, ?_, ?_⟩, hc3.trans hcacheq, hcap3.trans rfl⟩
  · intro e he
    rw [hnid3]
    show e.1 < st.nextId + 1
    rcases List.mem_cons.mp he with rfl | h5
    · exact Nat.lt_succ_self _
    · exact Nat.lt_succ_of_lt (h.hlt e h5)
  · rw [List.map_cons]
    refine List.nodup_cons.mpr ⟨?_, h.hkeys⟩
    intro hkmem
    apply hknotin
    apply (h.hcache.map (·.1)).mem_iff.mpr
    simpa [Function.comp] using hkmem
  · rw [hc3, hcacheq]
    refine (h.hcache.append_right [(k, st.nextId)]).trans ?_
    simp

/-- `put` of a new key with room to spare prepends the entry. -/
theorem rep_put_new_fit [DecidableEq K] {st : LRUState K V} {ord : AbsList K V}
    {k : K} (v : V) (h : Rep st ord) (hm : mapGet? st.cache k = none)
    (hle : (ord.length : Int) + 1 ≤ st.capacity) :
    Rep (put st k v) ((st.nextId, k, v) :: ord) ∧
      (put st k v).capacity = st.capacity := by
  obtain ⟨hrep3, hc3, hcap3⟩ := rep_put_new_aux v h hm
  have hlen : st.cache.length = ord.length := by
    simpa using h.hcache.length_eq
  simp only [put, hm]
  split
  next hcond =>
    exfalso
    rw [hc3, hcap3, List.length_append, hlen, List.length_singleton] at hcond
    push_cast at hcond
    omega
  next hcond =>
    exact ⟨hrep3, hcap3⟩

/-- `put` of a new key at (or beyond) capacity prepends the entry and
evicts the least recently used one. -/
theorem rep_put_new_evict [DecidableEq K] {st : LRUState K V} {init : AbsList K V}
    {e : Nat × K × V} {k : K} (v : V) (h : Rep st (init ++ [e]))
    (hm : mapGet? st.cache k = none)
    (hgt : ((init ++ [e]).length : Int) + 1 > st.capacity) :
    Rep (put st k v) ((st.nextId, k, v) :: init) ∧
      (put st k v).capacity = st.capacity := by
  obtain ⟨hrep3, hc3, hcap3⟩ := rep_put_new_aux v h hm
  rw [← List.cons_append] at hrep3
  simp only [put, hm]
  split
  next hcond =>
    exact ⟨(rep_removeTail hrep3).1, (rep_removeTail hrep3).2.2.trans hcap3⟩
  next hcond =>
    exfalso
    have hlen : st.cache.length = (init ++ [e]).length := by
      simpa using h.hcache.length_eq
    rw [hc3, hcap3, List.length_append, hlen, List.length_singleton] at hcond
    push_cast at hcond
    omega

/-- `delete` on a present key removes exactly its entry and returns true. -/
theorem rep_del_hit [DecidableEq K] {st : LRUState K V} {pre post : AbsList K V}
    {i : Nat} {k : K} {v : V} (h : Rep st (pre ++ (i, k, v) :: post)) :
    Rep (del st k).1 (pre ++ post) ∧ (del st k).2 = true := by
  have hm := rep_lookup_of_mem h
  simp only [del, hm]
  obtain ⟨hrl, hni, hc, hnid, hcap, hhit, hmis⟩ := repList_removeNode h.core
  refine ⟨⟨⟨hrl.hlinks, hrl.hhead, hrl.htail, hrl.hids⟩, ?_, ?_, ?_⟩, trivial⟩
  · intro e2 he2
    have h6 : e2.1 < st.nextId := by
      rcases List.mem_append.mp he2 with h7 | h7
      · exact h.hlt e2 (List.mem_append_left _ h7)
      · exact h.hlt e2 (List.mem_append_right _ (List.mem_cons_of_mem _ h7))
    exact lt_of_lt_of_eq h6 hnid.symm
  · have h8 : (pre.map (·.2.1) ++ k :: post.map (·.2.1)).Nodup := by
      simpa using h.hkeys
    have h9 := List.nodup_middle.mp h8
    rw [List.nodup_cons] at h9
    rw [List.map_append]
    exact h9.2
  · show (mapDel (removeNode st i).cache k).Perm
      ((pre ++ post).map (fun e => (e.2.1, e.1)))
    rw [hc, mapDel_eq_filter (rep_cache_keys_nodup h) k]
    have hp := h.hcache.filter (fun e => !decide (e.1 = k))
    refine hp.trans ?_
    rw [filter_map_key_ne h.hkeys]

/-- `delete` on an absent key is a no-op returning false. -/
theorem rep_del_miss [DecidableEq K] {st : LRUState K V} {k : K}
    (hm : mapGet? st.cache k = none) :
    (del st k).1 = st ∧ (del st k).2 = false := by
  simp [del, hm]

/-- `put` of a new key into an empty cache whose capacity is below 1
inserts and immediately evicts the fresh entry again. -/
theorem rep_put_new_evict_nil [DecidableEq K] {st : LRUState K V}
    {k : K} (v : V) (h : Rep st []) (hm : mapGet? st.cache k = none)
    (hgt : (1 : Int) > st.capacity) :
    Rep (put st k v) [] := by
  obtain ⟨hrep3, hc3, hcap3⟩ := rep_put_new_aux v h hm
  have hrep3b : Rep (addToHead { st with
      nodes := Function.update st.nodes st.nextId (some ⟨k, v, none, none⟩),
      nextId := st.nextId + 1,
      cache := mapSet st.cache k st.nextId } st.nextId)
      ([] ++ [(st.nextId, k, v)]) := hrep3
  simp only [put, hm]
  split
  next hcond => exact (rep_removeTail hrep3b).1
  next hcond =>
    exfalso
    have hlen : st.cache.length = 0 := by simpa using h.hcache.length_eq
    rw [hc3, hcap3, List.length_append, hlen, List.length_singleton] at hcond
    push_cast at hcond
    omega

/-- Every reachable state satisfies the representation invariant for some
abstract list. -/
theorem reachable_rep [DecidableEq K] {st : LRUState K V}
    (h : Reachable st) : ∃ ord, Rep st ord := by
  induction h with
  | init cap hcap => exact ⟨[], rep_init cap⟩
  | step_get st k hr ih =>
    obtain ⟨ord, hrep⟩ := ih
    cases hm : mapGet? st.cache k with
    | none => exact ⟨ord, (rep_get_miss hrep hm).1⟩
    | some i =>
      obtain ⟨pre, v, post, rfl⟩ := rep_lookup hrep hm
      exact ⟨_, (rep_get_hit hrep).1⟩
  | step_put st k v hr ih =>
    obtain ⟨ord, hrep⟩ := ih
    cases hm : mapGet? st.cache k with
    | some i =>
      obtain ⟨pre, vold, post, rfl⟩ := rep_lookup hrep hm
      exact ⟨_, (rep_put_update v hrep).1⟩
    | none =>
      by_cases hcond : (ord.length : Int) + 1 ≤ st.capacity
      · exact ⟨_, (rep_put_new_fit v hrep hm hcond).1⟩
      · rcases List.eq_nil_or_concat ord with rfl | ⟨init, e, heq⟩
        · refine ⟨[], rep_put_new_evict_nil v hrep hm ?_⟩
          simp only [List.length_nil] at hcond
          push_cast at hcond
          omega
        · rw [List.concat_eq_append] at heq
          subst heq
          refine ⟨_, (rep_put_new_evict v hrep hm ?_).1⟩
          omega
  | step_del st k hr ih =>
    obtain ⟨ord, hrep⟩ := ih
    cases hm : mapGet? st.cache k with
    | none =>
      rw [(rep_del_miss hm).1]
      exact ⟨ord, hrep⟩
    | some i =>
      obtain ⟨pre, v, post, rfl⟩ := rep_lookup hrep hm
      exact ⟨_, (rep_del_hit hrep).1⟩
  | step_clear st hr ih => exact ⟨[], rep_clear⟩

/-- The `keys()` walk from the head produces exactly the abstract keys when
the heap links a segment and the fuel covers its length. -/
theorem keysAux_links {nodes : Nat → Option (LRUNodeData K V)} :
    ∀ (xs : AbsList K V) (p : Option Nat) (fuel : Nat),
    Links nodes p xs none → xs.length ≤ fuel →
    keysAux nodes fuel (firstId xs none) = xs.map (·.2.1)
  | [], _, fuel, _, _ => by cases fuel <;> simp [keysAux, firstId]
  | e :: rest, p, fuel, hl, hfuel => by
    obtain ⟨hn, hrest⟩ := (links_cons).mp hl
    cases fuel with
    | zero => simp at hfuel
    | succ f =>
      show keysAux nodes (f + 1) (some e.1) = _
      rw [keysAux, hn]
      have ih := keysAux_links rest (some e.1) f hrest
        (by simpa using Nat.lt_succ_iff.mp (Nat.lt_of_lt_of_le (Nat.lt_succ_self _)
          (by simpa using hfuel)))
      simp only [List.map_cons]
      rw [← ih]

/-- A duplicate-free list of naturals all below `n` has at most `n`
elements. -/
theorem nodup_lt_length_le {l : List Nat} {n : Nat} (hnd : l.Nodup)
    (hlt : ∀ x ∈ l, x < n) : l.length ≤ n := by
  have h1 : l.toFinset ⊆ Finset.range n := by
    intro x hx
    rw [Finset.mem_range]
    exact hlt x (List.mem_toFinset.mp hx)
  have h2 := Finset.card_le_card h1
  rw [Finset.card_range] at h2
  rw [← List.toFinset_card_of_nodup hnd]
  exact h2

/-- In a represented state, `keys()` lists the abstract keys in order. -/
theorem rep_keys [DecidableEq K] {st : LRUState K V} {ord : AbsList K V}
    (h : Rep st ord) : keys st = ord.map (·.2.1) := by
  rw [keys, h.core.hhead]
  apply keysAux_links ord none st.nextId h.core.hlinks
  have h1 : (ord.map (·.1)).length ≤ st.nextId := by
    apply nodup_lt_length_le h.core.hids
    intro x hx
    obtain ⟨e, he, rfl⟩ := List.mem_map.mp hx
    exact h.hlt e he
  simpa using h1

/-- C8: in every state reachable from a successfully constructed cache by
`get`/`put`/`delete`/`clear`, `size()` (the backing map's size) equals the
number of entries of the key map and equals the length of the doubly
linked list walked from `head` by `keys()`. -/
theorem lru_size_invariant_c8 [DecidableEq K] {st : LRUState K V}
    (h : Reachable st) :
    size st = st.cache.length ∧ size st = (keys st).length := by
  obtain ⟨ord, hrep⟩ := reachable_rep h
  refine ⟨rfl, ?_⟩
  rw [rep_keys hrep, size, hrep.hcache.length_eq]
  simp

/-- C8 witness: the invariant instantiated after `put 1; put 2; put 3`
(which evicts) and a `get` on a capacity-2 cache. -/
theorem lru_c8_witness :
    Reachable ((get (put (put (put (initState 2 : LRUState Nat Nat)
        1 10) 2 20) 3 30) 2).1) ∧
    size ((get (put (put (put (initState 2 : LRUState Nat Nat)
        1 10) 2 20) 3 30) 2).1) =
      (keys ((get (put (put (put (initState 2 : LRUState Nat Nat)
        1 10) 2 20) 3 30) 2).1)).length ∧
    size ((get (put (put (put (initState 2 : LRUState Nat Nat)
        1 10) 2 20) 3 30) 2).1) = 2 := by
  have hr : Reachable ((get (put (put (put (initState 2 : LRUState Nat Nat)
      1 10) 2 20) 3 30) 2).1) :=
    .step_get _ _ (.step_put _ _ _ (.step_put _ _ _ (.step_put _ _ _
      (.init 2 (by decide)))))
  exact ⟨hr, (lru_size_invariant_c8 hr).2, by decide⟩

/-- A list followed by one extra element is duplicate-free only if the
extra element is fresh. -/
theorem nodup_concat_not_mem {α : Type} {l : List α} {a : α}
    (h : (l ++ [a]).Nodup) : a ∉ l := by
  rw [List.nodup_append] at h
  intro hc
  exact h.2.2 hc (by simp)

/-- Folding `put`s of fresh, pairwise-distinct keys into a cache with
enough room prepends them (most recent first) without evicting. -/
theorem rep_foldPuts_fresh [DecidableEq K] :
    ∀ (ps : List (K × V)) (st : LRUState K V) (ord : AbsList K V),
    Rep st ord →
    ((ord.length : Int) + ps.length ≤ st.capacity) →
    (ord.map (·.2.1) ++ ps.map (·.1)).Nodup →
    ∃ ord2, Rep (foldPuts st ps) ord2 ∧
      ord2.map (·.2.1) = (ps.map (·.1)).reverse ++ ord.map (·.2.1) ∧
      (foldPuts st ps).capacity = st.capacity
  | [], st, ord, h, _, _ => ⟨ord, h, by simp, rfl⟩
  | (k, v) :: rest, st, ord, h, hle, hnd => by
    have hknotin : k ∉ ord.map (·.2.1) := by
      intro hc
      exact (List.nodup_append.mp hnd).2.2 hc (by simp)
    have hm : mapGet? st.cache k = none := by
      rw [mapGet?_eq_none_iff]
      intro hc
      apply hknotin
      have h2 := (h.hcache.map (·.1)).mem_iff.mp hc
      simpa [Function.comp] using h2
    rw [List.length_cons] at hle
    push_cast at hle
    have hle1 : (ord.length : Int) + 1 ≤ st.capacity := by omega
    obtain ⟨hrep1, hcap1⟩ := rep_put_new_fit v h hm hle1
    have hstep : foldPuts st ((k, v) :: rest) = foldPuts (put st k v) rest := rfl
    rw [hstep]
    have hnd2 : (((st.nextId, k, v) :: ord).map (·.2.1) ++ rest.map (·.1)).Nodup := by
      simp only [List.map_cons]
      rw [List.cons_append]
      have hperm : (ord.map (·.2.1) ++ k :: rest.map (·.1)).Perm
          (k :: (ord.map (·.2.1) ++ rest.map (·.1))) := List.perm_middle
      exact hperm.nodup_iff.mp (by simpa using hnd)
    have hle2 : ((((st.nextId, k, v) :: ord).length : Int)) + rest.length ≤
        (put st k v).capacity := by
      rw [hcap1, List.length_cons]
      push_cast
      omega
    obtain ⟨ord2, hrep2, hkeys2, hcap2⟩ := rep_foldPuts_fresh rest (put st k v)
      ((st.nextId, k, v) :: ord) hrep1 hle2 hnd2
    refine ⟨ord2, hrep2, ?_, hcap2.trans hcap1⟩
    rw [hkeys2]
    simp [List.append_assoc]

/-- A key outside the abstract keys misses the cache map. -/
theorem rep_mapGet?_none [DecidableEq K] {st : LRUState K V}
    {ord : AbsList K V} (h : Rep st ord) {k : K}
    (hk : k ∉ ord.map (·.2.1)) : mapGet? st.cache k = none := by
  rw [mapGet?_eq_none_iff]
  intro hc
  apply hk
  have h2 := (h.hcache.map (·.1)).mem_iff.mp hc
  simpa [Function.comp] using h2

theorem foldPuts_concat [DecidableEq K] (st : LRUState K V)
    (l : List (K × V)) (p : K × V) :
    foldPuts st (l ++ [p]) = put (foldPuts st l) p.1 p.2 := by
  simp only [foldPuts, List.foldl_append]
  rfl

/-- C6 (amended): on a cache of capacity `N ≥ 1`, putting `N + 1` pairwise
distinct keys evicts exactly the first (least recently touched) key and
keeps every other one; and — provided `N ≥ 2` — a `get` on the least
recently used key before the last insert changes the evicted key from the
first to the second inserted one.  (With `N = 1` the same single key is
evicted either way, so the spec's unqualified second half fails.) -/
theorem lru_eviction_c6 {K V : Type} [DecidableEq K] (N : Nat) (hN : 1 ≤ N)
    (ps : List (K × V)) (hlen : ps.length = N + 1)
    (hnd : (ps.map (·.1)).Nodup) :
    (∀ p0, ps.head? = some p0 →
      has (foldPuts (initState N : LRUState K V) ps) p0.1 = false ∧
      ∀ p ∈ ps.tail, has (foldPuts (initState N : LRUState K V) ps) p.1 = true) ∧
    (2 ≤ N → ∀ p0 p1 plast0, ps.head? = some p0 → ps.tail.head? = some p1 →
      ps.getLast? = some plast0 →
      has (put ((get (foldPuts (initState N : LRUState K V) ps.dropLast)
        p0.1).1) plast0.1 plast0.2) p0.1 = true ∧
      has (put ((get (foldPuts (initState N : LRUState K V) ps.dropLast)
        p0.1).1) plast0.1 plast0.2) p1.1 = false) := by
  obtain ⟨q, ps2, rfl⟩ : ∃ q ps2, ps = q :: ps2 := by
    cases ps with
    | nil => simp at hlen
    | cons a b => exact ⟨a, b, rfl⟩
  obtain ⟨r, ps3, rfl⟩ : ∃ r ps3, ps2 = r :: ps3 := by
    cases ps2 with
    | nil =>
      exfalso
      simp at hlen
      omega
    | cons a b => exact ⟨a, b, rfl⟩
  have hps_ne : (q :: r :: ps3) ≠ ([] : List (K × V)) := by simp
  obtain ⟨plast, hsplit⟩ : ∃ y, (q :: r :: ps3).dropLast ++ [y] = q :: r :: ps3 :=
    ⟨_, List.dropLast_append_getLast hps_ne⟩
  have hplast? : (q :: r :: ps3).getLast? = some plast := by
    conv_lhs => rw [← hsplit]
    exact List.getLast?_concat _
  have hdl : (q :: r :: ps3).dropLast = q :: (r :: ps3).dropLast := by
    rw [List.dropLast_cons₂]
  have hdl_len : (q :: r :: ps3).dropLast.length = N := by
    rw [List.length_dropLast, hlen]
    omega
  have hdlnd : ((q :: r :: ps3).dropLast.map (·.1)).Nodup := by
    have hsub : ((q :: r :: ps3).dropLast.map (·.1)).Sublist
        ((q :: r :: ps3).map (·.1)) :=
      (List.dropLast_sublist _).map _
    exact List.Nodup.sublist hsub hnd
  have hkeysplit : (q :: r :: ps3).dropLast.map (·.1) ++ [plast.1] =
      (q :: r :: ps3).map (·.1) := by
    conv_rhs => rw [← hsplit]
    simp
  have hplast_notin : plast.1 ∉ (q :: r :: ps3).dropLast.map (·.1) :=
    nodup_concat_not_mem (by rw [hkeysplit]; exact hnd)
  obtain ⟨ordA, hrepA, hkeysA, hcapA⟩ := rep_foldPuts_fresh
    (q :: r :: ps3).dropLast (initState (N : Int)) [] (rep_init _)
    (by rw [hdl_len]; simp [initState]) (by simpa using hdlnd)
  simp only [List.map_nil, List.append_nil] at hkeysA
  have hcapA' : (foldPuts (initState (N : Int) : LRUState K V)
      (q :: r :: ps3).dropLast).capacity = (N : Int) := hcapA.trans rfl
  have hordA_len : ordA.length = N := by
    have h2 := congrArg List.length hkeysA
    simp at h2
    simp at hlen
    omega
  have hmA : mapGet? (foldPuts (initState (N : Int) : LRUState K V)
      (q :: r :: ps3).dropLast).cache plast.1 = none := by
    apply rep_mapGet?_none hrepA
    rw [hkeysA, List.mem_reverse]
    exact hplast_notin
  rcases List.eq_nil_or_concat ordA with rfl | ⟨initA, eA, heqA⟩
  · exfalso
    rw [List.length_nil] at hordA_len
    omega
  rw [List.concat_eq_append] at heqA
  subst heqA
  obtain ⟨iA, kA, vA⟩ := eA
  have hmk : initA.map (·.2.1) ++ [kA] =
      ((r :: ps3).dropLast.map (·.1)).reverse ++ [q.1] := by
    have h4 := hkeysA
    rw [hdl] at h4
    simpa [List.reverse_cons] using h4
  have hkA : kA = q.1 := by
    have h5 := congrArg List.getLast? hmk
    rw [List.getLast?_concat, List.getLast?_concat] at h5
    exact Option.some.inj h5
  subst hkA
  have hinitAkeys : initA.map (·.2.1) =
      ((r :: ps3).dropLast.map (·.1)).reverse := by
    have h5 := congrArg List.dropLast hmk
    rw [List.dropLast_concat, List.dropLast_concat] at h5
    exact h5
  have hgtA : (((initA ++ [(iA, q.1, vA)]).length : Int)) + 1 >
      (foldPuts (initState (N : Int) : LRUState K V)
        (q :: r :: ps3).dropLast).capacity := by
    rw [hcapA', hordA_len]
    omega
  obtain ⟨hrepF, hcapF⟩ := rep_put_new_evict plast.2 hrepA hmA hgtA
  have hFeq : foldPuts (initState (N : Int) : LRUState K V) (q :: r :: ps3) =
      put (foldPuts (initState (N : Int) : LRUState K V)
        (q :: r :: ps3).dropLast) plast.1 plast.2 := by
    conv_lhs => rw [← hsplit]
    exact foldPuts_concat _ _ _
  constructor
  · -- part 1: the last put evicts exactly the first key
    intro p0 hp0
    have hp0' : q = p0 := by simpa using hp0
    subst hp0'
    rw [hFeq]
    constructor
    · rw [Bool.eq_false_iff]
      intro hc
      have h10 := (rep_has hrepF q.1).mp hc
      simp only [List.map_cons] at h10
      rcases List.mem_cons.mp h10 with h11 | h11
      · apply hplast_notin
        rw [← h11, hdl]
        simp
      · rw [hinitAkeys] at h11
        have h12 : q.1 ∈ (r :: ps3).dropLast.map (·.1) := by
          simpa using h11
        have h13 := hdlnd
        rw [hdl] at h13
        simp only [List.map_cons] at h13
        exact (List.nodup_cons.mp h13).1 h12
    · intro p hp
      have h11 := hsplit
      rw [hdl, List.cons_append] at h11
      injection h11 with h11a h11b
      simp only [List.tail_cons] at hp
      rw [← h11b] at hp
      apply (rep_has hrepF p.1).mpr
      simp only [List.map_cons]
      rcases List.mem_append.mp hp with h12 | h12
      · apply List.mem_cons_of_mem
        rw [hinitAkeys]
        simp only [List.mem_reverse]
        exact List.mem_map.mpr ⟨p, h12, rfl⟩
      · have h13 : p = plast := by simpa using h12
        subst h13
        exact List.mem_cons_self _ _
  · -- part 2: a get on the LRU key shifts the eviction to the second key
    intro hN2 p0 p1 plast0 hp0 hp1 hplast0
    have hp0' : q = p0 := by simpa using hp0
    subst hp0'
    have hp1' : r = p1 := by simpa using hp1
    subst hp1'
    have hplast' : plast = plast0 := by
      rw [hplast?] at hplast0
      exact Option.some.inj hplast0
    subst hplast'
    obtain ⟨s, ps4, rfl⟩ : ∃ s ps4, ps3 = s :: ps4 := by
      cases ps3 with
      | nil =>
        exfalso
        simp at hlen
        omega
      | cons a b => exact ⟨a, b, rfl⟩
    have hdl2 : (r :: s :: ps4).dropLast = r :: (s :: ps4).dropLast := by
      rw [List.dropLast_cons₂]
    obtain ⟨hrepB, hgetB, hcapB⟩ := rep_get_hit hrepA
    rw [List.append_nil] at hrepB
    have hinitA_len : initA.length + 1 = N := by
      have h20 := hordA_len
      rw [List.length_append, List.length_singleton] at h20
      exact h20
    rcases List.eq_nil_or_concat initA with rfl | ⟨initA2, eI, heqI⟩
    · exfalso
      simp at hinitA_len
      omega
    rw [List.concat_eq_append] at heqI
    subst heqI
    obtain ⟨iI, kI, vI⟩ := eI
    have hmk2 : initA2.map (·.2.1) ++ [kI] =
        ((s :: ps4).dropLast.map (·.1)).reverse ++ [r.1] := by
      have h4 := hinitAkeys
      rw [hdl2] at h4
      simpa [List.reverse_cons] using h4
    have hkI : kI = r.1 := by
      have h5 := congrArg List.getLast? hmk2
      rw [List.getLast?_concat, List.getLast?_concat] at h5
      exact Option.some.inj h5
    subst hkI
    have hinitA2keys : initA2.map (·.2.1) =
        ((s :: ps4).dropLast.map (·.1)).reverse := by
      have h5 := congrArg List.dropLast hmk2
      rw [List.dropLast_concat, List.dropLast_concat] at h5
      exact h5
    have hmB : mapGet? ((get (foldPuts (initState (N : Int) : LRUState K V)
        (q :: r :: s :: ps4).dropLast) q.1).1).cache plast.1 = none := by
      apply rep_mapGet?_none hrepB
      intro hc
      simp only [List.map_cons, List.map_append, List.map_nil] at hc
      rcases List.mem_cons.mp hc with h21 | h21
      · apply hplast_notin
        rw [h21, hdl]
        simp
      · apply hplast_notin
        rw [hdl, hdl2]
        simp only [List.map_cons]
        rcases List.mem_append.mp h21 with h23 | h23
        · rw [hinitA2keys] at h23
          have h24 : plast.1 ∈ (s :: ps4).dropLast.map (·.1) := by
            simpa using h23
          exact List.mem_cons_of_mem _ (List.mem_cons_of_mem _ h24)
        · have h24 : plast.1 = r.1 := by simpa using h23
          rw [h24]
          simp
    have hrepB' : Rep ((get (foldPuts (initState (N : Int) : LRUState K V)
        (q :: r :: s :: ps4).dropLast) q.1).1)
        (((iA, q.1, vA) :: initA2) ++ [(iI, r.1, vI)]) := by
      rw [List.cons_append]
      exact hrepB
    have h26 : initA2.length + 1 + 1 = N := by
      rw [List.length_append, List.length_singleton] at hinitA_len
      exact hinitA_len
    have hgtB : ((((iA, q.1, vA) :: initA2) ++ [(iI, r.1, vI)]).length : Int) + 1 >
        ((get (foldPuts (initState (N : Int) : LRUState K V)
          (q :: r :: s :: ps4).dropLast) q.1).1).capacity := by
      rw [hcapB, hcapA']
      have h25 : (((iA, q.1, vA) :: initA2) ++ [(iI, r.1, vI)]).length = N := by
        simp only [List.length_append, List.length_cons, List.length_nil]
        omega
      rw [h25]
      omega
    obtain ⟨hrepG, hcapG⟩ := rep_put_new_evict plast.2 hrepB' hmB hgtB
    constructor
    · apply (rep_has hrepG q.1).mpr
      simp only [List.map_cons]
      exact List.mem_cons_of_mem _ (List.mem_cons_self _ _)
    · rw [Bool.eq_false_iff]
      intro hc
      have h30 := (rep_has hrepG r.1).mp hc
      simp only [List.map_cons] at h30
      rcases List.mem_cons.mp h30 with h31 | h31
      · apply hplast_notin
        rw [← h31, hdl, hdl2]
        simp
      · rcases List.mem_cons.mp h31 with h32 | h32
        · have h33 := hnd
          simp only [List.map_cons, List.nodup_cons] at h33
          exact h33.1 (by rw [← h32]; simp)
        · rw [hinitA2keys] at h32
          have h34 : r.1 ∈ (s :: ps4).dropLast.map (·.1) := by
            simpa using h32
          have h35 := hdlnd
          rw [hdl, hdl2] at h35
          simp only [List.map_cons, List.nodup_cons] at h35
          exact h35.2.1 h34

/-- C6 counterexample: with capacity N = 1 the claim's second half fails —
a `get` on the (single) existing key before the second insert does not
change which key is evicted: key 1 is evicted either way. -/
theorem lru_c6_cex :
    has (put (foldPuts (initState 1 : LRUState Nat Nat) [(1, 10)]) 2 20)
      1 = false ∧
    has (put ((get (foldPuts (initState 1 : LRUState Nat Nat) [(1, 10)])
      1).1) 2 20) 1 = false ∧
    has (put (foldPuts (initState 1 : LRUState Nat Nat) [(1, 10)]) 2 20)
      2 = true ∧
    has (put ((get (foldPuts (initState 1 : LRUState Nat Nat) [(1, 10)])
      1).1) 2 20) 2 = true := by
  decide

/-- C6 witness: capacity 2, pairs (1,10),(2,20),(3,30): the three puts
evict exactly key 1; a get on key 1 before the third put flips the evicted
key to 2. -/
theorem lru_c6_witness :
    (1 ≤ 2 ∧ ([((1 : Nat), (10 : Nat)), (2, 20), (3, 30)]).length = 2 + 1 ∧
      (([((1 : Nat), (10 : Nat)), (2, 20), (3, 30)]).map (·.1)).Nodup) ∧
    (has (foldPuts (initState 2 : LRUState Nat Nat)
        [(1, 10), (2, 20), (3, 30)]) 1 = false ∧
      ∀ p ∈ ([((1 : Nat), (10 : Nat)), (2, 20), (3, 30)]).tail,
        has (foldPuts (initState 2 : LRUState Nat Nat)
          [(1, 10), (2, 20), (3, 30)]) p.1 = true) ∧
    (has (put ((get (foldPuts (initState 2 : LRUState Nat Nat)
        ([((1 : Nat), (10 : Nat)), (2, 20), (3, 30)]).dropLast) 1).1) 3 30)
        1 = true ∧
      has (put ((get (foldPuts (initState 2 : LRUState Nat Nat)
        ([((1 : Nat), (10 : Nat)), (2, 20), (3, 30)]).dropLast) 1).1) 3 30)
        2 = false) := by
  have h := lru_eviction_c6 (K := Nat) (V := Nat) 2 (by decide)
    [(1, 10), (2, 20), (3, 30)] (by decide) (by decide)
  exact ⟨⟨by decide, by decide, by decide⟩, h.1 (1, 10) (by decide),
    h.2 (by decide) (1, 10) (2, 20) (3, 30) (by decide) (by decide) (by decide)⟩

/-- C9: the constructor accepts exactly the strictly positive capacities:
`capacity ≤ 0` throws the invalid-argument error and yields no cache
state, while `capacity > 0` returns the fresh empty state. -/
theorem lru_constructor_c9 {K V : Type} (cap : Int) :
    (cap ≤ 0 → (new cap : Except String (LRUState K V)) =
      Except.error "Capacity must be greater than 0") ∧
    (0 < cap → (new cap : Except String (LRUState K V)) =
      Except.ok (initState cap)) := by
  constructor
  · intro h
    simp [new, h]
  · intro h
    simp [new, not_le.mpr h]

/-- C9 witness: capacity -3 (and so every non-positive capacity) is
rejected with the error, capacity 2 constructs the empty cache. -/
theorem lru_c9_witness :
    ((-3 : Int) ≤ 0 ∧ (new (-3) : Except String (LRUState Nat Nat)) =
      Except.error "Capacity must be greater than 0") ∧
    ((0 : Int) < 2 ∧ (new 2 : Except String (LRUState Nat Nat)) =
      Except.ok (initState 2)) :=
  ⟨⟨by decide, (lru_constructor_c9 (-3)).1 (by decide)⟩,
    ⟨by decide, (lru_constructor_c9 2).2 (by decide)⟩⟩

end LRUCache

/-! ## Search pipeline lemmas (claims C2 and C3) -/

/-- `foldl` preserves any invariant its step preserves. -/
theorem foldl_invariant {α β : Type} (f : β → α → β) (P : β → Prop)
    (hstep : ∀ b a, P b → P (f b a)) :
    ∀ (l : List α) (b : β), P b → P (l.foldl f b)
  | [], _, hb => hb
  | a :: l, b, hb => foldl_invariant f P hstep l (f b a) (hstep b a hb)

/-- `foldl` establishes any goal some listed element establishes and the
step preserves. -/
theorem foldl_establish {α β : Type} (f : β → α → β) (Q : β → Prop)
    (hmono : ∀ b a, Q b → Q (f b a)) (a0 : α) (hset : ∀ b, Q (f b a0)) :
    ∀ (l : List α) (b : β), a0 ∈ l → Q (l.foldl f b)
  | [], _, h => absurd h (by simp)
  | a :: l, b, h => by
    simp only [List.foldl_cons]
    by_cases hc : a0 ∈ l
    · exact foldl_establish f Q hmono a0 hset l _ hc
    · have ha : a = a0 := by
        rcases List.mem_cons.mp h with h1 | h1
        · exact h1.symm
        · exact absurd h1 hc
      subst ha
      exact foldl_invariant f Q hmono l _ (hset b)

/-- Every `INGESTION_RULES` weight is at least 0.5 (= 50), and the `||`
default is 0.5, so every term weight is at least 50. -/
theorem calculateTermWeight_ge (t : String) : 50 ≤ calculateTermWeight t := by
  cases hf : INGESTION_RULES.find? (fun r => strIncludes r.field t) with
  | none => simp [calculateTermWeight, hf]
  | some r =>
    have hmem := List.mem_of_find?_eq_some hf
    have h2 : ∀ x ∈ INGESTION_RULES, 50 ≤ (if x.weight = 0 then 50 else x.weight) := by
      decide
    simp only [calculateTermWeight, hf]
    exact h2 r hmem

/-- Any key of `mapSet l k a` is a key of `l` or is `k`. -/
theorem mapSet_keys_mem {l : List (K × β)} {k d : K} {a : β}
    (h : d ∈ (mapSet l k a).map (·.1)) : d ∈ l.map (·.1) ∨ d = k := by
  induction l with
  | nil =>
    simp only [mapSet] at h
    rw [List.map_cons, List.map_nil, List.mem_cons] at h
    rcases h with h1 | h1
    · exact Or.inr h1
    · simp at h1
  | cons e rest ih =>
    obtain ⟨k', b⟩ := e
    by_cases hk : k' = k
    · simp only [mapSet] at h
      rw [if_pos hk, List.map_cons, List.mem_cons] at h
      rcases h with h1 | h1
      · exact Or.inr h1
      · exact Or.inl (by rw [List.map_cons]; exact List.mem_cons_of_mem _ h1)
    · simp only [mapSet] at h
      rw [if_neg hk, List.map_cons, List.mem_cons] at h
      rcases h with h1 | h1
      · exact Or.inl (by rw [List.map_cons]; exact List.mem_cons.mpr (Or.inl h1))
      · rcases ih h1 with h2 | h2
        · exact Or.inl (by rw [List.map_cons]; exact List.mem_cons_of_mem _ h2)
        · exact Or.inr h2

/-- `mapSet` keeps the keys duplicate-free. -/
theorem mapSet_keys_nodup {l : List (K × β)} (h : (l.map (·.1)).Nodup)
    (k : K) (a : β) : ((mapSet l k a).map (·.1)).Nodup := by
  induction l with
  | nil => simp [mapSet]
  | cons e rest ih =>
    obtain ⟨k', b⟩ := e
    rw [List.map_cons, List.nodup_cons] at h
    by_cases hk : k' = k
    · simp only [mapSet]
      rw [if_pos hk, List.map_cons, List.nodup_cons]
      subst hk
      exact h
    · simp only [mapSet]
      rw [if_neg hk, List.map_cons, List.nodup_cons]
      refine ⟨?_, ih h.2⟩
      intro hc
      rcases mapSet_keys_mem hc with h2 | h2
      · exact h.1 h2
      · exact hk h2

/-- On a duplicate-free map, an entry of `mapSet l k a` is the new pair or
an old entry for a different key. -/
theorem mem_mapSet_nodup {l : List (K × β)} (h : (l.map (·.1)).Nodup)
    {k : K} {a : β} {e : K × β} (he : e ∈ mapSet l k a) :
    e = (k, a) ∨ (e ∈ l ∧ e.1 ≠ k) := by
  induction l with
  | nil =>
    simp only [mapSet] at he
    rw [List.mem_cons] at he
    rcases he with h1 | h1
    · exact Or.inl h1
    · simp at h1
  | cons f rest ih =>
    obtain ⟨k', b⟩ := f
    rw [List.map_cons, List.nodup_cons] at h
    by_cases hk : k' = k
    · simp only [mapSet] at he
      rw [if_pos hk, List.mem_cons] at he
      rcases he with h1 | h1
      · exact Or.inl h1
      · refine Or.inr ⟨List.mem_cons_of_mem _ h1, ?_⟩
        intro hc
        have h3 : e.1 ∈ List.map (fun x => x.1) rest :=
          List.mem_map.mpr ⟨e, h1, rfl⟩
        rw [hc, ← hk] at h3
        exact h.1 h3
    · simp only [mapSet] at he
      rw [if_neg hk, List.mem_cons] at he
      rcases he with h1 | h1
      · refine Or.inr ⟨by rw [h1]; exact List.mem_cons_self _ _, ?_⟩
        rw [h1]
        exact hk
      · rcases ih h.2 h1 with h2 | h2
        · exact Or.inl h2
        · exact Or.inr ⟨List.mem_cons_of_mem _ h2.1, h2.2⟩

/-- `Set.prototype.add` contains the added element. -/
theorem setAdd_mem_self (l : List String) (s : String) : s ∈ setAdd l s := by
  rw [setAdd]
  by_cases hc : l.contains s = true
  · rw [if_pos hc]
    exact List.elem_iff.mp hc
  · rw [if_neg hc]
    simp

/-- `Set.prototype.add` keeps the existing elements. -/
theorem setAdd_mem_mono {l : List String} {a : String} (h : a ∈ l)
    (s : String) : a ∈ setAdd l s := by
  rw [setAdd]
  by_cases hc : l.contains s = true
  · rw [if_pos hc]
    exact h
  · rw [if_neg hc]
    exact List.mem_append_left _ h

/-- The keyword-index upsert registers the case id under the keyword. -/
theorem kiUpsert_self (ki : List (String × List String)) (norm cid : String) :
    cid ∈ (mapGet? (kiUpsert ki norm cid) norm).getD [] := by
  cases hm : mapGet? ki norm with
  | none =>
    simp only [kiUpsert, hm, mapGet?_mapSet_self, Option.getD_some]
    exact setAdd_mem_self [] cid
  | some s =>
    simp only [kiUpsert, hm, mapGet?_mapSet_self, Option.getD_some]
    exact setAdd_mem_self s cid

/-- The keyword-index upsert keeps every registered case id. -/
theorem kiUpsert_mono {ki : List (String × List String)} {t cid' : String}
    (h : cid' ∈ (mapGet? ki t).getD []) (norm cid : String) :
    cid' ∈ (mapGet? (kiUpsert ki norm cid) t).getD [] := by
  by_cases ht : t = norm
  · subst ht
    cases hm : mapGet? ki t with
    | none => rw [hm] at h; simp at h
    | some s =>
      rw [hm] at h
      simp only [Option.getD_some] at h
      simp only [kiUpsert, hm, mapGet?_mapSet_self, Option.getD_some]
      exact setAdd_mem_mono h cid
  · have hne : t ≠ norm := ht
    cases hm : mapGet? ki norm with
    | none =>
      simpa only [kiUpsert, hm, mapGet?_mapSet_ne _ _ hne] using h
    | some s =>
      simpa only [kiUpsert, hm, mapGet?_mapSet_ne _ _ hne] using h

/-- The artifact-bonus fold of `search` keeps the score positive and the
`case_id` unchanged. -/
theorem artifactFold_P (t : String) (cid : String)
    (l : List (String × ForensicArtifact)) (r : SearchResult)
    (h : 0 < r.relevance_score ∧ r.case_id = cid) :
    0 < (l.foldl (fun r p =>
        if strIncludes (strLower p.2.type) t || strIncludes (strLower p.2.description) t
        then { r with matched_artifacts := r.matched_artifacts ++ [p.1],
                      relevance_score := r.relevance_score + 30 }
        else r) r).relevance_score ∧
      (l.foldl (fun r p =>
        if strIncludes (strLower p.2.type) t || strIncludes (strLower p.2.description) t
        then { r with matched_artifacts := r.matched_artifacts ++ [p.1],
                      relevance_score := r.relevance_score + 30 }
        else r) r).case_id = cid := by
  apply foldl_invariant _ (fun x => 0 < x.relevance_score ∧ x.case_id = cid) ?_ l r h
  intro b a hb
  obtain ⟨hb1, hb2⟩ := hb
  by_cases hcond : (strIncludes (strLower a.2.type) t ||
      strIncludes (strLower a.2.description) t) = true
  · rw [if_pos hcond]
    refine ⟨?_, ?_⟩
    · show 0 < b.relevance_score + 30
      omega
    · show b.case_id = cid
      exact hb2
  · rw [if_neg hcond]
    exact ⟨hb1, hb2⟩

/-- The finding-bonus fold of `search` keeps the score positive and the
`case_id` unchanged. -/
theorem findingFold_P (t : String) (cid : String)
    (l : List (String × Finding)) (r : SearchResult)
    (h : 0 < r.relevance_score ∧ r.case_id = cid) :
    0 < (l.foldl (fun r p =>
        if strIncludes (strLower p.2.description) t
        then { r with matched_findings := r.matched_findings ++ [p.1],
                      relevance_score := r.relevance_score + 25 }
        else r) r).relevance_score ∧
      (l.foldl (fun r p =>
        if strIncludes (strLower p.2.description) t
        then { r with matched_findings := r.matched_findings ++ [p.1],
                      relevance_score := r.relevance_score + 25 }
        else r) r).case_id = cid := by
  apply foldl_invariant _ (fun x => 0 < x.relevance_score ∧ x.case_id = cid) ?_ l r h
  intro b a hb
  obtain ⟨hb1, hb2⟩ := hb
  by_cases hcond : (strIncludes (strLower a.2.description) t) = true
  · rw [if_pos hcond]
    refine ⟨?_, ?_⟩
    · show 0 < b.relevance_score + 25
      omega
    · show b.case_id = cid
      exact hb2
  · rw [if_neg hcond]
    exact ⟨hb1, hb2⟩

/-- After a hit is applied for `cid`, the results map has an entry at
`cid`. -/
theorem applyCaseHit_isSome_self (st : IngestState) (t : String)
    (results : List (String × SearchResult)) (cid : String) :
    (mapGet? (applyCaseHit st t results cid) cid).isSome = true := by
  simp only [applyCaseHit]
  rw [mapGet?_mapSet_self]
  rfl

/-- A hit for `cid` leaves every other key's entry untouched. -/
theorem applyCaseHit_get_frame (st : IngestState) (t : String)
    (results : List (String × SearchResult)) (cid : String) {d : String}
    (hd : d ≠ cid) :
    mapGet? (applyCaseHit st t results cid) d = mapGet? results d := by
  simp only [applyCaseHit]
  rw [mapGet?_mapSet_ne _ _ hd]
  by_cases hc : (mapGet? results cid).isNone = true
  · rw [if_pos hc, mapGet?_mapSet_ne _ _ hd]
  · rw [if_neg hc]

/-- A hit preserves existing entries (as far as existence goes). -/
theorem applyCaseHit_isSome_mono (st : IngestState) (t : String)
    (results : List (String × SearchResult)) (cid : String) {d : String}
    (h : (mapGet? results d).isSome = true) :
    (mapGet? (applyCaseHit st t results cid) d).isSome = true := by
  by_cases hd : d = cid
  · subst hd
    exact applyCaseHit_isSome_self st t results d
  · rw [applyCaseHit_get_frame st t results cid hd]
    exact h

/-- A hit preserves the results-map invariant. -/
theorem applyCaseHit_inv (st : IngestState) (t : String)
    (results : List (String × SearchResult)) (cid : String)
    (h : ResultsInv results) : ResultsInv (applyCaseHit st t results cid) := by
  obtain ⟨hnd, hinv⟩ := h
  have hw := calculateTermWeight_ge t
  by_cases hc : (mapGet? results cid).isNone = true
  · constructor
    · simp only [applyCaseHit]
      rw [if_pos hc]
      exact mapSet_keys_nodup (mapSet_keys_nodup hnd _ _) _ _
    · intro e he
      simp only [applyCaseHit] at he
      rw [if_pos hc] at he
      simp only [mapGet?_mapSet_self, Option.getD_some] at he
      have hnd1 := mapSet_keys_nodup hnd cid (emptySearchResult cid)
      rcases mem_mapSet_nodup hnd1 he with h2 | h2
      · rw [h2]
        refine findingFold_P t cid _ _ (artifactFold_P t cid _ _ ⟨?_, ?_⟩)
        · show 0 < (emptySearchResult cid).relevance_score + calculateTermWeight t
          show 0 < 0 + calculateTermWeight t
          omega
        · rfl
      · rcases mem_mapSet_nodup hnd h2.1 with h3 | h3
        · exact absurd (by rw [h3]) h2.2
        · exact hinv e h3.1
  · have hs : (mapGet? results cid).isSome = true := by
      cases hmm : mapGet? results cid with
      | none => rw [hmm] at hc; simp at hc
      | some rr => rfl
    obtain ⟨rr, hrr⟩ := Option.isSome_iff_exists.mp hs
    have hbase := hinv (cid, rr) (mem_of_mapGet?_eq_some hrr)
    constructor
    · simp only [applyCaseHit]
      rw [if_neg hc]
      exact mapSet_keys_nodup hnd _ _
    · intro e he
      simp only [applyCaseHit] at he
      rw [if_neg hc, hrr] at he
      simp only [Option.getD_some] at he
      rcases mem_mapSet_nodup hnd he with h2 | h2
      · rw [h2]
        refine findingFold_P t cid _ _ (artifactFold_P t cid _ _ ⟨?_, ?_⟩)
        · show 0 < rr.relevance_score + calculateTermWeight t
          have hb1 : 0 < rr.relevance_score := hbase.1
          omega
        · exact hbase.2
      · exact hinv e h2.1

/-- One `queryTerms.forEach` iteration preserves the invariant. -/
theorem applyTerm_inv (st : IngestState) (results : List (String × SearchResult))
    (t : String) (h : ResultsInv results) : ResultsInv (applyTerm st results t) :=
  foldl_invariant _ ResultsInv (fun b a hb => applyCaseHit_inv st t b a hb)
    _ results h

theorem applyTerm_isSome_mono (st : IngestState)
    (results : List (String × SearchResult)) (t : String) {d : String}
    (h : (mapGet? results d).isSome = true) :
    (mapGet? (applyTerm st results t) d).isSome = true :=
  foldl_invariant _ (fun res => (mapGet? res d).isSome = true)
    (fun b a hb => applyCaseHit_isSome_mono st t b a hb) _ results h

theorem applyTerm_establish (st : IngestState)
    (results : List (String × SearchResult)) (t : String) {cid : String}
    (hcid : cid ∈ (mapGet? st.keywordIndex t).getD []) :
    (mapGet? (applyTerm st results t) cid).isSome = true :=
  foldl_establish _ (fun res => (mapGet? res cid).isSome = true)
    (fun b a hb => applyCaseHit_isSome_mono st t b a hb) cid
    (fun b => applyCaseHit_isSome_self st t b cid) _ results hcid

/-- The full results map of `search` satisfies the invariant. -/
theorem searchResultsMap_inv (st : IngestState) (q : String) :
    ResultsInv (searchResultsMap st q) :=
  foldl_invariant _ ResultsInv (fun b a hb => applyTerm_inv st b a hb) _ []
    ⟨List.nodup_nil, by simp⟩

/-- A query term carried by the keyword index puts its posted case ids
into the results map. -/
theorem searchResultsMap_establish (st : IngestState) (q : String)
    {t cid : String} (ht : t ∈ tokenize q)
    (hcid : cid ∈ (mapGet? st.keywordIndex t).getD []) :
    (mapGet? (searchResultsMap st q) cid).isSome = true :=
  foldl_establish _ (fun res => (mapGet? res cid).isSome = true)
    (fun b a hb => applyTerm_isSome_mono st b a hb) t
    (fun b => applyTerm_establish st b t hcid) _ [] ht

/-- The stable insertion behind the sort is a permutation. -/
theorem insertDesc_perm (x : SearchResult) :
    ∀ l, (insertDesc x l).Perm (x :: l)
  | [] => List.Perm.refl _
  | y :: ys => by
    simp only [insertDesc]
    split
    · exact List.Perm.refl _
    · exact ((insertDesc_perm x ys).cons y).trans (List.Perm.swap x y ys)

/-- The insertion sort is a permutation of its input. -/
theorem sortByScoreDesc_perm (l : List SearchResult) :
    (sortByScoreDesc l).Perm l := by
  have haux : ∀ (l acc : List SearchResult),
      (l.foldl (fun acc x => insertDesc x acc) acc).Perm (l ++ acc) := by
    intro l
    induction l with
    | nil => intro acc; simp
    | cons a t ih =>
      intro acc
      simp only [List.foldl_cons, List.cons_append]
      refine (ih (insertDesc a acc)).trans ?_
      refine (List.Perm.append_left t (insertDesc_perm a acc)).trans ?_
      exact List.perm_middle
  have h2 := haux l []
  simpa [sortByScoreDesc] using h2

/-- A results-map entry appears in the output list whenever the limit
covers the whole map. -/
theorem search_mem_of_entry (st : IngestState) (q : String) {cid : String}
    {r : SearchResult} (h : mapGet? (searchResultsMap st q) cid = some r)
    {lim : Nat} (hlim : (searchResultsMap st q).length ≤ lim) :
    r ∈ search st q lim := by
  have hmem : (cid, r) ∈ searchResultsMap st q := mem_of_mapGet?_eq_some h
  have hmem2 : r ∈ (searchResultsMap st q).map (·.2) :=
    List.mem_map.mpr ⟨(cid, r), hmem, rfl⟩
  have hperm := sortByScoreDesc_perm ((searchResultsMap st q).map (·.2))
  have hlen : (sortByScoreDesc ((searchResultsMap st q).map (·.2))).length ≤ lim := by
    rw [hperm.length_eq]
    simpa using hlim
  rw [search, List.take_of_length_le hlen]
  exact hperm.mem_iff.mpr hmem2

/-- Everything `search` returns carries a strictly positive score. -/
theorem search_entry_pos (st : IngestState) (q : String) (lim : Nat) :
    ∀ r ∈ search st q lim, 0 < r.relevance_score := by
  intro r hr
  rw [search] at hr
  have h2 : r ∈ sortByScoreDesc ((searchResultsMap st q).map (·.2)) :=
    List.mem_of_mem_take hr
  have h3 : r ∈ (searchResultsMap st q).map (·.2) :=
    (sortByScoreDesc_perm _).mem_iff.mp h2
  obtain ⟨e, he, rfl⟩ := List.mem_map.mp h3
  exact ((searchResultsMap_inv st q).2 e he).1

/-- The keyword-index component of the pair fold inside `ingestCase` only
depends on its own component. -/
theorem pairfold_snd (cid : String) :
    ∀ (l : List String) (a : List String) (ki : List (String × List String)),
    (l.foldl (fun (p : List String × List (String × List String)) kw =>
      (setAdd p.1 (strLower kw), kiUpsert p.2 (strLower kw) cid)) (a, ki)).2 =
    l.foldl (fun ki kw => kiUpsert ki (strLower kw) cid) ki
  | [], _, _ => rfl
  | kw :: rest, a, ki => by
    simp only [List.foldl_cons]
    exact pairfold_snd cid rest _ _

/-- `ingestCase` updates the keyword index by upserting the case id under
each lowercased keyword. -/
theorem ingestCase_keywordIndex (st : IngestState) (c : CaseStudyEnhanced) :
    (ingestCase st c).keywordIndex =
      c.keywords.foldl (fun ki kw => kiUpsert ki (strLower kw) c.case_id)
        st.keywordIndex := by
  simp only [ingestCase]
  exact pairfold_snd c.case_id c.keywords _ _

/-- After ingesting a case, each of its lowercased keywords posts the
case id. -/
theorem ingestCase_kw (st : IngestState) (c : CaseStudyEnhanced) {kw : String}
    (hkw : kw ∈ c.keywords) :
    c.case_id ∈ (mapGet? (ingestCase st c).keywordIndex (strLower kw)).getD [] := by
  rw [ingestCase_keywordIndex]
  exact foldl_establish _ (fun ki => c.case_id ∈ (mapGet? ki (strLower kw)).getD [])
    (fun b a hb => kiUpsert_mono hb _ _) kw
    (fun b => kiUpsert_self b (strLower kw) c.case_id) _ _ hkw

/-- Ingesting further cases never removes a keyword-index posting. -/
theorem ingestCase_ki_mono (st : IngestState) (c : CaseStudyEnhanced)
    {t cid' : String} (h : cid' ∈ (mapGet? st.keywordIndex t).getD []) :
    cid' ∈ (mapGet? (ingestCase st c).keywordIndex t).getD [] := by
  rw [ingestCase_keywordIndex]
  exact foldl_invariant _ (fun ki => cid' ∈ (mapGet? ki t).getD [])
    (fun b a hb => kiUpsert_mono hb _ _) _ _ h

/-- After `ingestCases`, each ingested case is posted under each of its
lowercased keywords. -/
theorem ingestCases_kw (cs : List CaseStudyEnhanced) (st0 : IngestState)
    {c : CaseStudyEnhanced} (hc : c ∈ cs) {kw : String} (hkw : kw ∈ c.keywords) :
    c.case_id ∈
      (mapGet? (ingestCases st0 cs).keywordIndex (strLower kw)).getD [] := by
  rw [ingestCases]
  exact foldl_establish _
    (fun st => c.case_id ∈ (mapGet? st.keywordIndex (strLower kw)).getD [])
    (fun b a hb => ingestCase_ki_mono b a hb) c
    (fun b => ingestCase_kw b c hkw) _ _ hc

/-! ## Claim C2 — search reachability -/

/-- C2 (amended): for every ingested case and every query whose
tokenization contains one of the case's lowercased `keywords` entries,
`search` scores the case strictly positively and stores it in its results
map keyed by the case's own id; the case reaches the returned list
whenever the limit covers the results map.  (A case's `case_id` itself is
*not* what the keyword index is keyed by — see the counterexample.) -/
theorem search_keyword_c2 (cs : List CaseStudyEnhanced)
    (c : CaseStudyEnhanced) (hc : c ∈ cs) (kw : String)
    (hkw : kw ∈ c.keywords) (q : String)
    (htok : strLower kw ∈ tokenize q) (lim : Nat) :
    (∃ r, mapGet? (searchResultsMap (ingestCases emptyIngest cs) q) c.case_id =
        some r ∧ 0 < r.relevance_score ∧ r.case_id = c.case_id) ∧
    ((searchResultsMap (ingestCases emptyIngest cs) q).length ≤ lim →
      ∃ r ∈ search (ingestCases emptyIngest cs) q lim,
        r.case_id = c.case_id ∧ 0 < r.relevance_score) := by
  have hpost := ingestCases_kw cs emptyIngest hc hkw
  have hsome := searchResultsMap_establish (ingestCases emptyIngest cs) q htok hpost
  obtain ⟨r, hr⟩ := Option.isSome_iff_exists.mp hsome
  have hinv := (searchResultsMap_inv (ingestCases emptyIngest cs) q).2
    (c.case_id, r) (mem_of_mapGet?_eq_some hr)
  have hrpos : 0 < r.relevance_score := hinv.1
  have hrcid : r.case_id = c.case_id := hinv.2
  refine ⟨⟨r, hr, hrpos, hrcid⟩, ?_⟩
  intro hlim
  exact ⟨r, search_mem_of_entry _ _ hr hlim, hrcid, hrpos⟩

/-- C2 counterexample: `alpha-case` is ingested and the query consists of
exactly its `case_id` as one token, yet `search` returns nothing — the
keyword index is populated only from the `keywords` field, never from
`case_id`. -/
theorem search_c2_cex :
    alphaCase.case_id ∈ tokenize "alpha-case" ∧
    search (ingestCases emptyIngest [alphaCase]) "alpha-case" 5 = [] := by
  decide

/-- C2 witness: the amended theorem at the ingested `alpha-case`, keyword
`ransomware` and query `"ransomware attack"`. -/
theorem search_c2_witness :
    (alphaCase ∈ [alphaCase] ∧ "ransomware" ∈ alphaCase.keywords ∧
      strLower "ransomware" ∈ tokenize "ransomware attack" ∧
      (searchResultsMap (ingestCases emptyIngest [alphaCase])
        "ransomware attack").length ≤ 5) ∧
    ∃ r ∈ search (ingestCases emptyIngest [alphaCase]) "ransomware attack" 5,
      r.case_id = alphaCase.case_id ∧ 0 < r.relevance_score := by
  have h := search_keyword_c2 [alphaCase] alphaCase (by simp) "ransomware"
    (by decide) "ransomware attack" (by decide) 5
  exact ⟨⟨by simp, by decide, by decide, by decide⟩, h.2 (by decide)⟩

/-! ## Claim C3 — confidence bounds -/

/-- C3 (amended): every completed response has a non-negative confidence,
and every citation it carries has a non-negative confidence (validated
citations get exactly 0.8 = 80; fallback citations inherit the raw search
score).  The upper bound 1 (= 100) claimed by the spec's schema does not
hold — see the counterexample. -/
theorem rag_confidence_c3 (st : RAGState) (q : String) (r : RAGResponse)
    (h : processQuery st q = some r) :
    0 ≤ r.confidence ∧ ∀ c ∈ r.citations, 0 ≤ c.confidence := by
  rw [processQuery] at h
  by_cases hf : isForensicQuery q
  · rw [if_neg (by simp [hf])] at h
    by_cases hz : (search st.ingest q 3).length = 0
    · rw [if_pos hz] at h
      have hr := Option.some.inj h
      rw [← hr]
      exact ⟨le_refl 0, by simp⟩
    · rw [if_neg hz] at h
      simp only [] at h
      cases hgen : generateResponse q (detectPromptMode q)
          ((search st.ingest q 3).filterMap
            (fun r => mapGet? st.enhancedCases r.case_id)) with
      | none => rw [hgen] at h; cases h
      | some answer =>
        rw [hgen] at h
        cases hfu : generateFollowUps (detectPromptMode q)
            ((search st.ingest q 3).filterMap
              (fun r => mapGet? st.enhancedCases r.case_id)) with
        | none => rw [hfu] at h; cases h
        | some fu =>
          rw [hfu] at h
          have hr := Option.some.inj h
          rw [← hr]
          constructor
          · show (0 : Int) ≤ (match (search st.ingest q 3).head? with
              | some r0 =>
                if r0.relevance_score = 0 then (50 : Int) else r0.relevance_score
              | none => (50 : Int))
            cases hh : (search st.ingest q 3).head? with
            | none => simp
            | some r0 =>
              have hmem : r0 ∈ search st.ingest q 3 := by
                have h5 := hh
                cases hl : search st.ingest q 3 with
                | nil => rw [hl] at h5; cases h5
                | cons x xs =>
                  rw [hl] at h5
                  simp only [List.head?_cons, Option.some.injEq] at h5
                  rw [h5]
                  exact List.mem_cons_self _ _
              have hpos := search_entry_pos st.ingest q 3 r0 hmem
              simp only [hh]
              split
              · simp
              · exact le_of_lt hpos
          · intro c hcmem
            have hcm2 : c ∈ (if 0 <
                (((extractCitations answer).filter
                  (validateCitation st.ingest)).map parseCitation).length
              then ((extractCitations answer).filter
                  (validateCitation st.ingest)).map parseCitation
              else (search st.ingest q 3).map (fun r =>
                Citation.mk r.case_id r.matched_artifacts.head?
                  r.matched_findings.head? r.relevance_score)) := hcmem
            by_cases hv : 0 < (((extractCitations answer).filter
                (validateCitation st.ingest)).map parseCitation).length
            · rw [if_pos hv] at hcm2
              obtain ⟨s, hs, rfl⟩ := List.mem_map.mp hcm2
              show (0 : Int) ≤ 80
              norm_num
            · rw [if_neg hv] at hcm2
              obtain ⟨r0, hr0, rfl⟩ := List.mem_map.mp hcm2
              show 0 ≤ r0.relevance_score
              exact le_of_lt (search_entry_pos st.ingest q 3 r0 hr0)
  · rw [if_pos (by simp [hf])] at h
    have hr := Option.some.inj h
    rw [← hr]
    exact ⟨le_refl 0, by simp⟩

/-- C3 counterexample: a query matching three indexed keywords yields a
response whose confidence is the raw score 1.5 (= 150 scaled), outside
the claimed interval [0, 1]; with no valid citation in the generated
walkthrough text, the fallback citation inherits the same out-of-range
confidence. -/
theorem rag_c3_cex :
    ((processQuery (ragStateOfCases [alphaCase])
        "how do i ransomware malware registry").map (fun r => r.confidence)) =
      some 150 ∧
    ((processQuery (ragStateOfCases [alphaCase])
        "how do i ransomware malware registry").map
      (fun r => r.citations.map (·.confidence))) = some [150] ∧
    ¬ ((150 : Int) ≤ 100) := by
  decide

/-- C3 witness: the amended non-negativity applied to the same concrete
query. -/
theorem rag_c3_witness :
    ∃ r, processQuery (ragStateOfCases [alphaCase])
        "how do i ransomware malware registry" = some r ∧
      0 ≤ r.confidence ∧ ∀ c ∈ r.citations, 0 ≤ c.confidence := by
  cases hx : processQuery (ragStateOfCases [alphaCase])
      "how do i ransomware malware registry" with
  | none =>
    exfalso
    have h2 : (processQuery (ragStateOfCases [alphaCase])
        "how do i ransomware malware registry").isSome = true := by decide
    rw [hx] at h2
    simp at h2
  | some r =>
    have h3 := rag_confidence_c3 _ _ _ hx
    exact ⟨r, rfl, h3.1, h3.2⟩

/-! ## Claim C1 — citation validation -/

/-- C1 (amended): a bracket-extracted citation is kept in the validated
list exactly when `validateCitation` accepts it (no error is ever raised,
rejected citations are silently dropped), and `validateCitation` accepts
exactly the one-part citations naming an existing case and the two-part
citations naming an existing case plus one of its artifact or finding
ids — the three-part `case_id:item_id:sub_id` shape admitted by the claim
is always rejected. -/
theorem citation_retention_c1 (st : IngestState) (answer : String)
    (cit : String) :
    (cit ∈ validatedCitationStrs st answer ↔
      cit ∈ extractCitations answer ∧ validateCitation st cit = true) ∧
    validateCitation st cit = amendedRetainedC1 st cit := by
  constructor
  · rw [validatedCitationStrs, List.mem_filter]
  · cases hp : splitColon cit with
    | nil => simp [validateCitation, amendedRetainedC1, hp]
    | cons a t =>
      cases t with
      | nil =>
        simp [validateCitation, amendedRetainedC1, hp, caseExistsInLedger]
      | cons b t2 =>
        cases t2 with
        | nil =>
          cases hm : mapGet? st.indexedCases a with
          | none =>
            simp [validateCitation, amendedRetainedC1, hp, caseExistsInLedger,
              itemExistsInCase, hm]
          | some ic =>
            simp [validateCitation, amendedRetainedC1, hp, caseExistsInLedger,
              itemExistsInCase, hm]
        | cons c3 t3 =>
          simp [validateCitation, amendedRetainedC1, hp]

/-! ## Claim C4 — follow-up suggestions -/

/-- Whenever `generateFollowUps` returns, it returns exactly three
suggestions. -/
theorem generateFollowUps_length (mode : PromptMode)
    (cases : List CaseStudyEnhanced) (l : List String)
    (h : generateFollowUps mode cases = some l) : l.length = 3 := by
  cases mode with
  | direct_qa =>
    cases cases with
    | nil => simp [generateFollowUps] at h
    | cons c rest =>
      simp only [generateFollowUps, Option.some.injEq] at h
      rw [← h]
      rfl
  | guided_walkthrough =>
    simp only [generateFollowUps, Option.some.injEq] at h
    rw [← h]
    rfl
  | teaching =>
    simp only [generateFollowUps, Option.some.injEq] at h
    rw [← h]
    rfl

/-- C4 (amended): every response `processQuery` actually returns carries
exactly 3 follow-up suggestions; in the zero-match case they are the fixed
triple `zeroMatchFollowUps` — the list of all known case ids goes into the
answer text, not into the suggestions. -/
theorem rag_followups_c4 (st : RAGState) (q : String) (r : RAGResponse)
    (h : processQuery st q = some r) :
    r.follow_up_suggestions.length = 3 ∧
    (isForensicQuery q = true → search st.ingest q 3 = [] →
      r.follow_up_suggestions = zeroMatchFollowUps) := by
  rw [processQuery] at h
  by_cases hf : isForensicQuery q
  · rw [if_neg (by simp [hf])] at h
    by_cases hz : (search st.ingest q 3).length = 0
    · rw [if_pos hz] at h
      have hr := Option.some.inj h
      rw [← hr]
      exact ⟨rfl, fun _ _ => rfl⟩
    · rw [if_neg hz] at h
      simp only [] at h
      constructor
      · cases hgen : generateResponse q (detectPromptMode q)
          ((search st.ingest q 3).filterMap
            (fun r => mapGet? st.enhancedCases r.case_id)) with
        | none => rw [hgen] at h; cases h
        | some answer =>
          rw [hgen] at h
          cases hfu : generateFollowUps (detectPromptMode q)
            ((search st.ingest q 3).filterMap
              (fun r => mapGet? st.enhancedCases r.case_id)) with
          | none => rw [hfu] at h; cases h
          | some fu =>
            rw [hfu] at h
            have hr := Option.some.inj h
            rw [← hr]
            exact generateFollowUps_length _ _ _ hfu
      · intro _ hs
        rw [hs] at hz
        simp at hz
  · rw [if_pos (by simp [hf])] at h
    have hr := Option.some.inj h
    rw [← hr]
    refine ⟨rfl, fun hcon _ => absurd hcon hf⟩

/-- C4 counterexample: on a zero-match forensic query over a ledger whose
only case id is `alpha-case`, the follow-up suggestions are the fixed
triple `zeroMatchFollowUps`, none of which mentions `alpha-case` — the
case-id listing lands in the answer text instead. -/
theorem rag_c4_cex :
    ((processQuery (ragStateOfCases [alphaCase]) "zzzz forensic query").map
      (fun r => r.follow_up_suggestions)) = some zeroMatchFollowUps ∧
    getAllCaseIds (ragStateOfCases [alphaCase]).ingest = ["alpha-case"] ∧
    (∀ s ∈ zeroMatchFollowUps, strIncludes s "alpha-case" = false) ∧
    ((processQuery (ragStateOfCases [alphaCase]) "zzzz forensic query").map
      (fun r => strIncludes r.answer "alpha-case")) = some true := by
  decide

/-- C4 witness: the amended theorem applied to the zero-match query
`"zzzz forensic query"` (its hypotheses checked by computation). -/
theorem rag_c4_witness :
    ∃ r, processQuery (ragStateOfCases [alphaCase]) "zzzz forensic query" =
        some r ∧
      r.follow_up_suggestions.length = 3 ∧
      r.follow_up_suggestions = zeroMatchFollowUps := by
  cases hx : processQuery (ragStateOfCases [alphaCase]) "zzzz forensic query" with
  | none =>
    exfalso
    have h2 : (processQuery (ragStateOfCases [alphaCase])
        "zzzz forensic query").isSome = true := by decide
    rw [hx] at h2
    simp at h2
  | some r =>
    have h3 := rag_followups_c4 _ _ _ hx
    exact ⟨r, rfl, h3.1, h3.2 (by decide) (by decide)⟩

/-- C1 counterexample: the three-part citation
`alpha-case:artifact_1:x` satisfies the claim's retention condition (the
case exists and `artifact_1` is a real artifact id) and is extracted from
the answer text, yet the validated list drops it. -/
theorem citation_c1_cex :
    claimRetainedC1 (ingestCase emptyIngest alphaCase)
      "alpha-case:artifact_1:x" = true ∧
    extractCitations "see [alpha-case:artifact_1:x] here" =
      ["alpha-case:artifact_1:x"] ∧
    validatedCitationStrs (ingestCase emptyIngest alphaCase)
      "see [alpha-case:artifact_1:x] here" = [] := by
  decide

end AV
